import Mathlib

/-!
# LayerGraphicsLoader (tgfx): verification development

Shallow embedding of `src/layers/LayerGraphicsLoader.{h,cpp}`.

* Raw pointers (`Layer*`, `const void*` source identities, `Context*`) are natural numbers,
  `0` is `nullptr`.
* `std::unordered_map` is an association list: `find` returns the first entry with a key,
  `assign` (operator `[]` followed by an assignment) replaces the entry in place or appends a
  new one, `erase` drops the key.  Iteration visits the entries in list order.
* `std::unordered_set<Layer*>` is a list kept free of duplicates by `setInsert`.
* Calls that leave the loader (`Task::Run`, `Task::cancel`, `Layer::invalidateAsyncContent`)
  are recorded, in call order, in the trace fields `started`, `canceled`, `invalidated`.
* A failing `DEBUG_ASSERT` whose failure makes the release build dereference an end iterator
  is the result `none`.
-/

namespace tgfx

/-! ## Pointer-keyed maps and sets -/

/-- Model of `std::unordered_map<K*, V>`: association list keyed by address. -/
abbrev PtrMap (V : Type) := List (Nat × V)

namespace PtrMap

variable {V : Type}

/-- Lookup `m.find(k)`: `none` stands for the end iterator. -/
def find : PtrMap V → Nat → Option V
  | [], _ => none
  | (k', v) :: m, k => if k' = k then some v else find m k

/-- Removal `m.erase(k)`. -/
def erase : PtrMap V → Nat → PtrMap V
  | [], _ => []
  | (k', v) :: m, k => if k' = k then erase m k else (k', v) :: erase m k

/-- Assignment `m[k] = v`: replaces the mapped value in place, or adds the key. -/
def assign : PtrMap V → Nat → V → PtrMap V
  | [], k, v => [(k, v)]
  | (k', v') :: m, k, v => if k' = k then (k, v) :: m else (k', v') :: assign m k v

/-- Key list, in iteration order. -/
def keys (m : PtrMap V) : List Nat := m.map Prod.fst

end PtrMap

/-- Set insertion `set.insert(x)` of `std::unordered_set`. -/
def setInsert (s : List Nat) (x : Nat) : List Nat :=
  if x ∈ s then s else s ++ [x]

/-- List removal `list.remove(x)` and set removal `set.erase(x)`: drops every occurrence. -/
def removeAll (l : List Nat) (x : Nat) : List Nat :=
  l.filter (fun y => decide (y ≠ x))

/-! ## Graphics and tasks -/

/-- Value type `Path`; `0` is the default constructed (empty) path. -/
abbrev Path := Nat

/-- Classes `ImageGraphic` and `ShapeGraphic`, the two implementations of `DeferredGraphic`.
`imageBuffer = none` is a null `shared_ptr<ImageBuffer>`. -/
inductive DeferredGraphic where
  | image (generator : Nat) (tryHardware : Bool) (imageBuffer : Option Nat)
  | shape (shape : Nat) (path : Path)
  deriving DecidableEq

namespace DeferredGraphic

/-- Method `getSource()`: `generator.get()` or `shape.get()`. -/
def getSource : DeferredGraphic → Nat
  | image generator _ _ => generator
  | shape sh _ => sh

/-- Method `getBuffer()`: the base class returns `nullptr`, `ImageGraphic` its buffer. -/
def getBuffer : DeferredGraphic → Option Nat
  | image _ _ imageBuffer => imageBuffer
  | shape _ _ => none

/-- Method `getPath()`: the base class returns `{}`, `ShapeGraphic` its path. -/
def getPath : DeferredGraphic → Path
  | image _ _ _ => 0
  | shape _ path => path

/-- Method `load()`.  The results of `generator->makeBuffer(tryHardware)` and of
`shape->getPath()` come from outside the loader and are passed in. -/
def load (makeBuffer : Option Nat) (shapePath : Path) : DeferredGraphic → DeferredGraphic
  | image generator tryHardware _ => image generator tryHardware makeBuffer
  | shape sh _ => shape sh shapePath

end DeferredGraphic

/-- Modelled from the spec: the enum `TaskStatus` of `tgfx/core/Task.h`, which is not part of
the sources at hand; the spec gives the states Queued, Running, Finished and Canceled. -/
inductive TaskStatus where
  | Queued
  | Running
  | Finished
  | Canceled
  deriving DecidableEq

/-- Class `GraphicLoadTask`: a task owning the graphic it loads. -/
structure GraphicLoadTask where
  status : TaskStatus
  graphic : DeferredGraphic
  deriving DecidableEq

/-- Threshold `MIN_ASYNC_LAYER_BATCH_SIZE`. -/
def MIN_ASYNC_LAYER_BATCH_SIZE : Nat := 10

/-! ## Loader state -/

/-- Fields of `LayerGraphicsLoader`, followed by the three call traces. -/
structure Loader where
  context : Nat
  currentLayer : Nat
  maxAsyncGraphicsPerFrame : Nat
  pendingLayers : List Nat
  layerToGraphics : PtrMap (List Nat)
  graphicToLayers : PtrMap (List Nat)
  pendingGraphics : PtrMap DeferredGraphic
  loadingTasks : PtrMap GraphicLoadTask
  completeLayers : List Nat
  completeGraphics : PtrMap DeferredGraphic
  started : List Nat
  canceled : List Nat
  invalidated : List Nat
  deriving DecidableEq

namespace Loader

/-- Freshly constructed loader on which `setMaxAsyncGraphicsPerFrame(cap)` was called. -/
def init (cap : Nat) : Loader :=
  { context := 0, currentLayer := 0, maxAsyncGraphicsPerFrame := cap, pendingLayers := [],
    layerToGraphics := [], graphicToLayers := [], pendingGraphics := [], loadingTasks := [],
    completeLayers := [], completeGraphics := [], started := [], canceled := [],
    invalidated := [] }

/-- Setter `setMaxAsyncGraphicsPerFrame`. -/
def setMaxAsyncGraphicsPerFrame (st : Loader) (count : Nat) : Loader :=
  { st with maxAsyncGraphicsPerFrame := count }

/-- Edge list of a layer: `layerToGraphics[layer]`, empty when the key is absent. -/
def edges (st : Loader) (layer : Nat) : List Nat :=
  (st.layerToGraphics.find layer).getD []

/-- Layers referencing a source: `graphicToLayers[source]`, empty when the key is absent. -/
def layersOf (st : Loader) (source : Nat) : List Nat :=
  (st.graphicToLayers.find source).getD []

/-- Method `addDeferredGraphic`. -/
def addDeferredGraphic (st : Loader) (graphic : DeferredGraphic) : Loader :=
  let source := graphic.getSource
  let st1 := { st with
    layerToGraphics :=
      st.layerToGraphics.assign st.currentLayer (st.edges st.currentLayer ++ [source]) }
  let st2 := { st1 with
    graphicToLayers :=
      st1.graphicToLayers.assign source (st1.layersOf source ++ [st1.currentLayer]) }
  if st2.pendingGraphics.find source = none ∧ st2.loadingTasks.find source = none then
    { st2 with pendingGraphics := st2.pendingGraphics.assign source graphic }
  else st2

/-- Method `loadImage`: the returned buffer (`none` is `nullptr`) and the loader afterwards. -/
def loadImage (st : Loader) (generator : Nat) (tryHardware : Bool) : Option Nat × Loader :=
  match st.completeGraphics.find generator with
  | some graphic => (graphic.getBuffer, st)
  | none =>
    if st.currentLayer ≠ 0 then
      (none, st.addDeferredGraphic (DeferredGraphic.image generator tryHardware none))
    else (none, st)

/-- Method `loadShape`.  The out-parameter `Path* path` is `none` for `nullptr` and otherwise
holds the pointee; the result is the returned flag, the pointee afterwards and the loader. -/
def loadShape (st : Loader) (shape : Nat) (path : Option Path) :
    Bool × Option Path × Loader :=
  match st.completeGraphics.find shape with
  | some graphic =>
    (true, (match path with
      | some _ => some graphic.getPath
      | none => none), st)
  | none =>
    if st.currentLayer ≠ 0 then
      (false, path, st.addDeferredGraphic (DeferredGraphic.shape shape 0))
    else (false, path, st)

end Loader

/-- One call a layer content makes on the loader while it collects its deferred graphics. -/
inductive GraphicRequest where
  | image (generator : Nat) (tryHardware : Bool)
  | shape (shape : Nat) (path : Option Path)
  deriving DecidableEq

/-- Source identity a request is about. -/
def GraphicRequest.source : GraphicRequest → Nat
  | GraphicRequest.image generator _ => generator
  | GraphicRequest.shape sh _ => sh

/-- Graphic a miss constructs for a request: `std::make_unique<ImageGraphic>(generator,
tryHardware)` in `loadImage`, `std::make_unique<ShapeGraphic>(shape)` in `loadShape`. -/
def GraphicRequest.graphic : GraphicRequest → DeferredGraphic
  | GraphicRequest.image generator tryHardware => DeferredGraphic.image generator tryHardware none
  | GraphicRequest.shape sh _ => DeferredGraphic.shape sh 0

/-- Modelled from the spec: class `LayerContent` (`contents/LayerContent.h`) is not part of the
sources at hand.  A content is the sequence of `loadImage` / `loadShape` calls it makes. -/
abbrev LayerContent := List GraphicRequest

namespace Loader

/-- Performs one request of a content.  The flag tells whether the request was a miss, that
is whether the source was absent from the completed cache, so that the call deferred it. -/
def request (st : Loader) (r : GraphicRequest) : Bool × Loader :=
  ((st.completeGraphics.find r.source).isNone,
    match r with
    | GraphicRequest.image generator tryHardware => (st.loadImage generator tryHardware).2
    | GraphicRequest.shape sh path => (st.loadShape sh path).2.2)

/-- Modelled from the spec: `LayerContent::collectDeferredGraphics(loader, context)` is not
part of the sources at hand.  The content issues its requests in order and "returns whether
it produced any deferred sources", that is whether some request was a miss. -/
def collectDeferredGraphics : LayerContent → Loader → Bool × Loader
  | [], st => (false, st)
  | r :: rs, st =>
    let a := st.request r
    let b := collectDeferredGraphics rs a.2
    (a.1 || b.1, b.2)

/-- Method `addAsyncContent`; `content = none` is the null content pointer. -/
def addAsyncContent (st : Loader) (layer : Nat) (content : Option LayerContent) :
    Bool × Loader :=
  match content with
  | none => (false, st)
  | some c =>
    let st1 := { st with currentLayer := layer }
    let r := collectDeferredGraphics c st1
    let st2 := if r.1 then { r.2 with pendingLayers := r.2.pendingLayers ++ [layer] } else r.2
    (r.1, { st2 with currentLayer := 0 })

/-- Body of the loop of `cancelAsyncContent` for one source of the layer.  `none`: the lookup
in `graphicToLayers` gave the end iterator (the `DEBUG_ASSERT` fails). -/
def cancelGraphic (layer : Nat) (st : Loader) (graphic : Nat) : Option Loader :=
  match st.graphicToLayers.find graphic with
  | none => none
  | some layers =>
    let layers1 := removeAll layers layer
    if layers1 ≠ [] then
      some { st with graphicToLayers := st.graphicToLayers.assign graphic layers1 }
    else
      let st1 := { st with
        graphicToLayers := st.graphicToLayers.erase graphic
        pendingGraphics := st.pendingGraphics.erase graphic }
      match st1.loadingTasks.find graphic with
      | some _ =>
        some { st1 with
          canceled := st1.canceled ++ [graphic]
          loadingTasks := st1.loadingTasks.erase graphic }
      | none => some st1

/-- The loop `for (auto& graphic : result->second)` of `cancelAsyncContent`. -/
def cancelLoop (layer : Nat) : List Nat → Loader → Option Loader
  | [], st => some st
  | g :: gs, st =>
    match cancelGraphic layer st g with
    | none => none
    | some st1 => cancelLoop layer gs st1

/-- Method `cancelAsyncContent`. -/
def cancelAsyncContent (st : Loader) (layer : Nat) : Option Loader :=
  let st1 := { st with completeLayers := removeAll st.completeLayers layer }
  match st1.layerToGraphics.find layer with
  | none => some st1
  | some graphics =>
    match cancelLoop layer graphics st1 with
    | none => none
    | some st2 => some { st2 with layerToGraphics := st2.layerToGraphics.erase layer }

/-- Inner loop body of `onAttached`: drops the finished source from one layer and moves the
layer to `completeLayers` once its edge list is empty. -/
def promoteLayer (graphic : Nat) (st : Loader) (layer : Nat) : Loader :=
  let graphics := removeAll (st.edges layer) graphic
  if graphics = [] then
    { st with
      layerToGraphics := st.layerToGraphics.erase layer
      completeLayers := setInsert st.completeLayers layer }
  else
    { st with layerToGraphics := st.layerToGraphics.assign layer graphics }

/-- The branch of `onAttached` taken for a finished task. -/
def promote (st : Loader) (graphic : Nat) (task : GraphicLoadTask) : Loader :=
  let st1 := (st.layersOf graphic).foldl (promoteLayer graphic) st
  { st1 with
    graphicToLayers := st1.graphicToLayers.erase graphic
    completeGraphics := st1.completeGraphics.assign graphic task.graphic
    loadingTasks := st1.loadingTasks.erase graphic }

/-- The sweep loop of `onAttached` over the entries of `loadingTasks`. -/
def sweepLoop : List (Nat × GraphicLoadTask) → Loader → Loader
  | [], st => st
  | (graphic, task) :: rest, st =>
    if task.status = TaskStatus.Finished then sweepLoop rest (st.promote graphic task)
    else sweepLoop rest st

/-- First part of `onAttached`: stores the context and sweeps the finished tasks. -/
def sweep (st : Loader) (current : Nat) : Loader :=
  sweepLoop st.loadingTasks { st with context := current }

/-- Method `onAttached`. -/
def onAttached (st : Loader) (current : Nat) : Loader :=
  let st1 := st.sweep current
  if st1.loadingTasks ≠ [] ∧ st1.completeLayers.length < MIN_ASYNC_LAYER_BATCH_SIZE then st1
  else
    { st1 with
      invalidated := st1.invalidated ++ st1.completeLayers
      completeLayers := [] }

/-- Inner loop body of `onDetached`: starts the load of one source if it is still pending. -/
def dispatch (st : Loader) (graphic : Nat) : Loader :=
  match st.pendingGraphics.find graphic with
  | none => st
  | some g =>
    { st with
      started := st.started ++ [graphic]
      loadingTasks := st.loadingTasks.assign graphic ⟨TaskStatus.Queued, g⟩
      pendingGraphics := st.pendingGraphics.erase graphic }

/-- Body of the `while` loop of `onDetached` after the layer was popped. -/
def dispatchLayer (st : Loader) (layer : Nat) : Loader :=
  match st.layerToGraphics.find layer with
  | some graphics => graphics.foldl dispatch st
  | none => st

/-- The `while` loop of `onDetached`; the first argument is the queue `pendingLayers`. -/
def detachLoop : List Nat → Loader → Loader
  | [], st => { st with pendingLayers := [] }
  | layer :: rest, st =>
    if st.loadingTasks.length < st.maxAsyncGraphicsPerFrame then
      detachLoop rest (dispatchLayer { st with pendingLayers := rest } layer)
    else { st with pendingLayers := layer :: rest }

/-- Method `onDetached`. -/
def onDetached (st : Loader) : Loader :=
  let st1 := detachLoop st.pendingLayers { st with context := 0 }
  if st1.loadingTasks = [] then { st1 with completeGraphics := [] } else st1

/-- A worker thread picks up the task of a source: `Queued` becomes `Running`. -/
def taskRun (st : Loader) (graphic : Nat) : Loader :=
  match st.loadingTasks.find graphic with
  | some task =>
    if task.status = TaskStatus.Queued then
      let running : GraphicLoadTask := ⟨TaskStatus.Running, task.graphic⟩
      { st with loadingTasks := st.loadingTasks.assign graphic running }
    else st
  | none => st

/-- A worker thread completes `GraphicLoadTask::onExecute` for a source: the graphic is
loaded and the task becomes `Finished`. -/
def taskFinish (st : Loader) (graphic : Nat) (makeBuffer : Option Nat) (shapePath : Path) :
    Loader :=
  match st.loadingTasks.find graphic with
  | some task =>
    if task.status = TaskStatus.Queued ∨ task.status = TaskStatus.Running then
      let done : GraphicLoadTask := ⟨TaskStatus.Finished, task.graphic.load makeBuffer shapePath⟩
      { st with loadingTasks := st.loadingTasks.assign graphic done }
    else st
  | none => st

/-! ## Executions -/

/-- Calls on the loader: its public methods, the two frame hooks, and the progress worker
threads make on a started task. -/
inductive Op where
  | addAsyncContent (layer : Nat) (content : Option LayerContent)
  | cancelAsyncContent (layer : Nat)
  | loadImage (generator : Nat) (tryHardware : Bool)
  | loadShape (shape : Nat) (path : Option Path)
  | onAttached (current : Nat)
  | onDetached
  | taskRun (graphic : Nat)
  | taskFinish (graphic : Nat) (makeBuffer : Option Nat) (shapePath : Path)
  deriving DecidableEq

/-- Whether an operation is an `addAsyncContent` whose content requests the source. -/
def Op.requestsSource (s : Nat) : Op → Bool
  | Op.addAsyncContent _ (some c) => decide (s ∈ c.map GraphicRequest.source)
  | _ => false

/-- Whether an operation is an `addAsyncContent` of a content for the layer. -/
def Op.registers (node : Nat) : Op → Bool
  | Op.addAsyncContent layer (some _) => decide (layer = node)
  | _ => false

/-- Number of requests of the content an operation registers (zero for the other calls). -/
def Op.requestCount : Op → Nat
  | Op.addAsyncContent _ (some c) => c.length
  | _ => 0

/-- One call.  `none`: the call breaks a `DEBUG_ASSERT` of the loader, namely a null layer,
an already registered layer or a null source in `addAsyncContent`, or the failed lookup in
`cancelAsyncContent`. -/
def step (st : Loader) : Op → Option Loader
  | Op.addAsyncContent _ none => some st
  | Op.addAsyncContent layer (some c) =>
    if layer ≠ 0 ∧ st.layerToGraphics.find layer = none ∧ (∀ r ∈ c, r.source ≠ 0) then
      some (st.addAsyncContent layer (some c)).2
    else none
  | Op.cancelAsyncContent layer => st.cancelAsyncContent layer
  | Op.loadImage generator tryHardware =>
    if generator ≠ 0 then some (st.loadImage generator tryHardware).2 else none
  | Op.loadShape sh path => if sh ≠ 0 then some (st.loadShape sh path).2.2 else none
  | Op.onAttached current => some (st.onAttached current)
  | Op.onDetached => some st.onDetached
  | Op.taskRun graphic => some (st.taskRun graphic)
  | Op.taskFinish graphic makeBuffer shapePath =>
    some (st.taskFinish graphic makeBuffer shapePath)

/-- A sequence of calls, from left to right. -/
def run : Loader → List Op → Option Loader
  | st, [] => some st
  | st, op :: ops =>
    match step st op with
    | none => none
    | some st1 => run st1 ops

/-- States the loader reaches from construction with the per-frame cap held at `cap`. -/
def Reachable (cap : Nat) (st : Loader) : Prop :=
  ∃ ops : List Op, run (init cap) ops = some st

/-- Reachable states when no registered content makes more than `m` requests. -/
def ReachableWithin (cap m : Nat) (st : Loader) : Prop :=
  ∃ ops : List Op, (∀ op ∈ ops, op.requestCount ≤ m) ∧ run (init cap) ops = some st

/-- Structural invariant of the tracking maps: the keys of every map and the members of
`completeLayers` are distinct, the two edge maps mirror each other and hold no empty list,
and no source is pending and in flight at once. -/
structure Core (st : Loader) : Prop where
  layerKeys : st.layerToGraphics.keys.Nodup
  graphicKeys : st.graphicToLayers.keys.Nodup
  pendingKeys : st.pendingGraphics.keys.Nodup
  loadingKeys : st.loadingTasks.keys.Nodup
  cacheKeys : st.completeGraphics.keys.Nodup
  batchNodup : st.completeLayers.Nodup
  mirror : ∀ layer graphic, graphic ∈ st.edges layer ↔ layer ∈ st.layersOf graphic
  layerNonempty : ∀ layer, st.layerToGraphics.find layer ≠ some []
  graphicNonempty : ∀ graphic, st.graphicToLayers.find graphic ≠ some []
  exclusive : ∀ graphic, st.pendingGraphics.find graphic ≠ none →
    st.loadingTasks.find graphic = none

/-- Invariant between two calls: `Core`, and no layer is current. -/
def Inv (st : Loader) : Prop :=
  st.currentLayer = 0 ∧ Core st

/-- Fields no registration touches. -/
def SameFrame (st st1 : Loader) : Prop :=
  st1.context = st.context ∧ st1.currentLayer = st.currentLayer ∧
  st1.maxAsyncGraphicsPerFrame = st.maxAsyncGraphicsPerFrame ∧
  st1.pendingLayers = st.pendingLayers ∧ st1.loadingTasks = st.loadingTasks ∧
  st1.completeLayers = st.completeLayers ∧ st1.completeGraphics = st.completeGraphics ∧
  st1.started = st.started ∧ st1.canceled = st.canceled ∧ st1.invalidated = st.invalidated

/-- What `cancelAsyncContent` leaves of the entry of a source in `graphicToLayers`: the list
without the layer, and no entry when that list is empty. -/
def residual (layer : Nat) (entry : Option (List Nat)) : Option (List Nat) :=
  match entry with
  | none => none
  | some layers => if removeAll layers layer = [] then none else some (removeAll layers layer)

/-- Whether the task of a source is in the map and has the status `Finished`. -/
def finishedIn (tasks : PtrMap GraphicLoadTask) (graphic : Nat) : Bool :=
  match tasks.find graphic with
  | some task => decide (task.status = TaskStatus.Finished)
  | none => false

/-- Sources a content defers: the sources of its requests that miss the completed cache, in
request order. -/
def misses (st : Loader) (c : LayerContent) : List Nat :=
  (c.filter (fun r => (st.completeGraphics.find r.source).isNone)).map GraphicRequest.source

/-- Invariant behind the bound on the in-flight set: the cap is `cap`, no edge list is longer
than `m`, and at most `cap + (m - 1)` tasks are in flight, none when the cap is zero. -/
def Bounded (cap m : Nat) (st : Loader) : Prop :=
  st.maxAsyncGraphicsPerFrame = cap ∧ (∀ l, (st.edges l).length ≤ m) ∧
  st.loadingTasks.length ≤ cap + (m - 1) ∧ (cap = 0 → st.loadingTasks = [])

/-- A sequence of registrations: `addAsyncContent(layer, content)` for each pair in turn. -/
def registerAll : List (Nat × LayerContent) → Loader → Loader
  | [], st => st
  | (layer, c) :: rest, st => registerAll rest (st.addAsyncContent layer (some c)).2

/-- No cached source is scheduled: a key of `completeGraphics` is neither pending nor in
flight. -/
def Uncached (st : Loader) : Prop :=
  ∀ g, st.completeGraphics.find g ≠ none →
    st.pendingGraphics.find g = none ∧ st.loadingTasks.find g = none

/-! ## Sample executions -/

/-- Two layers with one source each, cap 2: both loads are started by `onDetached`. -/
def sampleTwoLayers : Loader :=
  (((init 2).addAsyncContent 1 (some [GraphicRequest.image 8 true])).2.addAsyncContent 2
    (some [GraphicRequest.image 7 true])).2.onDetached

/-- Layer 1 uses the sources 7 and 8, layer 2 uses 7 as well; with cap 2 `onDetached` starts
both loads when it pops layer 1 and leaves layer 2 queued. -/
def sampleShared : Loader :=
  (((init 2).addAsyncContent 1
    (some [GraphicRequest.image 7 true, GraphicRequest.shape 8 none])).2.addAsyncContent 2
    (some [GraphicRequest.image 7 false])).2.onDetached

/-- One layer registered for one image source, nothing started yet. -/
def sampleQueued : Loader :=
  ((init 1).addAsyncContent 1 (some [GraphicRequest.image 7 true])).2

/-- One layer with two sources under cap 1, after `onDetached`. -/
def sampleBurst : Loader :=
  ((init 1).addAsyncContent 1
    (some [GraphicRequest.image 7 true, GraphicRequest.image 8 true])).2.onDetached

/-- Two layers with two sources each, registered under cap 1 and not yet dispatched. -/
def sampleWide : Loader :=
  (((init 1).addAsyncContent 1
    (some [GraphicRequest.image 7 true, GraphicRequest.image 8 true])).2.addAsyncContent 2
    (some [GraphicRequest.image 9 true, GraphicRequest.image 10 true])).2

/-- Three layers with one source each, registered under cap 2 and not yet dispatched. -/
def sampleRow : Loader :=
  ((((init 2).addAsyncContent 1 (some [GraphicRequest.image 7 true])).2.addAsyncContent 2
    (some [GraphicRequest.shape 8 none])).2.addAsyncContent 3
    (some [GraphicRequest.image 9 false])).2

/-- Layer 1 registers source 8, then layer 2 registers source 7, under cap 1. -/
def sampleBehind : Loader :=
  (((init 1).addAsyncContent 1 (some [GraphicRequest.image 8 true])).2.addAsyncContent 2
    (some [GraphicRequest.image 7 true])).2

/-- The scenario of two layers sharing one image: on a fresh loader layer `a` registers the
image source `g`, then layer `b` registers the same source. -/
def sharedImage (cap a b g : Nat) (ha hb : Bool) : Loader :=
  (((init cap).addAsyncContent a (some [GraphicRequest.image g ha])).2.addAsyncContent b
    (some [GraphicRequest.image g hb])).2

/-- The scenario continued: `onDetached`, the task of `g` finishes with the given buffer, and
`onAttached` runs. -/
def sharedImageDone (cap a b g : Nat) (ha hb : Bool) (buffer : Option Nat) (current : Nat) :
    Loader :=
  (((sharedImage cap a b g ha hb).onDetached).taskFinish g buffer 0).onAttached current

/-- The execution `sampleShared` continued: the shape load of source 8 finishes with path 44
and `onAttached` promotes it into the completed cache. -/
def sampleCached : Loader :=
  (sampleShared.taskFinish 8 none 44).onAttached 5

/-- One layer that requests the image source 7 twice in one collection pass. -/
def sampleTwice : Loader :=
  ((init 1).addAsyncContent 1
    (some [GraphicRequest.image 7 true, GraphicRequest.image 7 true])).2

/-- Layer 1 requests the shape source 8 twice in one collection pass, then layer 2 registers
the image source 7, under cap 2. -/
def sampleTwiceShape : Loader :=
  (((init 2).addAsyncContent 1
    (some [GraphicRequest.shape 8 none, GraphicRequest.shape 8 (some 0)])).2.addAsyncContent 2
    (some [GraphicRequest.image 7 true])).2

/-- Sources with an edge are exactly the scheduled ones: a source is a key of
`graphicToLayers` if and only if it is pending or in flight. -/
def Scheduled (st : Loader) : Prop :=
  ∀ g, st.graphicToLayers.find g ≠ none ↔
    (st.pendingGraphics.find g ≠ none ∨ st.loadingTasks.find g ≠ none)

/-- The loader holds nothing for a source: it is not pending, not in flight and not cached. -/
def Forgotten (s : Nat) (st : Loader) : Prop :=
  st.pendingGraphics.find s = none ∧ st.loadingTasks.find s = none ∧
    st.completeGraphics.find s = none

/-- The loader tracks nothing for a layer: it is not in the completed batch and has no
edge. -/
def Untracked (node : Nat) (st : Loader) : Prop :=
  node ∉ st.completeLayers ∧ st.edges node = []

end Loader

/-! ## Atlas upload tasks

Embedding of `src/gpu/tasks/HardwareAtlasUploadTask.cpp` and
`src/gpu/tasks/SoftwareAtlasUploadTask.cpp`.  Both `execute` methods only call collaborators
(tasks, buffers, proxies, textures, the GPU); the calls are recorded in call order and the
values the collaborators return are inputs. -/

/-- Modelled from the spec: class `TextureProxy` (`gpu/proxies/TextureProxy.h`) is not part of
the sources at hand.  A proxy is given by what the calls of the upload tasks return on it:
`getTexture()`, asked when its entry is processed (`none` is `nullptr`, the proxy does not
resolve to a texture), and `getUniqueKey()`. -/
structure TextureProxy where
  texture : Option Nat
  uniqueKey : Nat
  deriving DecidableEq

/-- Calls an upload task makes on its collaborators: `task->wait()`,
`buffer->unlockPixels()`, `Texture::MakeFrom(context, buffer)` with the texture it returned
(`none` is `nullptr`), `texture->assignUniqueKey(key)`, and
`gpu->writePixels(texture->getSampler(), Rect::MakeXYWH(x, y, width, height), data->data(),
rowBytes)`. -/
inductive GpuCall where
  | wait (task : Nat)
  | unlockPixels (buffer : Nat)
  | makeFrom (buffer : Nat) (result : Option Nat)
  | assignUniqueKey (texture : Nat) (key : Nat)
  | writePixels (texture : Nat) (x y : Int) (width height : Nat) (pixels : Nat)
      (rowBytes : Nat)
  deriving DecidableEq

/-- The loop `for (task : cellTasks) task->wait();` of both upload tasks. -/
def waitLoop : List Nat → List GpuCall
  | [] => []
  | task :: rest => GpuCall.wait task :: waitLoop rest

/-- Fields of `HardwareAtlasUploadTask`; the `std::map` from buffer to proxy is the list of
its entries in iteration order. -/
structure HardwareAtlasUploadTask where
  cellTasks : List Nat
  buffers : List (Nat × TextureProxy)
  deriving DecidableEq

namespace HardwareAtlasUploadTask

/-- Body of the loop over `buffers` in `execute` for one entry; `makeFrom` gives what
`Texture::MakeFrom(context, buffer)` returns. -/
def uploadBuffer (makeFrom : Nat → Option Nat) (buffer : Nat) (proxy : TextureProxy) :
    List GpuCall :=
  GpuCall.unlockPixels buffer ::
    (match proxy.texture with
    | some _ => []
    | none =>
      match makeFrom buffer with
      | none => [GpuCall.makeFrom buffer none]
      | some texture =>
        [GpuCall.makeFrom buffer (some texture),
          GpuCall.assignUniqueKey texture proxy.uniqueKey])

/-- The loop over `buffers` in `execute`. -/
def uploadLoop (makeFrom : Nat → Option Nat) : List (Nat × TextureProxy) → List GpuCall
  | [] => []
  | (buffer, proxy) :: rest => uploadBuffer makeFrom buffer proxy ++ uploadLoop makeFrom rest

/-- Method `HardwareAtlasUploadTask::execute`: the returned flag and the calls made. -/
def execute (makeFrom : Nat → Option Nat) (task : HardwareAtlasUploadTask) :
    Bool × List GpuCall :=
  (true, waitLoop task.cellTasks ++ uploadLoop makeFrom task.buffers)

end HardwareAtlasUploadTask

/-- Buffers for which a trace asks `Texture::MakeFrom`, in call order. -/
def creationAttempts : List GpuCall → List Nat
  | [] => []
  | GpuCall.makeFrom buffer _ :: rest => buffer :: creationAttempts rest
  | _ :: rest => creationAttempts rest

/-- Textures a trace creates: the non-null results of `Texture::MakeFrom`. -/
def createdTextures : List GpuCall → List Nat
  | [] => []
  | GpuCall.makeFrom _ (some texture) :: rest => texture :: createdTextures rest
  | _ :: rest => createdTextures rest

/-- Key assignments of a trace, as pairs of texture and key. -/
def keyAssignments : List GpuCall → List (Nat × Nat)
  | [] => []
  | GpuCall.assignUniqueKey texture key :: rest => (texture, key) :: keyAssignments rest
  | _ :: rest => keyAssignments rest

/-- Tasks a trace waits on. -/
def waitedTasks : List GpuCall → List Nat
  | [] => []
  | GpuCall.wait task :: rest => task :: waitedTasks rest
  | _ :: rest => waitedTasks rest

/-- Pixel writes of a trace. -/
def pixelWrites : List GpuCall → List GpuCall
  | [] => []
  | GpuCall.writePixels t x y w h d r :: rest =>
    GpuCall.writePixels t x y w h d r :: pixelWrites rest
  | _ :: rest => pixelWrites rest

/-- Modelled from the spec: class `ImageInfo` is not part of the sources at hand; the values
of `width()`, `height()` and `rowBytes()`. -/
structure ImageInfo where
  width : Nat
  height : Nat
  rowBytes : Nat
  deriving DecidableEq

/-- Modelled from the spec: struct `Point` is not part of the sources at hand; the
coordinates are carried as they are, no arithmetic is done on them. -/
structure Point where
  x : Int
  y : Int
  deriving DecidableEq

/-- Struct `AtlasCellData`; `pixels = none` is a null `shared_ptr<Data>`. -/
structure AtlasCellData where
  pixels : Option Nat
  pixelsInfo : ImageInfo
  atlasOffset : Point
  deriving DecidableEq

/-- Fields of `SoftwareAtlasUploadTask`; the `std::map` from proxy to cells is the list of
its entries in iteration order, a null proxy pointer is `none`. -/
structure SoftwareAtlasUploadTask where
  cellTasks : List Nat
  cellDatas : List (Option TextureProxy × List AtlasCellData)
  deriving DecidableEq

namespace SoftwareAtlasUploadTask

/-- The inner loop of `execute` over the cells of one texture. -/
def writeCells (texture : Nat) : List AtlasCellData → List GpuCall
  | [] => []
  | cell :: rest =>
    match cell.pixels with
    | none => writeCells texture rest
    | some data =>
      GpuCall.writePixels texture cell.atlasOffset.x cell.atlasOffset.y cell.pixelsInfo.width
        cell.pixelsInfo.height data cell.pixelsInfo.rowBytes :: writeCells texture rest

/-- The loop of `execute` over the entries of `cellDatas`. -/
def uploadLoop : List (Option TextureProxy × List AtlasCellData) → List GpuCall
  | [] => []
  | (textureProxy, cells) :: rest =>
    match textureProxy with
    | none => uploadLoop rest
    | some proxy =>
      if cells.isEmpty then uploadLoop rest
      else
        match proxy.texture with
        | none => uploadLoop rest
        | some texture => writeCells texture cells ++ uploadLoop rest

/-- Method `SoftwareAtlasUploadTask::execute`: the returned flag and the calls made. -/
def execute (task : SoftwareAtlasUploadTask) : Bool × List GpuCall :=
  if task.cellTasks.isEmpty then (false, [])
  else (true, waitLoop task.cellTasks ++ uploadLoop task.cellDatas)

/-- Write the claim expects for a cell on a texture, if the cell has a payload. -/
def expectedWrite (texture : Nat) (cell : AtlasCellData) : Option GpuCall :=
  match cell.pixels with
  | none => none
  | some data =>
    some (GpuCall.writePixels texture cell.atlasOffset.x cell.atlasOffset.y
      cell.pixelsInfo.width cell.pixelsInfo.height data cell.pixelsInfo.rowBytes)

/-- Cells of the map paired with the texture they are written to: the cells whose proxy is
not null and resolves to a texture. -/
def resolvedCells :
    List (Option TextureProxy × List AtlasCellData) → List (Nat × AtlasCellData)
  | [] => []
  | (some ⟨some texture, _⟩, cells) :: rest =>
    cells.map (fun cell => (texture, cell)) ++ resolvedCells rest
  | _ :: rest => resolvedCells rest

end SoftwareAtlasUploadTask

/-- A hardware upload with three entries; the proxy of buffer 11 already resolves. -/
def sampleHardware : HardwareAtlasUploadTask :=
  { cellTasks := [1, 2]
    buffers := [(10, ⟨none, 100⟩), (11, ⟨some 51, 101⟩), (12, ⟨none, 102⟩)] }

/-- A software upload: a null proxy, a proxy that does not resolve, a resolving proxy without
cells, and a resolving proxy with three cells of which the second has no payload. -/
def sampleSoftware : SoftwareAtlasUploadTask :=
  { cellTasks := [1]
    cellDatas :=
      [(none, [⟨some 70, ⟨4, 4, 16⟩, ⟨0, 0⟩⟩]),
        (some ⟨none, 100⟩, [⟨some 71, ⟨4, 4, 16⟩, ⟨0, 0⟩⟩]),
        (some ⟨some 50, 101⟩, []),
        (some ⟨some 51, 102⟩,
          [⟨some 72, ⟨8, 2, 32⟩, ⟨0, 0⟩⟩, ⟨none, ⟨8, 2, 32⟩, ⟨8, 0⟩⟩,
            ⟨some 73, ⟨3, 5, 12⟩, ⟨16, 4⟩⟩])] }

/-! ## Lemmas on maps and sets -/

namespace PtrMap

variable {V : Type}

theorem find_assign (m : PtrMap V) (k : Nat) (v : V) (j : Nat) :
    (m.assign k v).find j = if k = j then some v else m.find j := by
  induction m with
  | nil => simp [assign, find]
  | cons e m ih =>
    obtain ⟨a, b⟩ := e
    by_cases h : a = k
    · subst h
      by_cases hj : a = j <;> simp [assign, find, hj]
    · by_cases hj : a = j
      · subst hj
        simp [assign, find, h, Ne.symm h]
      · simp [assign, find, h, hj, ih]

theorem find_erase (m : PtrMap V) (k j : Nat) :
    (m.erase k).find j = if k = j then none else m.find j := by
  induction m with
  | nil => simp [erase, find]
  | cons e m ih =>
    obtain ⟨a, b⟩ := e
    by_cases h : a = k
    · subst h
      by_cases hj : a = j
      · subst hj
        simpa [erase, find] using ih
      · simpa [erase, find, hj] using ih
    · by_cases hj : a = j
      · subst hj
        simp [erase, find, h, Ne.symm h]
      · simp [erase, find, h, hj, ih]

theorem mem_keys_iff (m : PtrMap V) (k : Nat) : k ∈ m.keys ↔ m.find k ≠ none := by
  induction m with
  | nil => simp [keys, find]
  | cons e m ih =>
    obtain ⟨a, b⟩ := e
    by_cases h : a = k
    · simp [keys, find, h]
    · have ih2 : k ∈ List.map Prod.fst m ↔ find m k ≠ none := ih
      simp [keys, find, h, Ne.symm h, ih2]

theorem not_mem_keys_iff (m : PtrMap V) (k : Nat) : k ∉ m.keys ↔ m.find k = none := by
  rw [mem_keys_iff]; simp

theorem keys_erase_subset (m : PtrMap V) (k j : Nat) (h : j ∈ (m.erase k).keys) :
    j ∈ m.keys := by
  rw [mem_keys_iff] at h ⊢
  rw [find_erase] at h
  by_cases hk : k = j <;> simp_all

theorem nodup_keys_erase (m : PtrMap V) (k : Nat) (h : m.keys.Nodup) :
    (m.erase k).keys.Nodup := by
  induction m with
  | nil => simp [erase, keys]
  | cons e m ih =>
    obtain ⟨a, b⟩ := e
    have h2 : a ∉ keys m ∧ (keys m).Nodup := by simpa [keys] using h
    by_cases hk : a = k
    · simpa [erase, hk] using ih h2.2
    · have h3 : a ∉ keys (erase m k) := fun hc => h2.1 (keys_erase_subset m k a hc)
      have h4 : (keys (erase m k)).Nodup := ih h2.2
      simp only [erase, hk, if_false, keys, List.map_cons, List.nodup_cons]
      exact ⟨h3, h4⟩

theorem nodup_keys_assign (m : PtrMap V) (k : Nat) (v : V) (h : m.keys.Nodup) :
    (m.assign k v).keys.Nodup := by
  induction m with
  | nil => simp [assign, keys]
  | cons e m ih =>
    obtain ⟨a, b⟩ := e
    have h2 : a ∉ keys m ∧ (keys m).Nodup := by simpa [keys] using h
    by_cases hk : a = k
    · subst hk
      simpa [assign, keys] using h
    · have h3 : a ∉ keys (assign m k v) := by
        rw [not_mem_keys_iff, find_assign]
        simp [Ne.symm hk, (not_mem_keys_iff m a).1 h2.1]
      have h4 : (keys (assign m k v)).Nodup := ih h2.2
      simp only [assign, hk, if_false, keys, List.map_cons, List.nodup_cons]
      exact ⟨h3, h4⟩

theorem find_of_mem (m : PtrMap V) (k : Nat) (v : V) (hn : m.keys.Nodup) (h : (k, v) ∈ m) :
    m.find k = some v := by
  induction m with
  | nil => simp at h
  | cons e m ih =>
    obtain ⟨a, b⟩ := e
    have h2 : a ∉ keys m ∧ (keys m).Nodup := by simpa [keys] using hn
    rcases List.mem_cons.1 h with h1 | h1
    · have ha : k = a := (Prod.mk.inj h1).1
      have hb : v = b := (Prod.mk.inj h1).2
      simp [find, ha, hb]
    · have hk : k ∈ keys m := List.mem_map.2 ⟨(k, v), h1, rfl⟩
      have hne : a ≠ k := fun hc => h2.1 (hc ▸ hk)
      simpa [find, hne] using ih h2.2 h1

theorem length_assign_of_find (m : PtrMap V) (k : Nat) (v w : V) (h : m.find k = some w) :
    (m.assign k v).length = m.length := by
  induction m with
  | nil => simp [find] at h
  | cons e m ih =>
    obtain ⟨a, b⟩ := e
    by_cases hk : a = k
    · simp [assign, hk]
    · have h2 : find m k = some w := by simpa [find, hk] using h
      simpa [assign, hk] using ih h2

theorem length_assign_of_none (m : PtrMap V) (k : Nat) (v : V) (h : m.find k = none) :
    (m.assign k v).length = m.length + 1 := by
  induction m with
  | nil => simp [assign]
  | cons e m ih =>
    obtain ⟨a, b⟩ := e
    by_cases hk : a = k
    · simp [find, hk] at h
    · have h2 : find m k = none := by simpa [find, hk] using h
      simpa [assign, hk] using ih h2

theorem length_assign_le (m : PtrMap V) (k : Nat) (v : V) :
    (m.assign k v).length ≤ m.length + 1 := by
  induction m with
  | nil => simp [assign]
  | cons e m ih =>
    obtain ⟨a, b⟩ := e
    by_cases hk : a = k
    · simp [assign, hk]
    · simpa [assign, hk] using ih

theorem length_erase_le (m : PtrMap V) (k : Nat) : (m.erase k).length ≤ m.length := by
  induction m with
  | nil => simp [erase]
  | cons e m ih =>
    obtain ⟨a, b⟩ := e
    by_cases hk : a = k
    · simp only [erase, hk, if_true, List.length_cons]
      omega
    · simpa [erase, hk] using ih

theorem find_eq_none_of_nil (m : PtrMap V) (h : m = []) (k : Nat) : m.find k = none := by
  subst h; rfl

theorem eq_nil_of_find_none (m : PtrMap V) (h : ∀ k, m.find k = none) : m = [] := by
  cases m with
  | nil => rfl
  | cons e m =>
    obtain ⟨a, b⟩ := e
    have := h a
    simp [find] at this

end PtrMap

theorem mem_removeAll (l : List Nat) (x y : Nat) : y ∈ removeAll l x ↔ y ∈ l ∧ y ≠ x := by
  simp [removeAll]

theorem removeAll_removeAll (l : List Nat) (x : Nat) :
    removeAll (removeAll l x) x = removeAll l x := by
  simp [removeAll, List.filter_filter]

theorem removeAll_eq_self (l : List Nat) (x : Nat) (h : x ∉ l) : removeAll l x = l := by
  simp only [removeAll, List.filter_eq_self]
  intro a ha
  have : a ≠ x := fun hc => h (hc ▸ ha)
  simpa using this

theorem nodup_removeAll (l : List Nat) (x : Nat) (h : l.Nodup) : (removeAll l x).Nodup :=
  h.filter _

theorem mem_setInsert (s : List Nat) (x y : Nat) : y ∈ setInsert s x ↔ y ∈ s ∨ y = x := by
  unfold setInsert
  by_cases h : x ∈ s
  · simp only [h, if_true]
    constructor
    · exact Or.inl
    · rintro (h1 | h1)
      · exact h1
      · exact h1 ▸ h
  · simp [h]

theorem nodup_setInsert (s : List Nat) (x : Nat) (h : s.Nodup) : (setInsert s x).Nodup := by
  unfold setInsert
  by_cases hx : x ∈ s
  · simpa [hx] using h
  · simp only [hx, if_false]
    exact List.Nodup.append h (List.nodup_singleton x) (by simpa using hx)

/-! ## Registration: `addDeferredGraphic`, `loadImage`, `loadShape`, `addAsyncContent` -/

namespace Loader

theorem addDeferredGraphic_layerToGraphics (st : Loader) (g : DeferredGraphic) :
    (st.addDeferredGraphic g).layerToGraphics =
      st.layerToGraphics.assign st.currentLayer (st.edges st.currentLayer ++ [g.getSource]) := by
  unfold addDeferredGraphic
  simp only []
  split_ifs <;> rfl

theorem addDeferredGraphic_graphicToLayers (st : Loader) (g : DeferredGraphic) :
    (st.addDeferredGraphic g).graphicToLayers =
      st.graphicToLayers.assign g.getSource (st.layersOf g.getSource ++ [st.currentLayer]) := by
  unfold addDeferredGraphic
  simp only []
  split_ifs <;> rfl

theorem addDeferredGraphic_pendingGraphics (st : Loader) (g : DeferredGraphic) :
    (st.addDeferredGraphic g).pendingGraphics =
      if st.pendingGraphics.find g.getSource = none ∧ st.loadingTasks.find g.getSource = none
      then st.pendingGraphics.assign g.getSource g else st.pendingGraphics := by
  unfold addDeferredGraphic
  simp only []
  split_ifs <;> rfl

theorem addDeferredGraphic_rest (st : Loader) (g : DeferredGraphic) :
    (st.addDeferredGraphic g).context = st.context ∧
    (st.addDeferredGraphic g).currentLayer = st.currentLayer ∧
    (st.addDeferredGraphic g).maxAsyncGraphicsPerFrame = st.maxAsyncGraphicsPerFrame ∧
    (st.addDeferredGraphic g).pendingLayers = st.pendingLayers ∧
    (st.addDeferredGraphic g).loadingTasks = st.loadingTasks ∧
    (st.addDeferredGraphic g).completeLayers = st.completeLayers ∧
    (st.addDeferredGraphic g).completeGraphics = st.completeGraphics ∧
    (st.addDeferredGraphic g).started = st.started ∧
    (st.addDeferredGraphic g).canceled = st.canceled ∧
    (st.addDeferredGraphic g).invalidated = st.invalidated := by
  unfold addDeferredGraphic
  simp only []
  split_ifs <;> simp

theorem addDeferredGraphic_edges (st : Loader) (g : DeferredGraphic) (layer : Nat) :
    (st.addDeferredGraphic g).edges layer =
      if st.currentLayer = layer then st.edges layer ++ [g.getSource] else st.edges layer := by
  unfold edges
  rw [addDeferredGraphic_layerToGraphics, PtrMap.find_assign]
  by_cases h : st.currentLayer = layer
  · subst h
    simp [edges]
  · simp [h]

theorem addDeferredGraphic_layersOf (st : Loader) (g : DeferredGraphic) (source : Nat) :
    (st.addDeferredGraphic g).layersOf source =
      if g.getSource = source then st.layersOf source ++ [st.currentLayer]
      else st.layersOf source := by
  unfold layersOf
  rw [addDeferredGraphic_graphicToLayers, PtrMap.find_assign]
  by_cases h : g.getSource = source
  · subst h
    simp [layersOf]
  · simp [h]

theorem addDeferredGraphic_core (st : Loader) (g : DeferredGraphic) (h : Core st) :
    Core (st.addDeferredGraphic g) := by
  obtain ⟨r1, r2, r3, r4, r5, r6, r7, r8, r9, r10⟩ := addDeferredGraphic_rest st g
  refine ⟨?_, ?_, ?_, ?_, ?_, ?_, ?_, ?_, ?_, ?_⟩
  · rw [addDeferredGraphic_layerToGraphics]
    exact PtrMap.nodup_keys_assign _ _ _ h.layerKeys
  · rw [addDeferredGraphic_graphicToLayers]
    exact PtrMap.nodup_keys_assign _ _ _ h.graphicKeys
  · rw [addDeferredGraphic_pendingGraphics]
    split_ifs
    · exact PtrMap.nodup_keys_assign _ _ _ h.pendingKeys
    · exact h.pendingKeys
  · rw [r5]; exact h.loadingKeys
  · rw [r7]; exact h.cacheKeys
  · rw [r6]; exact h.batchNodup
  · intro layer graphic
    rw [addDeferredGraphic_edges, addDeferredGraphic_layersOf]
    have hm := h.mirror layer graphic
    by_cases h1 : st.currentLayer = layer <;> by_cases h2 : g.getSource = graphic
    · simp [h1, h2]
    · simp [h1, h2, Ne.symm h2, hm]
    · simp [h1, h2, Ne.symm h1, hm]
    · simp [h1, h2, hm]
  · intro layer
    rw [addDeferredGraphic_layerToGraphics, PtrMap.find_assign]
    split_ifs
    · simp
    · exact h.layerNonempty layer
  · intro graphic
    rw [addDeferredGraphic_graphicToLayers, PtrMap.find_assign]
    split_ifs
    · simp
    · exact h.graphicNonempty graphic
  · intro graphic
    rw [addDeferredGraphic_pendingGraphics, r5]
    split_ifs with hc
    · rw [PtrMap.find_assign]
      split_ifs with he
      · intro _
        exact he ▸ hc.2
      · exact h.exclusive graphic
    · exact h.exclusive graphic

theorem graphic_getSource (r : GraphicRequest) : r.graphic.getSource = r.source := by
  cases r <;> rfl

theorem request_fst (st : Loader) (r : GraphicRequest) :
    (st.request r).1 = (st.completeGraphics.find r.source).isNone := rfl

theorem request_snd (st : Loader) (r : GraphicRequest) :
    (st.request r).2 =
      if st.completeGraphics.find r.source = none ∧ st.currentLayer ≠ 0
      then st.addDeferredGraphic r.graphic else st := by
  cases r with
  | image generator tryHardware =>
    simp only [request, loadImage, GraphicRequest.source, GraphicRequest.graphic]
    cases hf : st.completeGraphics.find generator with
    | none => by_cases hc : st.currentLayer = 0 <;> simp [hc]
    | some x => simp
  | shape sh path =>
    simp only [request, loadShape, GraphicRequest.source, GraphicRequest.graphic]
    cases hf : st.completeGraphics.find sh with
    | none => by_cases hc : st.currentLayer = 0 <;> simp [hc]
    | some x => simp

theorem SameFrame.refl (st : Loader) : SameFrame st st :=
  ⟨rfl, rfl, rfl, rfl, rfl, rfl, rfl, rfl, rfl, rfl⟩

theorem SameFrame.trans {a b c : Loader} (h1 : SameFrame a b) (h2 : SameFrame b c) :
    SameFrame a c := by
  obtain ⟨a1, a2, a3, a4, a5, a6, a7, a8, a9, a10⟩ := h1
  obtain ⟨b1, b2, b3, b4, b5, b6, b7, b8, b9, b10⟩ := h2
  exact ⟨b1.trans a1, b2.trans a2, b3.trans a3, b4.trans a4, b5.trans a5, b6.trans a6,
    b7.trans a7, b8.trans a8, b9.trans a9, b10.trans a10⟩

theorem request_sameFrame (st : Loader) (r : GraphicRequest) : SameFrame st (st.request r).2 := by
  rw [request_snd]
  split_ifs
  · exact addDeferredGraphic_rest st r.graphic
  · exact SameFrame.refl st

theorem request_core (st : Loader) (r : GraphicRequest) (h : Core st) :
    Core (st.request r).2 := by
  rw [request_snd]
  split_ifs
  · exact addDeferredGraphic_core st r.graphic h
  · exact h

theorem collect_sameFrame (c : LayerContent) (st : Loader) :
    SameFrame st (collectDeferredGraphics c st).2 := by
  induction c generalizing st with
  | nil => exact SameFrame.refl st
  | cons r rs ih =>
    simp only [collectDeferredGraphics]
    exact SameFrame.trans (request_sameFrame st r) (ih _)

theorem collect_core (c : LayerContent) (st : Loader) (h : Core st) :
    Core (collectDeferredGraphics c st).2 := by
  induction c generalizing st with
  | nil => exact h
  | cons r rs ih =>
    simp only [collectDeferredGraphics]
    exact ih _ (request_core st r h)

theorem collect_fst (c : LayerContent) (st : Loader) :
    (collectDeferredGraphics c st).1 =
      c.any (fun r => (st.completeGraphics.find r.source).isNone) := by
  induction c generalizing st with
  | nil => rfl
  | cons r rs ih =>
    simp only [collectDeferredGraphics, List.any_cons, request_fst]
    rw [ih, (request_sameFrame st r).2.2.2.2.2.2.1]

theorem Core.congr {st st1 : Loader} (h : Core st)
    (e1 : st1.layerToGraphics = st.layerToGraphics)
    (e2 : st1.graphicToLayers = st.graphicToLayers)
    (e3 : st1.pendingGraphics = st.pendingGraphics)
    (e4 : st1.loadingTasks = st.loadingTasks)
    (e5 : st1.completeLayers = st.completeLayers)
    (e6 : st1.completeGraphics = st.completeGraphics) : Core st1 := by
  refine ⟨?_, ?_, ?_, ?_, ?_, ?_, ?_, ?_, ?_, ?_⟩
  · rw [e1]; exact h.layerKeys
  · rw [e2]; exact h.graphicKeys
  · rw [e3]; exact h.pendingKeys
  · rw [e4]; exact h.loadingKeys
  · rw [e6]; exact h.cacheKeys
  · rw [e5]; exact h.batchNodup
  · intro layer graphic
    unfold edges layersOf
    rw [e1, e2]
    exact h.mirror layer graphic
  · rw [e1]; exact h.layerNonempty
  · rw [e2]; exact h.graphicNonempty
  · rw [e3, e4]; exact h.exclusive

theorem init_core (cap : Nat) : Core (init cap) := by
  refine ⟨?_, ?_, ?_, ?_, ?_, ?_, ?_, ?_, ?_, ?_⟩ <;>
    simp [init, PtrMap.keys, PtrMap.find, edges, layersOf]

theorem addAsyncContent_snd (st : Loader) (layer : Nat) (c : LayerContent) :
    (st.addAsyncContent layer (some c)).2 =
      { (collectDeferredGraphics c { st with currentLayer := layer }).2 with
        pendingLayers :=
          if (collectDeferredGraphics c { st with currentLayer := layer }).1
          then st.pendingLayers ++ [layer] else st.pendingLayers
        currentLayer := 0 } := by
  have hs := collect_sameFrame c { st with currentLayer := layer }
  have hp : (collectDeferredGraphics c { st with currentLayer := layer }).2.pendingLayers =
      st.pendingLayers := hs.2.2.2.1
  simp only [addAsyncContent]
  split_ifs with h
  · simp [hp]
  · simp [hp]

theorem addAsyncContent_core (st : Loader) (layer : Nat) (content : Option LayerContent)
    (h : Core st) : Core (st.addAsyncContent layer content).2 := by
  cases content with
  | none => exact h
  | some c =>
    rw [addAsyncContent_snd]
    have h0 : Core { st with currentLayer := layer } := h.congr rfl rfl rfl rfl rfl rfl
    exact (collect_core c _ h0).congr rfl rfl rfl rfl rfl rfl

theorem addAsyncContent_currentLayer (st : Loader) (layer : Nat) (content : Option LayerContent)
    (h : st.currentLayer = 0) : (st.addAsyncContent layer content).2.currentLayer = 0 := by
  cases content with
  | none => exact h
  | some c => rw [addAsyncContent_snd]

theorem addAsyncContent_inv (st : Loader) (layer : Nat) (content : Option LayerContent)
    (h : Inv st) : Inv (st.addAsyncContent layer content).2 :=
  ⟨addAsyncContent_currentLayer st layer content h.1, addAsyncContent_core st layer content h.2⟩

end Loader

/-! ## Cancellation -/

namespace Loader

theorem residual_ne_some_nil (layer : Nat) (entry : Option (List Nat)) :
    residual layer entry ≠ some [] := by
  cases entry with
  | none => simp [residual]
  | some ls =>
    by_cases h : removeAll ls layer = []
    · simp [residual, h]
    · simp [residual, h]

theorem residual_residual (layer : Nat) (entry : Option (List Nat)) :
    residual layer (residual layer entry) = residual layer entry := by
  cases entry with
  | none => simp [residual]
  | some ls =>
    by_cases h : removeAll ls layer = []
    · simp [residual, h]
    · simp [residual, h, removeAll_removeAll]

theorem residual_getD (layer : Nat) (entry : Option (List Nat)) :
    (residual layer entry).getD [] = removeAll (entry.getD []) layer := by
  cases entry with
  | none => simp [residual, removeAll]
  | some ls =>
    by_cases h : removeAll ls layer = []
    · simp [residual, h]
    · simp [residual, h]

theorem cancelGraphic_cases (layer : Nat) (st st1 : Loader) (g : Nat)
    (h : cancelGraphic layer st g = some st1) :
    ∃ ls, st.graphicToLayers.find g = some ls ∧
      ((removeAll ls layer ≠ [] ∧
          st1 = { st with graphicToLayers := st.graphicToLayers.assign g (removeAll ls layer) }) ∨
       (removeAll ls layer = [] ∧ st.loadingTasks.find g = none ∧
          st1 = { st with
            graphicToLayers := st.graphicToLayers.erase g
            pendingGraphics := st.pendingGraphics.erase g }) ∨
       (removeAll ls layer = [] ∧ st.loadingTasks.find g ≠ none ∧
          st1 = { st with
            graphicToLayers := st.graphicToLayers.erase g
            pendingGraphics := st.pendingGraphics.erase g
            canceled := st.canceled ++ [g]
            loadingTasks := st.loadingTasks.erase g })) := by
  unfold cancelGraphic at h
  cases hf : st.graphicToLayers.find g with
  | none => simp [hf] at h
  | some ls =>
    refine ⟨ls, rfl, ?_⟩
    simp only [hf] at h
    by_cases hr : removeAll ls layer = []
    · simp only [hr, ne_eq, not_true_eq_false, if_false] at h
      cases hl : st.loadingTasks.find g with
      | none =>
        simp only [hl, Option.some.injEq] at h
        exact Or.inr (Or.inl ⟨hr, rfl, h.symm⟩)
      | some t =>
        simp only [hl, Option.some.injEq] at h
        exact Or.inr (Or.inr ⟨hr, by simp, h.symm⟩)
    · simp only [ne_eq, hr, not_false_eq_true, if_true, Option.some.injEq] at h
      exact Or.inl ⟨hr, h.symm⟩

theorem cancelGraphic_isSome (layer : Nat) (st : Loader) (g : Nat)
    (h : st.graphicToLayers.find g ≠ none) : ∃ st1, cancelGraphic layer st g = some st1 := by
  unfold cancelGraphic
  cases hf : st.graphicToLayers.find g with
  | none => exact absurd hf h
  | some ls =>
    simp only []
    split_ifs
    · exact ⟨_, rfl⟩
    · cases st.loadingTasks.find g <;> exact ⟨_, rfl⟩

/-- Fields the loop of `cancelAsyncContent` never writes. -/
theorem cancelGraphic_frame (layer : Nat) (st st1 : Loader) (g : Nat)
    (h : cancelGraphic layer st g = some st1) :
    st1.context = st.context ∧ st1.currentLayer = st.currentLayer ∧
    st1.maxAsyncGraphicsPerFrame = st.maxAsyncGraphicsPerFrame ∧
    st1.pendingLayers = st.pendingLayers ∧ st1.layerToGraphics = st.layerToGraphics ∧
    st1.completeLayers = st.completeLayers ∧ st1.completeGraphics = st.completeGraphics ∧
    st1.started = st.started ∧ st1.invalidated = st.invalidated := by
  obtain ⟨ls, _, h1 | h1 | h1⟩ := cancelGraphic_cases layer st st1 g h
  · rw [h1.2]; simp
  · rw [h1.2.2]; simp
  · rw [h1.2.2]; simp

theorem cancelGraphic_graphicToLayers (layer : Nat) (st st1 : Loader) (g : Nat)
    (h : cancelGraphic layer st g = some st1) (k : Nat) :
    st1.graphicToLayers.find k =
      if g = k then residual layer (st.graphicToLayers.find k) else st.graphicToLayers.find k := by
  obtain ⟨ls, hf, h1 | h1 | h1⟩ := cancelGraphic_cases layer st st1 g h
  · rw [h1.2]
    simp only [PtrMap.find_assign]
    by_cases hk : g = k
    · subst hk; simp [hf, residual, h1.1]
    · simp [hk]
  · rw [h1.2.2]
    simp only [PtrMap.find_erase]
    by_cases hk : g = k
    · subst hk; simp [hf, residual, h1.1]
    · simp [hk]
  · rw [h1.2.2]
    simp only [PtrMap.find_erase]
    by_cases hk : g = k
    · subst hk; simp [hf, residual, h1.1]
    · simp [hk]

theorem cancelGraphic_pendingGraphics (layer : Nat) (st st1 : Loader) (g : Nat)
    (h : cancelGraphic layer st g = some st1) (k : Nat) :
    st1.pendingGraphics.find k =
      if g = k ∧ residual layer (st.graphicToLayers.find k) = none then none
      else st.pendingGraphics.find k := by
  obtain ⟨ls, hf, h1 | h1 | h1⟩ := cancelGraphic_cases layer st st1 g h
  · rw [h1.2]
    by_cases hk : g = k
    · subst hk; simp [hf, residual, h1.1]
    · simp [hk]
  · rw [h1.2.2]
    simp only [PtrMap.find_erase]
    by_cases hk : g = k
    · subst hk; simp [hf, residual, h1.1]
    · simp [hk]
  · rw [h1.2.2]
    simp only [PtrMap.find_erase]
    by_cases hk : g = k
    · subst hk; simp [hf, residual, h1.1]
    · simp [hk]

theorem cancelGraphic_loadingTasks (layer : Nat) (st st1 : Loader) (g : Nat)
    (h : cancelGraphic layer st g = some st1) (k : Nat) :
    st1.loadingTasks.find k =
      if g = k ∧ residual layer (st.graphicToLayers.find k) = none then none
      else st.loadingTasks.find k := by
  obtain ⟨ls, hf, h1 | h1 | h1⟩ := cancelGraphic_cases layer st st1 g h
  · rw [h1.2]
    by_cases hk : g = k
    · subst hk; simp [hf, residual, h1.1]
    · simp [hk]
  · rw [h1.2.2]
    by_cases hk : g = k
    · subst hk; simp [hf, residual, h1.1, h1.2.1]
    · simp [hk]
  · rw [h1.2.2]
    simp only [PtrMap.find_erase]
    by_cases hk : g = k
    · subst hk; simp [hf, residual, h1.1]
    · simp [hk]

theorem cancelGraphic_canceled (layer : Nat) (st st1 : Loader) (g : Nat)
    (h : cancelGraphic layer st g = some st1) :
    st1.canceled = st.canceled ++
      (if residual layer (st.graphicToLayers.find g) = none ∧ st.loadingTasks.find g ≠ none
       then [g] else []) := by
  obtain ⟨ls, hf, h1 | h1 | h1⟩ := cancelGraphic_cases layer st st1 g h
  · rw [h1.2]; simp [hf, residual, h1.1]
  · rw [h1.2.2]; simp [hf, residual, h1.1, h1.2.1]
  · rw [h1.2.2]; simp [hf, residual, h1.1, h1.2.1]

theorem cancelGraphic_keys (layer : Nat) (st st1 : Loader) (g : Nat)
    (h : cancelGraphic layer st g = some st1)
    (k1 : st.graphicToLayers.keys.Nodup) (k2 : st.pendingGraphics.keys.Nodup)
    (k3 : st.loadingTasks.keys.Nodup) :
    st1.graphicToLayers.keys.Nodup ∧ st1.pendingGraphics.keys.Nodup ∧
      st1.loadingTasks.keys.Nodup := by
  obtain ⟨ls, hf, h1 | h1 | h1⟩ := cancelGraphic_cases layer st st1 g h
  · rw [h1.2]
    exact ⟨PtrMap.nodup_keys_assign _ _ _ k1, k2, k3⟩
  · rw [h1.2.2]
    exact ⟨PtrMap.nodup_keys_erase _ _ k1, PtrMap.nodup_keys_erase _ _ k2, k3⟩
  · rw [h1.2.2]
    exact ⟨PtrMap.nodup_keys_erase _ _ k1, PtrMap.nodup_keys_erase _ _ k2,
      PtrMap.nodup_keys_erase _ _ k3⟩

theorem cancelLoop_frame (layer : Nat) (gs : List Nat) (st st1 : Loader)
    (h : cancelLoop layer gs st = some st1) :
    st1.context = st.context ∧ st1.currentLayer = st.currentLayer ∧
    st1.maxAsyncGraphicsPerFrame = st.maxAsyncGraphicsPerFrame ∧
    st1.pendingLayers = st.pendingLayers ∧ st1.layerToGraphics = st.layerToGraphics ∧
    st1.completeLayers = st.completeLayers ∧ st1.completeGraphics = st.completeGraphics ∧
    st1.started = st.started ∧ st1.invalidated = st.invalidated := by
  induction gs generalizing st with
  | nil =>
    simp only [cancelLoop, Option.some.injEq] at h
    subst h
    exact ⟨rfl, rfl, rfl, rfl, rfl, rfl, rfl, rfl, rfl⟩
  | cons g gs ih =>
    simp only [cancelLoop] at h
    cases hg : cancelGraphic layer st g with
    | none => simp [hg] at h
    | some st2 =>
      simp only [hg] at h
      obtain ⟨a1, a2, a3, a4, a5, a6, a7, a8, a9⟩ := cancelGraphic_frame layer st st2 g hg
      obtain ⟨b1, b2, b3, b4, b5, b6, b7, b8, b9⟩ := ih st2 h
      exact ⟨b1.trans a1, b2.trans a2, b3.trans a3, b4.trans a4, b5.trans a5, b6.trans a6,
        b7.trans a7, b8.trans a8, b9.trans a9⟩

theorem cancelLoop_keys (layer : Nat) (gs : List Nat) (st st1 : Loader)
    (h : cancelLoop layer gs st = some st1)
    (k1 : st.graphicToLayers.keys.Nodup) (k2 : st.pendingGraphics.keys.Nodup)
    (k3 : st.loadingTasks.keys.Nodup) :
    st1.graphicToLayers.keys.Nodup ∧ st1.pendingGraphics.keys.Nodup ∧
      st1.loadingTasks.keys.Nodup := by
  induction gs generalizing st with
  | nil =>
    simp only [cancelLoop, Option.some.injEq] at h
    subst h
    exact ⟨k1, k2, k3⟩
  | cons g gs ih =>
    simp only [cancelLoop] at h
    cases hg : cancelGraphic layer st g with
    | none => simp [hg] at h
    | some st2 =>
      simp only [hg] at h
      obtain ⟨a1, a2, a3⟩ := cancelGraphic_keys layer st st2 g hg k1 k2 k3
      exact ih st2 h a1 a2 a3

theorem cancelLoop_graphicToLayers (layer : Nat) (gs : List Nat) (st st1 : Loader)
    (h : cancelLoop layer gs st = some st1) (k : Nat) :
    st1.graphicToLayers.find k =
      if k ∈ gs then residual layer (st.graphicToLayers.find k)
      else st.graphicToLayers.find k := by
  induction gs generalizing st with
  | nil =>
    simp only [cancelLoop, Option.some.injEq] at h
    subst h
    simp
  | cons g gs ih =>
    simp only [cancelLoop] at h
    cases hg : cancelGraphic layer st g with
    | none => simp [hg] at h
    | some st2 =>
      simp only [hg] at h
      rw [ih st2 h, cancelGraphic_graphicToLayers layer st st2 g hg k]
      by_cases hk : g = k
      · subst hk
        by_cases hm : g ∈ gs <;> simp [hm, residual_residual]
      · by_cases hm : k ∈ gs <;> simp [hm, hk, Ne.symm hk]

theorem cancelLoop_pendingGraphics (layer : Nat) (gs : List Nat) (st st1 : Loader)
    (h : cancelLoop layer gs st = some st1) (k : Nat) :
    st1.pendingGraphics.find k =
      if k ∈ gs ∧ residual layer (st.graphicToLayers.find k) = none then none
      else st.pendingGraphics.find k := by
  induction gs generalizing st with
  | nil =>
    simp only [cancelLoop, Option.some.injEq] at h
    subst h
    simp
  | cons g gs ih =>
    simp only [cancelLoop] at h
    cases hg : cancelGraphic layer st g with
    | none => simp [hg] at h
    | some st2 =>
      simp only [hg] at h
      rw [ih st2 h, cancelGraphic_pendingGraphics layer st st2 g hg k,
        cancelGraphic_graphicToLayers layer st st2 g hg k]
      by_cases hk : g = k
      · subst hk
        by_cases hm : g ∈ gs <;>
          by_cases hr : residual layer (st.graphicToLayers.find g) = none <;>
          simp [hm, hr, residual_residual]
      · by_cases hm : k ∈ gs <;> simp [hm, hk, Ne.symm hk]

theorem cancelLoop_loadingTasks (layer : Nat) (gs : List Nat) (st st1 : Loader)
    (h : cancelLoop layer gs st = some st1) (k : Nat) :
    st1.loadingTasks.find k =
      if k ∈ gs ∧ residual layer (st.graphicToLayers.find k) = none then none
      else st.loadingTasks.find k := by
  induction gs generalizing st with
  | nil =>
    simp only [cancelLoop, Option.some.injEq] at h
    subst h
    simp
  | cons g gs ih =>
    simp only [cancelLoop] at h
    cases hg : cancelGraphic layer st g with
    | none => simp [hg] at h
    | some st2 =>
      simp only [hg] at h
      rw [ih st2 h, cancelGraphic_loadingTasks layer st st2 g hg k,
        cancelGraphic_graphicToLayers layer st st2 g hg k]
      by_cases hk : g = k
      · subst hk
        by_cases hm : g ∈ gs <;>
          by_cases hr : residual layer (st.graphicToLayers.find g) = none <;>
          simp [hm, hr, residual_residual]
      · by_cases hm : k ∈ gs <;> simp [hm, hk, Ne.symm hk]

/-- The `cancel()` calls of the loop: one for each source of the list that lost its last
layer while its task was in flight. -/
theorem cancelLoop_canceled (layer : Nat) (gs : List Nat) (st st1 : Loader)
    (h : cancelLoop layer gs st = some st1) :
    ∃ calls : List Nat, st1.canceled = st.canceled ++ calls ∧ calls.Nodup ∧
      ∀ k, k ∈ calls ↔ (k ∈ gs ∧ residual layer (st.graphicToLayers.find k) = none ∧
        st.loadingTasks.find k ≠ none) := by
  induction gs generalizing st with
  | nil =>
    simp only [cancelLoop, Option.some.injEq] at h
    subst h
    exact ⟨[], by simp, List.nodup_nil, by simp⟩
  | cons g gs ih =>
    simp only [cancelLoop] at h
    cases hg : cancelGraphic layer st g with
    | none => simp [hg] at h
    | some st2 =>
      simp only [hg] at h
      obtain ⟨calls, hc, hn, hm⟩ := ih st2 h
      have hg2 := cancelGraphic_graphicToLayers layer st st2 g hg
      have hl2 := cancelGraphic_loadingTasks layer st st2 g hg
      have hnot : g ∉ calls := by
        intro hin
        obtain ⟨_, r1, r2⟩ := (hm g).1 hin
        rw [hg2 g] at r1
        simp only [if_true, residual_residual] at r1
        rw [hl2 g] at r2
        simp [r1] at r2
      have hother : ∀ k, k ≠ g → (k ∈ calls ↔ (k ∈ gs ∧
          residual layer (st.graphicToLayers.find k) = none ∧
          st.loadingTasks.find k ≠ none)) := by
        intro k hk
        rw [hm k, hg2 k, hl2 k]
        simp [Ne.symm hk]
      by_cases hcond : residual layer (st.graphicToLayers.find g) = none ∧
          st.loadingTasks.find g ≠ none
      · refine ⟨g :: calls, ?_, List.nodup_cons.2 ⟨hnot, hn⟩, ?_⟩
        · rw [hc, cancelGraphic_canceled layer st st2 g hg]
          simp [hcond]
        · intro k
          by_cases hk : k = g
          · subst hk
            simp [hcond]
          · simp only [List.mem_cons, hk, false_or]
            exact hother k hk
      · refine ⟨calls, ?_, hn, ?_⟩
        · rw [hc, cancelGraphic_canceled layer st st2 g hg]
          simp [hcond]
        · intro k
          by_cases hk : k = g
          · subst hk
            constructor
            · intro hin
              exact absurd hin hnot
            · intro hin
              exact absurd ⟨hin.2.1, hin.2.2⟩ hcond
          · simp only [List.mem_cons, hk, false_or]
            exact hother k hk

theorem cancelLoop_isSome (layer : Nat) (gs : List Nat) (st : Loader)
    (hf : ∀ g ∈ gs, st.graphicToLayers.find g ≠ none ∧
      (gs.count g ≤ 1 ∨ residual layer (st.graphicToLayers.find g) ≠ none)) :
    ∃ st1, cancelLoop layer gs st = some st1 := by
  induction gs generalizing st with
  | nil => exact ⟨st, rfl⟩
  | cons g gs ih =>
    obtain ⟨st2, hg⟩ := cancelGraphic_isSome layer st g (hf g (List.mem_cons_self g gs)).1
    have hf2 : ∀ k ∈ gs, st2.graphicToLayers.find k ≠ none ∧
        (gs.count k ≤ 1 ∨ residual layer (st2.graphicToLayers.find k) ≠ none) := by
      intro k hk
      obtain ⟨h1, h2⟩ := hf k (List.mem_cons_of_mem g hk)
      rw [cancelGraphic_graphicToLayers layer st st2 g hg k]
      by_cases hne : g = k
      · subst hne
        have hcount : ¬ (g :: gs).count g ≤ 1 := by
          have : 0 < gs.count g := List.count_pos_iff.2 hk
          simp only [List.count_cons_self]
          omega
        have h3 : residual layer (st.graphicToLayers.find g) ≠ none := by
          rcases h2 with h2 | h2
          · exact absurd h2 hcount
          · exact h2
        simp only [if_true, residual_residual]
        exact ⟨h3, Or.inr h3⟩
      · simp only [hne, if_false]
        refine ⟨h1, ?_⟩
        rcases h2 with h2 | h2
        · left
          rw [List.count_cons_of_ne (Ne.symm hne)] at h2
          exact h2
        · exact Or.inr h2
    obtain ⟨st1, h1⟩ := ih st2 hf2
    exact ⟨st1, by simp [cancelLoop, hg, h1]⟩

theorem cancelAsyncContent_cases (st st1 : Loader) (layer : Nat)
    (h : st.cancelAsyncContent layer = some st1) :
    (st.layerToGraphics.find layer = none ∧
      st1 = { st with completeLayers := removeAll st.completeLayers layer }) ∨
    (∃ gs st2, st.layerToGraphics.find layer = some gs ∧
      cancelLoop layer gs { st with completeLayers := removeAll st.completeLayers layer } =
        some st2 ∧
      st1 = { st2 with layerToGraphics := st2.layerToGraphics.erase layer }) := by
  unfold cancelAsyncContent at h
  simp only [] at h
  cases hf : st.layerToGraphics.find layer with
  | none =>
    simp only [hf, Option.some.injEq] at h
    exact Or.inl ⟨rfl, h.symm⟩
  | some gs =>
    simp only [hf] at h
    cases hl : cancelLoop layer gs
        { st with completeLayers := removeAll st.completeLayers layer } with
    | none => simp [hl] at h
    | some st2 =>
      simp only [hl, Option.some.injEq] at h
      exact Or.inr ⟨gs, st2, rfl, hl, h.symm⟩

theorem cancelAsyncContent_layersOf (st st1 : Loader) (layer : Nat) (hc : Core st)
    (h : st.cancelAsyncContent layer = some st1) (g : Nat) :
    st1.layersOf g = removeAll (st.layersOf g) layer := by
  rcases cancelAsyncContent_cases st st1 layer h with ⟨hf, rfl⟩ | ⟨gs, st2, hf, hl, rfl⟩
  · have hno : layer ∉ st.layersOf g := by
      rw [← hc.mirror layer g]
      simp [edges, hf]
    exact (removeAll_eq_self _ _ hno).symm
  · unfold layersOf
    simp only []
    rw [cancelLoop_graphicToLayers layer gs _ st2 hl g]
    by_cases hm : g ∈ gs
    · simp only [hm, if_true]
      exact residual_getD layer _
    · simp only [hm, if_false]
      have hno : layer ∉ st.layersOf g := by
        rw [← hc.mirror layer g]
        simpa [edges, hf] using hm
      exact (removeAll_eq_self _ _ hno).symm

theorem cancelAsyncContent_edges (st st1 : Loader) (layer : Nat)
    (h : st.cancelAsyncContent layer = some st1) (k : Nat) :
    st1.edges k = if layer = k then [] else st.edges k := by
  rcases cancelAsyncContent_cases st st1 layer h with ⟨hf, rfl⟩ | ⟨gs, st2, hf, hl, rfl⟩
  · by_cases hk : layer = k
    · subst hk
      simp [edges, hf]
    · simp [edges, hk]
  · have hfr := (cancelLoop_frame layer gs _ st2 hl).2.2.2.2.1
    unfold edges
    simp only []
    rw [PtrMap.find_erase, hfr]
    by_cases hk : layer = k <;> simp [hk]

theorem cancelAsyncContent_core (st st1 : Loader) (layer : Nat) (hc : Core st)
    (h : st.cancelAsyncContent layer = some st1) : Core st1 := by
  have hlay := cancelAsyncContent_layersOf st st1 layer hc h
  have hedg := cancelAsyncContent_edges st st1 layer h
  have hmirror : ∀ l g, g ∈ st1.edges l ↔ l ∈ st1.layersOf g := by
    intro l g
    rw [hlay g, hedg l, mem_removeAll]
    by_cases hk : layer = l
    · subst hk
      simp
    · simp only [hk, if_false, hc.mirror l g]
      constructor
      · exact fun hx => ⟨hx, Ne.symm hk⟩
      · exact fun hx => hx.1
  rcases cancelAsyncContent_cases st st1 layer h with ⟨hf, rfl⟩ | ⟨gs, st2, hf, hl, rfl⟩
  · exact ⟨hc.layerKeys, hc.graphicKeys, hc.pendingKeys, hc.loadingKeys, hc.cacheKeys,
      nodup_removeAll _ _ hc.batchNodup, hmirror, hc.layerNonempty, hc.graphicNonempty,
      hc.exclusive⟩
  · obtain ⟨_, _, _, _, f5, f6, f7, _, _⟩ := cancelLoop_frame layer gs _ st2 hl
    obtain ⟨k1, k2, k3⟩ := cancelLoop_keys layer gs _ st2 hl hc.graphicKeys hc.pendingKeys
      hc.loadingKeys
    refine ⟨?_, k1, k2, k3, ?_, ?_, hmirror, ?_, ?_, ?_⟩
    · simp only []
      rw [f5]
      exact PtrMap.nodup_keys_erase _ _ hc.layerKeys
    · simp only []
      rw [f7]
      exact hc.cacheKeys
    · simp only []
      rw [f6]
      exact nodup_removeAll _ _ hc.batchNodup
    · intro l
      simp only []
      rw [PtrMap.find_erase, f5]
      split_ifs
      · simp
      · exact hc.layerNonempty l
    · intro g
      simp only []
      rw [cancelLoop_graphicToLayers layer gs _ st2 hl g]
      split_ifs
      · exact residual_ne_some_nil layer _
      · exact hc.graphicNonempty g
    · intro g
      simp only []
      rw [cancelLoop_pendingGraphics layer gs _ st2 hl g,
        cancelLoop_loadingTasks layer gs _ st2 hl g]
      split_ifs
      · intro _; rfl
      · exact hc.exclusive g

theorem cancelAsyncContent_currentLayer (st st1 : Loader) (layer : Nat)
    (h : st.cancelAsyncContent layer = some st1) : st1.currentLayer = st.currentLayer := by
  rcases cancelAsyncContent_cases st st1 layer h with ⟨hf, rfl⟩ | ⟨gs, st2, hf, hl, rfl⟩
  · rfl
  · exact (cancelLoop_frame layer gs _ st2 hl).2.1

theorem cancelAsyncContent_inv (st st1 : Loader) (layer : Nat) (hi : Inv st)
    (h : st.cancelAsyncContent layer = some st1) : Inv st1 :=
  ⟨(cancelAsyncContent_currentLayer st st1 layer h).trans hi.1,
    cancelAsyncContent_core st st1 layer hi.2 h⟩

end Loader

/-! ## The sweep of `onAttached` -/

namespace Loader

theorem promoteLayer_cases (g : Nat) (st : Loader) (layer : Nat) :
    (residual g (st.layerToGraphics.find layer) = none ∧
      promoteLayer g st layer = { st with
        layerToGraphics := st.layerToGraphics.erase layer
        completeLayers := setInsert st.completeLayers layer }) ∨
    (residual g (st.layerToGraphics.find layer) = some (removeAll (st.edges layer) g) ∧
      removeAll (st.edges layer) g ≠ [] ∧
      promoteLayer g st layer = { st with
        layerToGraphics := st.layerToGraphics.assign layer (removeAll (st.edges layer) g) }) := by
  unfold promoteLayer
  simp only []
  by_cases h : removeAll (st.edges layer) g = []
  · left
    refine ⟨?_, by simp [h]⟩
    cases hf : st.layerToGraphics.find layer with
    | none => simp [residual]
    | some ls =>
      have : removeAll ls g = [] := by simpa [edges, hf] using h
      simp [residual, this]
  · right
    refine ⟨?_, h, by simp [h]⟩
    cases hf : st.layerToGraphics.find layer with
    | none => simp [edges, hf, removeAll] at h
    | some ls =>
      have : removeAll ls g ≠ [] := by simpa [edges, hf] using h
      simp [residual, this, edges, hf]

theorem promoteLayer_frame (g : Nat) (st : Loader) (layer : Nat) :
    (promoteLayer g st layer).context = st.context ∧
    (promoteLayer g st layer).currentLayer = st.currentLayer ∧
    (promoteLayer g st layer).maxAsyncGraphicsPerFrame = st.maxAsyncGraphicsPerFrame ∧
    (promoteLayer g st layer).pendingLayers = st.pendingLayers ∧
    (promoteLayer g st layer).graphicToLayers = st.graphicToLayers ∧
    (promoteLayer g st layer).pendingGraphics = st.pendingGraphics ∧
    (promoteLayer g st layer).loadingTasks = st.loadingTasks ∧
    (promoteLayer g st layer).completeGraphics = st.completeGraphics ∧
    (promoteLayer g st layer).started = st.started ∧
    (promoteLayer g st layer).canceled = st.canceled ∧
    (promoteLayer g st layer).invalidated = st.invalidated := by
  rcases promoteLayer_cases g st layer with h | h
  · rw [h.2]; simp
  · rw [h.2.2]; simp

theorem promoteLayer_layerToGraphics (g : Nat) (st : Loader) (layer k : Nat) :
    (promoteLayer g st layer).layerToGraphics.find k =
      if layer = k then residual g (st.layerToGraphics.find k)
      else st.layerToGraphics.find k := by
  rcases promoteLayer_cases g st layer with h | h
  · rw [h.2]
    simp only [PtrMap.find_erase]
    by_cases hk : layer = k
    · subst hk; simp [h.1]
    · simp [hk]
  · rw [h.2.2]
    simp only [PtrMap.find_assign]
    by_cases hk : layer = k
    · subst hk; simp [h.1]
    · simp [hk]

theorem promoteLayer_keys (g : Nat) (st : Loader) (layer : Nat)
    (h : st.layerToGraphics.keys.Nodup) :
    (promoteLayer g st layer).layerToGraphics.keys.Nodup := by
  rcases promoteLayer_cases g st layer with h1 | h1
  · rw [h1.2]; exact PtrMap.nodup_keys_erase _ _ h
  · rw [h1.2.2]; exact PtrMap.nodup_keys_assign _ _ _ h

theorem promoteLayer_completeLayers (g : Nat) (st : Loader) (layer : Nat) :
    (promoteLayer g st layer).completeLayers =
      if residual g (st.layerToGraphics.find layer) = none
      then setInsert st.completeLayers layer else st.completeLayers := by
  rcases promoteLayer_cases g st layer with h | h
  · rw [h.2]; simp [h.1]
  · rw [h.2.2]; simp [h.1]

theorem promoteLayers_frame (g : Nat) (ls : List Nat) (st : Loader) :
    (ls.foldl (promoteLayer g) st).context = st.context ∧
    (ls.foldl (promoteLayer g) st).currentLayer = st.currentLayer ∧
    (ls.foldl (promoteLayer g) st).maxAsyncGraphicsPerFrame = st.maxAsyncGraphicsPerFrame ∧
    (ls.foldl (promoteLayer g) st).pendingLayers = st.pendingLayers ∧
    (ls.foldl (promoteLayer g) st).graphicToLayers = st.graphicToLayers ∧
    (ls.foldl (promoteLayer g) st).pendingGraphics = st.pendingGraphics ∧
    (ls.foldl (promoteLayer g) st).loadingTasks = st.loadingTasks ∧
    (ls.foldl (promoteLayer g) st).completeGraphics = st.completeGraphics ∧
    (ls.foldl (promoteLayer g) st).started = st.started ∧
    (ls.foldl (promoteLayer g) st).canceled = st.canceled ∧
    (ls.foldl (promoteLayer g) st).invalidated = st.invalidated := by
  induction ls generalizing st with
  | nil => simp
  | cons l ls ih =>
    obtain ⟨a1, a2, a3, a4, a5, a6, a7, a8, a9, a10, a11⟩ := promoteLayer_frame g st l
    obtain ⟨b1, b2, b3, b4, b5, b6, b7, b8, b9, b10, b11⟩ := ih (promoteLayer g st l)
    simp only [List.foldl_cons]
    exact ⟨b1.trans a1, b2.trans a2, b3.trans a3, b4.trans a4, b5.trans a5, b6.trans a6,
      b7.trans a7, b8.trans a8, b9.trans a9, b10.trans a10, b11.trans a11⟩

theorem promoteLayers_layerToGraphics (g : Nat) (ls : List Nat) (st : Loader) (k : Nat) :
    (ls.foldl (promoteLayer g) st).layerToGraphics.find k =
      if k ∈ ls then residual g (st.layerToGraphics.find k) else st.layerToGraphics.find k := by
  induction ls generalizing st with
  | nil => simp
  | cons l ls ih =>
    simp only [List.foldl_cons]
    rw [ih, promoteLayer_layerToGraphics]
    by_cases hk : l = k
    · subst hk
      by_cases hm : l ∈ ls <;> simp [hm, residual_residual]
    · by_cases hm : k ∈ ls <;> simp [hm, hk, Ne.symm hk]

theorem promoteLayers_keys (g : Nat) (ls : List Nat) (st : Loader)
    (h : st.layerToGraphics.keys.Nodup) :
    (ls.foldl (promoteLayer g) st).layerToGraphics.keys.Nodup := by
  induction ls generalizing st with
  | nil => exact h
  | cons l ls ih =>
    simp only [List.foldl_cons]
    exact ih _ (promoteLayer_keys g st l h)

theorem promoteLayers_completeLayers (g : Nat) (ls : List Nat) (st : Loader)
    (h : st.completeLayers.Nodup) :
    (ls.foldl (promoteLayer g) st).completeLayers.Nodup ∧
    ∀ x, x ∈ (ls.foldl (promoteLayer g) st).completeLayers ↔
      (x ∈ st.completeLayers ∨ (x ∈ ls ∧ residual g (st.layerToGraphics.find x) = none)) := by
  induction ls generalizing st with
  | nil => exact ⟨h, by simp⟩
  | cons l ls ih =>
    simp only [List.foldl_cons]
    have hn : (promoteLayer g st l).completeLayers.Nodup := by
      rw [promoteLayer_completeLayers]
      split_ifs
      · exact nodup_setInsert _ _ h
      · exact h
    obtain ⟨i1, i2⟩ := ih (promoteLayer g st l) hn
    refine ⟨i1, ?_⟩
    intro x
    rw [i2 x, promoteLayer_completeLayers, promoteLayer_layerToGraphics]
    by_cases hx : l = x
    · subst hx
      by_cases hr : residual g (st.layerToGraphics.find l) = none
      · simp [hr, mem_setInsert]
      · simp [hr, residual_residual]
    · by_cases hr : residual g (st.layerToGraphics.find l) = none
      · simp [hr, mem_setInsert, hx, Ne.symm hx]
      · simp [hr, hx, Ne.symm hx]

theorem residual_eq_none_iff (g : Nat) (entry : Option (List Nat)) :
    residual g entry = none ↔ removeAll (entry.getD []) g = [] := by
  cases entry with
  | none => simp [residual, removeAll]
  | some ls =>
    by_cases h : removeAll ls g = []
    · simp [residual, h]
    · simp [residual, h]

theorem residual_eq_self (g : Nat) (entry : Option (List Nat)) (h1 : entry ≠ some [])
    (h2 : g ∉ entry.getD []) : residual g entry = entry := by
  cases entry with
  | none => rfl
  | some ls =>
    have h3 : removeAll ls g = ls := removeAll_eq_self ls g (by simpa using h2)
    have h4 : ls ≠ [] := by simpa using h1
    simp [residual, h3, h4]

theorem promote_frame (st : Loader) (g : Nat) (task : GraphicLoadTask) :
    (st.promote g task).context = st.context ∧
    (st.promote g task).currentLayer = st.currentLayer ∧
    (st.promote g task).maxAsyncGraphicsPerFrame = st.maxAsyncGraphicsPerFrame ∧
    (st.promote g task).pendingLayers = st.pendingLayers ∧
    (st.promote g task).pendingGraphics = st.pendingGraphics ∧
    (st.promote g task).started = st.started ∧
    (st.promote g task).canceled = st.canceled ∧
    (st.promote g task).invalidated = st.invalidated := by
  obtain ⟨a1, a2, a3, a4, _, a6, _, _, a9, a10, a11⟩ :=
    promoteLayers_frame g (st.layersOf g) st
  exact ⟨a1, a2, a3, a4, a6, a9, a10, a11⟩

theorem promote_graphicToLayers (st : Loader) (g : Nat) (task : GraphicLoadTask) :
    (st.promote g task).graphicToLayers = st.graphicToLayers.erase g := by
  have h := (promoteLayers_frame g (st.layersOf g) st).2.2.2.2.1
  simp only [promote, h]

theorem promote_loadingTasks (st : Loader) (g : Nat) (task : GraphicLoadTask) :
    (st.promote g task).loadingTasks = st.loadingTasks.erase g := by
  have h := (promoteLayers_frame g (st.layersOf g) st).2.2.2.2.2.2.1
  simp only [promote, h]

theorem promote_completeGraphics (st : Loader) (g : Nat) (task : GraphicLoadTask) :
    (st.promote g task).completeGraphics = st.completeGraphics.assign g task.graphic := by
  have h := (promoteLayers_frame g (st.layersOf g) st).2.2.2.2.2.2.2.1
  simp only [promote, h]

theorem promote_layerToGraphics (st : Loader) (g : Nat) (task : GraphicLoadTask)
    (hc : Core st) (k : Nat) :
    (st.promote g task).layerToGraphics.find k = residual g (st.layerToGraphics.find k) := by
  have h := promoteLayers_layerToGraphics g (st.layersOf g) st k
  simp only [promote]
  rw [h]
  split_ifs with hm
  · rfl
  · have hno : g ∉ st.edges k := fun hx => hm ((hc.mirror k g).1 hx)
    exact (residual_eq_self g _ (hc.layerNonempty k) hno).symm

theorem promote_edges (st : Loader) (g : Nat) (task : GraphicLoadTask) (hc : Core st)
    (k : Nat) : (st.promote g task).edges k = removeAll (st.edges k) g := by
  unfold edges
  rw [promote_layerToGraphics st g task hc k]
  exact residual_getD g _

theorem promote_layersOf (st : Loader) (g : Nat) (task : GraphicLoadTask) (k : Nat) :
    (st.promote g task).layersOf k = if g = k then [] else st.layersOf k := by
  unfold layersOf
  rw [promote_graphicToLayers, PtrMap.find_erase]
  by_cases hk : g = k <;> simp [hk]

theorem promote_completeLayers (st : Loader) (g : Nat) (task : GraphicLoadTask)
    (hc : Core st) :
    (st.promote g task).completeLayers.Nodup ∧
    ∀ x, x ∈ (st.promote g task).completeLayers ↔
      (x ∈ st.completeLayers ∨ (st.edges x ≠ [] ∧ (st.promote g task).edges x = [])) := by
  obtain ⟨h1, h2⟩ := promoteLayers_completeLayers g (st.layersOf g) st hc.batchNodup
  refine ⟨h1, ?_⟩
  intro x
  have e : (st.promote g task).completeLayers =
      ((st.layersOf g).foldl (promoteLayer g) st).completeLayers := rfl
  rw [e, h2 x, promote_edges st g task hc x, residual_eq_none_iff, ← hc.mirror x g]
  have hed : (st.layerToGraphics.find x).getD [] = st.edges x := rfl
  rw [hed]
  constructor
  · rintro (hx | ⟨hx1, hx2⟩)
    · exact Or.inl hx
    · exact Or.inr ⟨List.ne_nil_of_mem hx1, hx2⟩
  · rintro (hx | ⟨hx1, hx2⟩)
    · exact Or.inl hx
    · refine Or.inr ⟨?_, hx2⟩
      by_contra hno
      rw [removeAll_eq_self _ _ hno] at hx2
      exact hx1 hx2

theorem promote_core (st : Loader) (g : Nat) (task : GraphicLoadTask) (hc : Core st) :
    Core (st.promote g task) := by
  refine ⟨?_, ?_, ?_, ?_, ?_, ?_, ?_, ?_, ?_, ?_⟩
  · exact promoteLayers_keys g (st.layersOf g) st hc.layerKeys
  · rw [promote_graphicToLayers]; exact PtrMap.nodup_keys_erase _ _ hc.graphicKeys
  · rw [(promote_frame st g task).2.2.2.2.1]; exact hc.pendingKeys
  · rw [promote_loadingTasks]; exact PtrMap.nodup_keys_erase _ _ hc.loadingKeys
  · rw [promote_completeGraphics]; exact PtrMap.nodup_keys_assign _ _ _ hc.cacheKeys
  · exact (promote_completeLayers st g task hc).1
  · intro l k
    rw [promote_edges st g task hc l, promote_layersOf, mem_removeAll, hc.mirror l k]
    by_cases hk : g = k
    · subst hk; simp
    · simp [hk, Ne.symm hk]
  · intro l
    rw [promote_layerToGraphics st g task hc l]
    exact residual_ne_some_nil g _
  · intro k
    rw [promote_graphicToLayers, PtrMap.find_erase]
    split_ifs
    · simp
    · exact hc.graphicNonempty k
  · intro k
    rw [(promote_frame st g task).2.2.2.2.1, promote_loadingTasks, PtrMap.find_erase]
    split_ifs
    · intro _; rfl
    · exact hc.exclusive k

theorem finishedIn_cons_finished (g : Nat) (task : GraphicLoadTask)
    (rest : PtrMap GraphicLoadTask) (h : task.status = TaskStatus.Finished) (k : Nat) :
    finishedIn ((g, task) :: rest) k = (decide (g = k) || finishedIn rest k) := by
  unfold finishedIn
  by_cases hk : g = k
  · simp [PtrMap.find, hk, h]
  · simp [PtrMap.find, hk]

theorem finishedIn_cons_other (g : Nat) (task : GraphicLoadTask)
    (rest : PtrMap GraphicLoadTask) (h : task.status ≠ TaskStatus.Finished)
    (hg : g ∉ PtrMap.keys rest) (k : Nat) :
    finishedIn ((g, task) :: rest) k = finishedIn rest k := by
  unfold finishedIn
  by_cases hk : g = k
  · subst hk
    have : PtrMap.find rest g = none := (PtrMap.not_mem_keys_iff rest g).1 hg
    simp [PtrMap.find, h, this]
  · simp [PtrMap.find, hk]

/-- Effect of the sweep loop on every tracking structure. -/
theorem sweepLoop_spec (ts : PtrMap GraphicLoadTask) (st : Loader) (hk : (PtrMap.keys ts).Nodup)
    (hc : Core st) :
    Core (sweepLoop ts st) ∧
    (∀ k, (sweepLoop ts st).loadingTasks.find k =
      if finishedIn ts k then none else st.loadingTasks.find k) ∧
    (∀ k, (sweepLoop ts st).graphicToLayers.find k =
      if finishedIn ts k then none else st.graphicToLayers.find k) ∧
    (∀ l, (sweepLoop ts st).edges l = (st.edges l).filter (fun x => !finishedIn ts x)) ∧
    (∀ k, (sweepLoop ts st).completeGraphics.find k =
      if finishedIn ts k then (PtrMap.find ts k).map (fun t => t.graphic)
      else st.completeGraphics.find k) ∧
    (∀ x, x ∈ (sweepLoop ts st).completeLayers ↔
      (x ∈ st.completeLayers ∨ (st.edges x ≠ [] ∧ (sweepLoop ts st).edges x = []))) := by
  induction ts generalizing st with
  | nil =>
    refine ⟨hc, ?_, ?_, ?_, ?_, ?_⟩ <;> intros <;> simp [sweepLoop, finishedIn, PtrMap.find]
  | cons e rest ih =>
    obtain ⟨g, task⟩ := e
    have hk2 : g ∉ PtrMap.keys rest ∧ (PtrMap.keys rest).Nodup := by
      simpa [PtrMap.keys] using hk
    by_cases hfin : task.status = TaskStatus.Finished
    · have hstep : sweepLoop ((g, task) :: rest) st = sweepLoop rest (st.promote g task) := by
        simp [sweepLoop, hfin]
      rw [hstep]
      obtain ⟨i1, i2, i3, i4, i5, i6⟩ := ih (st.promote g task) hk2.2 (promote_core st g task hc)
      have hrest : finishedIn rest g = false := by
        have : PtrMap.find rest g = none := (PtrMap.not_mem_keys_iff rest g).1 hk2.1
        simp [finishedIn, this]
      have hed : ∀ l, (sweepLoop rest (st.promote g task)).edges l =
          (st.edges l).filter (fun x => !finishedIn ((g, task) :: rest) x) := by
        intro l
        rw [i4 l, promote_edges st g task hc l, removeAll, List.filter_filter]
        apply List.filter_congr
        intro x _
        rw [finishedIn_cons_finished g task rest hfin x]
        by_cases hx : g = x
        · subst hx; simp
        · simp [hx, Ne.symm hx]
      refine ⟨i1, ?_, ?_, hed, ?_, ?_⟩
      · intro k
        rw [i2 k, promote_loadingTasks, PtrMap.find_erase,
          finishedIn_cons_finished g task rest hfin k]
        by_cases hx : g = k <;> simp [hx]
      · intro k
        rw [i3 k, promote_graphicToLayers, PtrMap.find_erase,
          finishedIn_cons_finished g task rest hfin k]
        by_cases hx : g = k <;> simp [hx]
      · intro k
        rw [i5 k, promote_completeGraphics, PtrMap.find_assign,
          finishedIn_cons_finished g task rest hfin k]
        by_cases hx : g = k
        · subst hx
          simp [hrest, PtrMap.find]
        · simp [hx, PtrMap.find]
      · intro x
        rw [i6 x, (promote_completeLayers st g task hc).2 x]
        have hmono : (st.promote g task).edges x = [] →
            (sweepLoop rest (st.promote g task)).edges x = [] := by
          intro h0
          rw [i4 x, h0]
          rfl
        have hne : (st.promote g task).edges x ≠ [] → st.edges x ≠ [] := by
          intro h0 h1
          apply h0
          rw [promote_edges st g task hc x, h1]
          rfl
        constructor
        · rintro ((hx | ⟨hx1, hx2⟩) | ⟨hx1, hx2⟩)
          · exact Or.inl hx
          · exact Or.inr ⟨hx1, hmono hx2⟩
          · exact Or.inr ⟨hne hx1, hx2⟩
        · rintro (hx | ⟨hx1, hx2⟩)
          · exact Or.inl (Or.inl hx)
          · by_cases h0 : (st.promote g task).edges x = []
            · exact Or.inl (Or.inr ⟨hx1, h0⟩)
            · exact Or.inr ⟨h0, hx2⟩
    · have hstep : sweepLoop ((g, task) :: rest) st = sweepLoop rest st := by
        simp [sweepLoop, hfin]
      rw [hstep]
      obtain ⟨i1, i2, i3, i4, i5, i6⟩ := ih st hk2.2 hc
      have hfe := finishedIn_cons_other g task rest hfin hk2.1
      refine ⟨i1, ?_, ?_, ?_, ?_, i6⟩
      · intro k; rw [i2 k, hfe k]
      · intro k; rw [i3 k, hfe k]
      · intro l
        rw [i4 l]
        apply List.filter_congr
        intro x _
        rw [hfe x]
      · intro k
        rw [i5 k, hfe k]
        by_cases hx : g = k
        · subst hx
          have : PtrMap.find rest g = none := (PtrMap.not_mem_keys_iff rest g).1 hk2.1
          simp [finishedIn, this]
        · simp [PtrMap.find, hx]

theorem sweepLoop_frame (ts : PtrMap GraphicLoadTask) (st : Loader) :
    (sweepLoop ts st).context = st.context ∧
    (sweepLoop ts st).currentLayer = st.currentLayer ∧
    (sweepLoop ts st).maxAsyncGraphicsPerFrame = st.maxAsyncGraphicsPerFrame ∧
    (sweepLoop ts st).pendingLayers = st.pendingLayers ∧
    (sweepLoop ts st).pendingGraphics = st.pendingGraphics ∧
    (sweepLoop ts st).started = st.started ∧
    (sweepLoop ts st).canceled = st.canceled ∧
    (sweepLoop ts st).invalidated = st.invalidated := by
  induction ts generalizing st with
  | nil => simp [sweepLoop]
  | cons e rest ih =>
    obtain ⟨g, task⟩ := e
    by_cases hfin : task.status = TaskStatus.Finished
    · simp only [sweepLoop, hfin, if_true]
      obtain ⟨a1, a2, a3, a4, a5, a6, a7, a8⟩ := promote_frame st g task
      obtain ⟨b1, b2, b3, b4, b5, b6, b7, b8⟩ := ih (st.promote g task)
      exact ⟨b1.trans a1, b2.trans a2, b3.trans a3, b4.trans a4, b5.trans a5, b6.trans a6,
        b7.trans a7, b8.trans a8⟩
    · simp only [sweepLoop, hfin, if_false]
      exact ih st

theorem sweep_core (st : Loader) (current : Nat) (hc : Core st) : Core (st.sweep current) :=
  (sweepLoop_spec st.loadingTasks { st with context := current } hc.loadingKeys
    (hc.congr rfl rfl rfl rfl rfl rfl)).1

theorem onAttached_cases (st : Loader) (current : Nat) :
    ((st.sweep current).loadingTasks ≠ [] ∧
      (st.sweep current).completeLayers.length < MIN_ASYNC_LAYER_BATCH_SIZE ∧
      st.onAttached current = st.sweep current) ∨
    (((st.sweep current).loadingTasks = [] ∨
        MIN_ASYNC_LAYER_BATCH_SIZE ≤ (st.sweep current).completeLayers.length) ∧
      st.onAttached current = { st.sweep current with
        invalidated := (st.sweep current).invalidated ++ (st.sweep current).completeLayers
        completeLayers := [] }) := by
  unfold onAttached
  simp only []
  by_cases h : (st.sweep current).loadingTasks ≠ [] ∧
      (st.sweep current).completeLayers.length < MIN_ASYNC_LAYER_BATCH_SIZE
  · left
    exact ⟨h.1, h.2, by rw [if_pos h]⟩
  · right
    refine ⟨?_, by rw [if_neg h]⟩
    by_cases h1 : (st.sweep current).loadingTasks = []
    · exact Or.inl h1
    · right
      by_contra h2
      exact h ⟨h1, Nat.lt_of_not_le h2⟩

theorem onAttached_core (st : Loader) (current : Nat) (hc : Core st) :
    Core (st.onAttached current) := by
  have hs := sweep_core st current hc
  rcases onAttached_cases st current with h | h
  · rw [h.2.2]; exact hs
  · rw [h.2]
    exact ⟨hs.layerKeys, hs.graphicKeys, hs.pendingKeys, hs.loadingKeys, hs.cacheKeys,
      List.nodup_nil, hs.mirror, hs.layerNonempty, hs.graphicNonempty, hs.exclusive⟩

theorem onAttached_currentLayer (st : Loader) (current : Nat) :
    (st.onAttached current).currentLayer = st.currentLayer := by
  have hf := (sweepLoop_frame st.loadingTasks { st with context := current }).2.1
  rcases onAttached_cases st current with h | h
  · rw [h.2.2]; exact hf
  · rw [h.2]; exact hf

end Loader

/-! ## Dispatch in `onDetached` -/

namespace Loader

theorem dispatch_cases (st : Loader) (g : Nat) :
    (st.pendingGraphics.find g = none ∧ st.dispatch g = st) ∨
    (∃ gr, st.pendingGraphics.find g = some gr ∧
      st.dispatch g = { st with
        started := st.started ++ [g]
        loadingTasks := st.loadingTasks.assign g ⟨TaskStatus.Queued, gr⟩
        pendingGraphics := st.pendingGraphics.erase g }) := by
  unfold dispatch
  cases hf : st.pendingGraphics.find g with
  | none => exact Or.inl ⟨rfl, rfl⟩
  | some gr => exact Or.inr ⟨gr, rfl, rfl⟩

/-- Fields the dispatch of a source never writes. -/
theorem dispatch_frame (st : Loader) (g : Nat) :
    (st.dispatch g).context = st.context ∧
    (st.dispatch g).currentLayer = st.currentLayer ∧
    (st.dispatch g).maxAsyncGraphicsPerFrame = st.maxAsyncGraphicsPerFrame ∧
    (st.dispatch g).pendingLayers = st.pendingLayers ∧
    (st.dispatch g).layerToGraphics = st.layerToGraphics ∧
    (st.dispatch g).graphicToLayers = st.graphicToLayers ∧
    (st.dispatch g).completeLayers = st.completeLayers ∧
    (st.dispatch g).completeGraphics = st.completeGraphics ∧
    (st.dispatch g).canceled = st.canceled ∧
    (st.dispatch g).invalidated = st.invalidated := by
  rcases dispatch_cases st g with h | ⟨gr, _, h⟩
  · rw [h.2]; simp
  · rw [h]; simp

theorem dispatch_core (st : Loader) (g : Nat) (hc : Core st) : Core (st.dispatch g) := by
  rcases dispatch_cases st g with h | ⟨gr, hf, h⟩
  · rw [h.2]; exact hc
  · rw [h]
    refine ⟨hc.layerKeys, hc.graphicKeys, PtrMap.nodup_keys_erase _ _ hc.pendingKeys,
      PtrMap.nodup_keys_assign _ _ _ hc.loadingKeys, hc.cacheKeys, hc.batchNodup, hc.mirror,
      hc.layerNonempty, hc.graphicNonempty, ?_⟩
    intro k
    simp only [PtrMap.find_erase, PtrMap.find_assign]
    by_cases hk : g = k
    · simp [hk]
    · simp only [hk, if_false]
      exact hc.exclusive k

theorem dispatchAll_frame (gs : List Nat) (st : Loader) :
    (gs.foldl dispatch st).context = st.context ∧
    (gs.foldl dispatch st).currentLayer = st.currentLayer ∧
    (gs.foldl dispatch st).maxAsyncGraphicsPerFrame = st.maxAsyncGraphicsPerFrame ∧
    (gs.foldl dispatch st).pendingLayers = st.pendingLayers ∧
    (gs.foldl dispatch st).layerToGraphics = st.layerToGraphics ∧
    (gs.foldl dispatch st).graphicToLayers = st.graphicToLayers ∧
    (gs.foldl dispatch st).completeLayers = st.completeLayers ∧
    (gs.foldl dispatch st).completeGraphics = st.completeGraphics ∧
    (gs.foldl dispatch st).canceled = st.canceled ∧
    (gs.foldl dispatch st).invalidated = st.invalidated := by
  induction gs generalizing st with
  | nil => simp
  | cons g gs ih =>
    obtain ⟨a1, a2, a3, a4, a5, a6, a7, a8, a9, a10⟩ := dispatch_frame st g
    obtain ⟨b1, b2, b3, b4, b5, b6, b7, b8, b9, b10⟩ := ih (st.dispatch g)
    simp only [List.foldl_cons]
    exact ⟨b1.trans a1, b2.trans a2, b3.trans a3, b4.trans a4, b5.trans a5, b6.trans a6,
      b7.trans a7, b8.trans a8, b9.trans a9, b10.trans a10⟩

theorem dispatchAll_core (gs : List Nat) (st : Loader) (hc : Core st) :
    Core (gs.foldl dispatch st) := by
  induction gs generalizing st with
  | nil => exact hc
  | cons g gs ih =>
    simp only [List.foldl_cons]
    exact ih _ (dispatch_core st g hc)

theorem dispatchLayer_frame (st : Loader) (layer : Nat) :
    (st.dispatchLayer layer).context = st.context ∧
    (st.dispatchLayer layer).currentLayer = st.currentLayer ∧
    (st.dispatchLayer layer).maxAsyncGraphicsPerFrame = st.maxAsyncGraphicsPerFrame ∧
    (st.dispatchLayer layer).pendingLayers = st.pendingLayers ∧
    (st.dispatchLayer layer).layerToGraphics = st.layerToGraphics ∧
    (st.dispatchLayer layer).graphicToLayers = st.graphicToLayers ∧
    (st.dispatchLayer layer).completeLayers = st.completeLayers ∧
    (st.dispatchLayer layer).completeGraphics = st.completeGraphics ∧
    (st.dispatchLayer layer).canceled = st.canceled ∧
    (st.dispatchLayer layer).invalidated = st.invalidated := by
  unfold dispatchLayer
  cases st.layerToGraphics.find layer with
  | none => simp
  | some gs => exact dispatchAll_frame gs st

theorem dispatchLayer_core (st : Loader) (layer : Nat) (hc : Core st) :
    Core (st.dispatchLayer layer) := by
  unfold dispatchLayer
  cases st.layerToGraphics.find layer with
  | none => exact hc
  | some gs => exact dispatchAll_core gs st hc

theorem detachLoop_core (q : List Nat) (st : Loader) (hc : Core st) :
    Core (detachLoop q st) := by
  induction q generalizing st with
  | nil => exact hc.congr rfl rfl rfl rfl rfl rfl
  | cons l q ih =>
    simp only [detachLoop]
    split_ifs
    · exact ih _ (dispatchLayer_core _ l (hc.congr rfl rfl rfl rfl rfl rfl))
    · exact hc.congr rfl rfl rfl rfl rfl rfl

theorem detachLoop_frame (q : List Nat) (st : Loader) :
    (detachLoop q st).context = st.context ∧
    (detachLoop q st).currentLayer = st.currentLayer ∧
    (detachLoop q st).maxAsyncGraphicsPerFrame = st.maxAsyncGraphicsPerFrame ∧
    (detachLoop q st).layerToGraphics = st.layerToGraphics ∧
    (detachLoop q st).graphicToLayers = st.graphicToLayers ∧
    (detachLoop q st).completeLayers = st.completeLayers ∧
    (detachLoop q st).completeGraphics = st.completeGraphics ∧
    (detachLoop q st).canceled = st.canceled ∧
    (detachLoop q st).invalidated = st.invalidated := by
  induction q generalizing st with
  | nil => simp [detachLoop]
  | cons l q ih =>
    simp only [detachLoop]
    split_ifs
    · obtain ⟨a1, a2, a3, _, a5, a6, a7, a8, a9, a10⟩ :=
        dispatchLayer_frame { st with pendingLayers := q } l
      obtain ⟨b1, b2, b3, b5, b6, b7, b8, b9, b10⟩ :=
        ih (dispatchLayer { st with pendingLayers := q } l)
      exact ⟨b1.trans a1, b2.trans a2, b3.trans a3, b5.trans a5, b6.trans a6, b7.trans a7,
        b8.trans a8, b9.trans a9, b10.trans a10⟩
    · simp

theorem onDetached_cases (st : Loader) :
    ((detachLoop st.pendingLayers { st with context := 0 }).loadingTasks = [] ∧
      st.onDetached =
        { detachLoop st.pendingLayers { st with context := 0 } with completeGraphics := [] }) ∨
    ((detachLoop st.pendingLayers { st with context := 0 }).loadingTasks ≠ [] ∧
      st.onDetached = detachLoop st.pendingLayers { st with context := 0 }) := by
  unfold onDetached
  simp only []
  by_cases h : (detachLoop st.pendingLayers { st with context := 0 }).loadingTasks = []
  · exact Or.inl ⟨h, by rw [if_pos h]⟩
  · exact Or.inr ⟨h, by rw [if_neg h]⟩

theorem onDetached_core (st : Loader) (hc : Core st) : Core st.onDetached := by
  have hd : Core (detachLoop st.pendingLayers { st with context := 0 }) :=
    detachLoop_core _ _ (hc.congr rfl rfl rfl rfl rfl rfl)
  rcases onDetached_cases st with h | h
  · rw [h.2]
    exact ⟨hd.layerKeys, hd.graphicKeys, hd.pendingKeys, hd.loadingKeys, List.nodup_nil,
      hd.batchNodup, hd.mirror, hd.layerNonempty, hd.graphicNonempty, hd.exclusive⟩
  · rw [h.2]; exact hd

theorem onDetached_currentLayer (st : Loader) :
    st.onDetached.currentLayer = st.currentLayer := by
  have hf := (detachLoop_frame st.pendingLayers { st with context := 0 }).2.1
  rcases onDetached_cases st with h | h
  · rw [h.2]; exact hf
  · rw [h.2]; exact hf

end Loader

/-! ## Worker progress, cache probes and reachable states -/

namespace Loader

theorem core_of_retask (st : Loader) (g : Nat) (old new : GraphicLoadTask) (hc : Core st)
    (hf : st.loadingTasks.find g = some old) :
    Core { st with loadingTasks := st.loadingTasks.assign g new } := by
  refine ⟨hc.layerKeys, hc.graphicKeys, hc.pendingKeys,
    PtrMap.nodup_keys_assign _ _ _ hc.loadingKeys, hc.cacheKeys, hc.batchNodup, hc.mirror,
    hc.layerNonempty, hc.graphicNonempty, ?_⟩
  intro k hp
  have h0 := hc.exclusive k hp
  simp only [PtrMap.find_assign]
  by_cases hk : g = k
  · subst hk
    rw [hf] at h0
    exact absurd h0 (by simp)
  · simpa [hk] using h0

theorem taskRun_inv (st : Loader) (g : Nat) (hi : Inv st) : Inv (st.taskRun g) := by
  unfold taskRun
  cases hf : st.loadingTasks.find g with
  | none => exact hi
  | some task =>
    simp only []
    split_ifs
    · exact ⟨hi.1, core_of_retask st g task _ hi.2 hf⟩
    · exact hi

theorem taskFinish_inv (st : Loader) (g : Nat) (b : Option Nat) (p : Path) (hi : Inv st) :
    Inv (st.taskFinish g b p) := by
  unfold taskFinish
  cases hf : st.loadingTasks.find g with
  | none => exact hi
  | some task =>
    simp only []
    split_ifs
    · exact ⟨hi.1, core_of_retask st g task _ hi.2 hf⟩
    · exact hi

theorem loadImage_probe (st : Loader) (generator : Nat) (tryHardware : Bool)
    (h : st.currentLayer = 0) : (st.loadImage generator tryHardware).2 = st := by
  unfold loadImage
  cases st.completeGraphics.find generator with
  | none => simp [h]
  | some g => rfl

theorem loadShape_probe (st : Loader) (sh : Nat) (path : Option Path)
    (h : st.currentLayer = 0) : (st.loadShape sh path).2.2 = st := by
  unfold loadShape
  cases st.completeGraphics.find sh with
  | none => simp [h]
  | some g => rfl

theorem step_inv (st st1 : Loader) (op : Op) (hi : Inv st) (h : step st op = some st1) :
    Inv st1 := by
  cases op with
  | addAsyncContent layer content =>
    cases content with
    | none =>
      simp only [step, Option.some.injEq] at h
      exact h ▸ hi
    | some c =>
      simp only [step] at h
      split_ifs at h
      simp only [Option.some.injEq] at h
      exact h ▸ addAsyncContent_inv st layer (some c) hi
  | cancelAsyncContent layer => exact cancelAsyncContent_inv st st1 layer hi h
  | loadImage generator tryHardware =>
    simp only [step] at h
    split_ifs at h
    simp only [Option.some.injEq] at h
    rw [loadImage_probe st generator tryHardware hi.1] at h
    exact h ▸ hi
  | loadShape sh path =>
    simp only [step] at h
    split_ifs at h
    simp only [Option.some.injEq] at h
    rw [loadShape_probe st sh path hi.1] at h
    exact h ▸ hi
  | onAttached current =>
    simp only [step, Option.some.injEq] at h
    exact h ▸ ⟨(onAttached_currentLayer st current).trans hi.1, onAttached_core st current hi.2⟩
  | onDetached =>
    simp only [step, Option.some.injEq] at h
    exact h ▸ ⟨(onDetached_currentLayer st).trans hi.1, onDetached_core st hi.2⟩
  | taskRun g =>
    simp only [step, Option.some.injEq] at h
    exact h ▸ taskRun_inv st g hi
  | taskFinish g b p =>
    simp only [step, Option.some.injEq] at h
    exact h ▸ taskFinish_inv st g b p hi

theorem run_inv (ops : List Op) (st st1 : Loader) (hi : Inv st) (h : run st ops = some st1) :
    Inv st1 := by
  induction ops generalizing st with
  | nil =>
    simp only [run, Option.some.injEq] at h
    exact h ▸ hi
  | cons op ops ih =>
    simp only [run] at h
    cases hs : step st op with
    | none => simp [hs] at h
    | some st2 =>
      simp only [hs] at h
      exact ih st2 (step_inv st st2 op hi hs) h

theorem init_inv (cap : Nat) : Inv (init cap) := ⟨rfl, init_core cap⟩

theorem Reachable.inv {cap : Nat} {st : Loader} (h : Reachable cap st) : Inv st := by
  obtain ⟨ops, hr⟩ := h
  exact run_inv ops (init cap) st (init_inv cap) hr

end Loader

/-! ## Sample executions are reachable -/

namespace Loader

theorem sampleTwoLayers_reachable : Reachable 2 sampleTwoLayers :=
  ⟨[Op.addAsyncContent 1 (some [GraphicRequest.image 8 true]),
    Op.addAsyncContent 2 (some [GraphicRequest.image 7 true]), Op.onDetached], by decide⟩

theorem sampleShared_reachable : Reachable 2 sampleShared :=
  ⟨[Op.addAsyncContent 1 (some [GraphicRequest.image 7 true, GraphicRequest.shape 8 none]),
    Op.addAsyncContent 2 (some [GraphicRequest.image 7 false]), Op.onDetached], by decide⟩

theorem sampleQueued_reachable : Reachable 1 sampleQueued :=
  ⟨[Op.addAsyncContent 1 (some [GraphicRequest.image 7 true])], by decide⟩

end Loader

/-! ## The pending queue -/

namespace Loader

theorem detachLoop_pendingLayers (q : List Nat) (st : Loader) :
    ∃ n, (detachLoop q st).pendingLayers = q.drop n := by
  induction q generalizing st with
  | nil => exact ⟨0, rfl⟩
  | cons l q ih =>
    simp only [detachLoop]
    split_ifs
    · obtain ⟨n, hn⟩ := ih (dispatchLayer { st with pendingLayers := q } l)
      exact ⟨n + 1, by simpa using hn⟩
    · exact ⟨0, rfl⟩

theorem onDetached_pendingLayers (st : Loader) :
    ∃ n, st.onDetached.pendingLayers = st.pendingLayers.drop n := by
  obtain ⟨n, hn⟩ := detachLoop_pendingLayers st.pendingLayers { st with context := 0 }
  refine ⟨n, ?_⟩
  rcases onDetached_cases st with h | h
  · rw [h.2]; exact hn
  · rw [h.2]; exact hn

theorem addAsyncContent_pendingLayers (st : Loader) (layer : Nat)
    (content : Option LayerContent) :
    (st.addAsyncContent layer content).2.pendingLayers =
      if (st.addAsyncContent layer content).1 then st.pendingLayers ++ [layer]
      else st.pendingLayers := by
  cases content with
  | none => simp [addAsyncContent]
  | some c =>
    rw [addAsyncContent_snd]
    rfl

theorem onDetached_pops_front (st : Loader) (l : Nat) (q : List Nat)
    (hq : st.pendingLayers = l :: q)
    (hroom : st.loadingTasks.length < st.maxAsyncGraphicsPerFrame) :
    ∃ n, st.onDetached.pendingLayers = q.drop n := by
  have hloop : detachLoop st.pendingLayers { st with context := 0 } =
      detachLoop q (dispatchLayer { { st with context := 0 } with pendingLayers := q } l) := by
    rw [hq]
    simp only [detachLoop]
    rw [if_pos hroom]
  obtain ⟨n, hn⟩ := detachLoop_pendingLayers q
    (dispatchLayer { { st with context := 0 } with pendingLayers := q } l)
  refine ⟨n, ?_⟩
  rcases onDetached_cases st with h | h
  · rw [h.2, hloop]
    exact hn
  · rw [h.2, hloop]
    exact hn

theorem onDetached_keeps_queue (st : Loader)
    (hfull : st.maxAsyncGraphicsPerFrame ≤ st.loadingTasks.length) :
    st.onDetached.pendingLayers = st.pendingLayers := by
  have hloop : (detachLoop st.pendingLayers { st with context := 0 }).pendingLayers =
      st.pendingLayers := by
    cases hq : st.pendingLayers with
    | nil => rfl
    | cons l q =>
      simp only [detachLoop]
      rw [if_neg (Nat.not_lt.2 hfull)]
  rcases onDetached_cases st with h | h
  · rw [h.2]
    exact hloop
  · rw [h.2]
    exact hloop

/-- Claim C7.  The pending queue is first-in first-out.  `addAsyncContent` for a content with
a request that misses the completed cache returns `true` and appends the layer at the back
of the queue, whatever the queue holds; for a content without such a request, and for a null
content, it leaves the queue as it is.  `onDetached` removes layers from the front only: the
queue afterwards is the queue at entry without its first `n` layers, so it is a suffix of
the queue at entry in the same order; the front layer is among the removed ones whenever the
in-flight set is below the cap, and nothing is removed when the in-flight set has reached
the cap. -/
theorem C7_pending_queue_fifo (st : Loader) (layer : Nat) (c : LayerContent)
    (hmiss : ∃ r ∈ c, st.completeGraphics.find r.source = none) :
    (st.addAsyncContent layer (some c)).1 = true ∧
    (st.addAsyncContent layer (some c)).2.pendingLayers = st.pendingLayers ++ [layer] ∧
    (∀ d : LayerContent, (∀ r ∈ d, st.completeGraphics.find r.source ≠ none) →
      (st.addAsyncContent layer (some d)).2.pendingLayers = st.pendingLayers) ∧
    (st.addAsyncContent layer none).2.pendingLayers = st.pendingLayers ∧
    (∃ n, st.onDetached.pendingLayers = st.pendingLayers.drop n ∧
      st.pendingLayers = st.pendingLayers.take n ++ st.onDetached.pendingLayers) ∧
    st.onDetached.pendingLayers <:+ st.pendingLayers ∧
    (∀ l q, st.pendingLayers = l :: q →
      st.loadingTasks.length < st.maxAsyncGraphicsPerFrame →
      ∃ n, st.onDetached.pendingLayers = q.drop n) ∧
    (st.maxAsyncGraphicsPerFrame ≤ st.loadingTasks.length →
      st.onDetached.pendingLayers = st.pendingLayers) := by
  have hflag : (st.addAsyncContent layer (some c)).1 = true := by
    have h1 : (st.addAsyncContent layer (some c)).1 =
        c.any (fun r => (st.completeGraphics.find r.source).isNone) :=
      collect_fst c { st with currentLayer := layer }
    rw [h1, List.any_eq_true]
    obtain ⟨r, hr, hnone⟩ := hmiss
    exact ⟨r, hr, by rw [hnone]; rfl⟩
  refine ⟨hflag, ?_, ?_, rfl, ?_, ?_, ?_, ?_⟩
  · rw [addAsyncContent_pendingLayers, hflag]
    rfl
  · intro d hd
    have h1 : (st.addAsyncContent layer (some d)).1 =
        d.any (fun r => (st.completeGraphics.find r.source).isNone) :=
      collect_fst d { st with currentLayer := layer }
    have h2 : (st.addAsyncContent layer (some d)).1 = false := by
      rw [h1, List.any_eq_false]
      intro r hr
      cases hx : st.completeGraphics.find r.source with
      | none => exact absurd hx (hd r hr)
      | some x => simp
    rw [addAsyncContent_pendingLayers, h2]
    rfl
  · obtain ⟨n, hn⟩ := onDetached_pendingLayers st
    exact ⟨n, hn, by rw [hn, List.take_append_drop]⟩
  · obtain ⟨n, hn⟩ := onDetached_pendingLayers st
    rw [hn]
    exact List.drop_suffix n st.pendingLayers
  · intro l q hq hroom
    exact onDetached_pops_front st l q hq hroom
  · intro hfull
    exact onDetached_keeps_queue st hfull

theorem C7_pending_queue_fifo_witness :
    (sampleBehind.addAsyncContent 3 (some [GraphicRequest.image 9 true])).2.pendingLayers =
      [1, 2] ++ [3] ∧
    sampleBehind.onDetached.pendingLayers = [2] ∧
    (sampleBehind.addAsyncContent 3 (some [GraphicRequest.image 9 true])).2.onDetached.pendingLayers
      = [2, 3] ∧
    sampleBehind.onDetached.onDetached.pendingLayers = [2] :=
  have h := C7_pending_queue_fifo sampleBehind 3 [GraphicRequest.image 9 true]
    ⟨GraphicRequest.image 9 true, by decide, by decide⟩
  ⟨h.2.1, by decide, by decide, by decide⟩

end Loader

/-! ## Notification batching -/

namespace Loader

theorem sweep_invalidated (st : Loader) (current : Nat) :
    (st.sweep current).invalidated = st.invalidated :=
  (sweepLoop_frame st.loadingTasks { st with context := current }).2.2.2.2.2.2.2

/-- Claim C8.  Notification deferral: when after the sweep a task is still in flight and the
completed-node batch holds fewer than 10 layers, `onAttached` records no
`invalidateAsyncContent` call and returns with the batch as the sweep left it. -/
theorem C8_notification_deferred (st : Loader) (current : Nat)
    (hflight : (st.sweep current).loadingTasks ≠ [])
    (hsmall : (st.sweep current).completeLayers.length < 10) :
    (st.onAttached current).invalidated = st.invalidated ∧
    (st.onAttached current).completeLayers = (st.sweep current).completeLayers := by
  rcases onAttached_cases st current with h | h
  · rw [h.2.2]
    exact ⟨sweep_invalidated st current, rfl⟩
  · rcases h.1 with h1 | h1
    · exact absurd h1 hflight
    · exact absurd h1 (Nat.not_le_of_lt hsmall)

theorem C8_notification_deferred_witness :
    ((sampleTwoLayers.taskFinish 8 (some 100) 0).onAttached 5).invalidated = [] ∧
    ((sampleTwoLayers.taskFinish 8 (some 100) 0).onAttached 5).completeLayers = [1] :=
  C8_notification_deferred (sampleTwoLayers.taskFinish 8 (some 100) 0) 5 (by decide) (by decide)

/-- Claim C9.  Notification flush: when after the sweep no task is in flight, or the
completed-node batch holds 10 layers or more, the `invalidateAsyncContent` calls `onAttached`
makes are the layers of the batch, each exactly once; the batch contains the layers that
earlier calls left in it; and the batch is empty on return. -/
theorem C9_notification_flush (cap : Nat) (st : Loader) (current : Nat)
    (hr : Reachable cap st)
    (hflush : (st.sweep current).loadingTasks = [] ∨
      10 ≤ (st.sweep current).completeLayers.length) :
    (st.onAttached current).invalidated =
        st.invalidated ++ (st.sweep current).completeLayers ∧
    (∀ l ∈ (st.sweep current).completeLayers, (st.sweep current).completeLayers.count l = 1) ∧
    (∀ l, l ∉ (st.sweep current).completeLayers →
        (st.sweep current).completeLayers.count l = 0) ∧
    (∀ l ∈ st.completeLayers, l ∈ (st.sweep current).completeLayers) ∧
    (st.onAttached current).completeLayers = [] := by
  have hc := hr.inv.2
  have hs := sweep_core st current hc
  have hspec := sweepLoop_spec st.loadingTasks { st with context := current } hc.loadingKeys
    (hc.congr rfl rfl rfl rfl rfl rfl)
  refine ⟨?_, ?_, ?_, ?_, ?_⟩
  · rcases onAttached_cases st current with h | h
    · rcases hflush with h1 | h1
      · exact absurd h1 h.1
      · exact absurd h1 (Nat.not_le_of_lt h.2.1)
    · rw [h.2]
      simp only []
      rw [sweep_invalidated]
  · intro l hl
    exact List.count_eq_one_of_mem hs.batchNodup hl
  · intro l hl
    exact List.count_eq_zero_of_not_mem hl
  · intro l hl
    exact (hspec.2.2.2.2.2 l).2 (Or.inl hl)
  · rcases onAttached_cases st current with h | h
    · rcases hflush with h1 | h1
      · exact absurd h1 h.1
      · exact absurd h1 (Nat.not_le_of_lt h.2.1)
    · rw [h.2]

theorem C9_notification_flush_witness :
    (((sampleTwoLayers.taskFinish 8 (some 100) 0).onAttached 5).taskFinish 7 none 0
        |>.onAttached 6).invalidated = [] ++ [1, 2] ∧
    (((sampleTwoLayers.taskFinish 8 (some 100) 0).onAttached 5).taskFinish 7 none 0
        |>.onAttached 6).completeLayers = [] :=
  have h := C9_notification_flush 2
    (((sampleTwoLayers.taskFinish 8 (some 100) 0).onAttached 5).taskFinish 7 none 0) 6
    ⟨[Op.addAsyncContent 1 (some [GraphicRequest.image 8 true]),
      Op.addAsyncContent 2 (some [GraphicRequest.image 7 true]), Op.onDetached,
      Op.taskFinish 8 (some 100) 0, Op.onAttached 5, Op.taskFinish 7 none 0], by decide⟩
    (Or.inl (by decide))
  ⟨h.1, h.2.2.2.2⟩

end Loader

/-! ## Promotion of finished loads -/

namespace Loader

/-- The flush at the end of `onAttached` writes no map. -/
theorem onAttached_maps (st : Loader) (current : Nat) :
    (st.onAttached current).layerToGraphics = (st.sweep current).layerToGraphics ∧
    (st.onAttached current).graphicToLayers = (st.sweep current).graphicToLayers ∧
    (st.onAttached current).pendingGraphics = (st.sweep current).pendingGraphics ∧
    (st.onAttached current).loadingTasks = (st.sweep current).loadingTasks ∧
    (st.onAttached current).completeGraphics = (st.sweep current).completeGraphics := by
  rcases onAttached_cases st current with h | h
  · rw [h.2.2]; exact ⟨rfl, rfl, rfl, rfl, rfl⟩
  · rw [h.2]; exact ⟨rfl, rfl, rfl, rfl, rfl⟩

theorem onAttached_edges (st : Loader) (current : Nat) (l : Nat) :
    (st.onAttached current).edges l = (st.sweep current).edges l := by
  unfold edges
  rw [(onAttached_maps st current).1]

/-- Claim C10.  Promotion in `onAttached`, for a reachable loader and an in-flight task of the
source `g`.  If the task is `Finished`, then afterwards `g` is no key of `loadingTasks` and of
`graphicToLayers`, occurs in the edge list of no layer, and `completeGraphics` maps `g` to the
graphic of the task.  If the task is not `Finished`, then its `loadingTasks` entry and its
`graphicToLayers` entry are unchanged and `g` occurs in every edge list as often as before. -/
theorem C10_promotion (cap : Nat) (st : Loader) (current : Nat) (g : Nat)
    (task : GraphicLoadTask) (hr : Reachable cap st)
    (hf : st.loadingTasks.find g = some task) :
    (task.status = TaskStatus.Finished →
      (st.onAttached current).loadingTasks.find g = none ∧
      (st.onAttached current).graphicToLayers.find g = none ∧
      (∀ l, g ∉ (st.onAttached current).edges l) ∧
      (st.onAttached current).completeGraphics.find g = some task.graphic) ∧
    (task.status ≠ TaskStatus.Finished →
      (st.onAttached current).loadingTasks.find g = some task ∧
      (st.onAttached current).graphicToLayers.find g = st.graphicToLayers.find g ∧
      (∀ l, ((st.onAttached current).edges l).count g = (st.edges l).count g)) := by
  have hc := hr.inv.2
  obtain ⟨_, s2, s3, s4, s5, _⟩ :=
    sweepLoop_spec st.loadingTasks { st with context := current } hc.loadingKeys
      (hc.congr rfl rfl rfl rfl rfl rfl)
  obtain ⟨_, m2, _, m4, m5⟩ := onAttached_maps st current
  have e2 : ∀ k, (st.sweep current).loadingTasks.find k =
      if finishedIn st.loadingTasks k then none else st.loadingTasks.find k := s2
  have e3 : ∀ k, (st.sweep current).graphicToLayers.find k =
      if finishedIn st.loadingTasks k then none else st.graphicToLayers.find k := s3
  have e4 : ∀ l, (st.sweep current).edges l =
      (st.edges l).filter (fun x => !finishedIn st.loadingTasks x) := s4
  have e5 : ∀ k, (st.sweep current).completeGraphics.find k =
      if finishedIn st.loadingTasks k then (PtrMap.find st.loadingTasks k).map (fun t => t.graphic)
      else st.completeGraphics.find k := s5
  constructor
  · intro hfin
    have hin : finishedIn st.loadingTasks g = true := by simp [finishedIn, hf, hfin]
    refine ⟨?_, ?_, ?_, ?_⟩
    · rw [m4, e2 g, hin]; rfl
    · rw [m2, e3 g, hin]; rfl
    · intro l
      rw [onAttached_edges, e4 l]
      simp [hin]
    · rw [m5, e5 g, hin, hf]; rfl
  · intro hfin
    have hin : finishedIn st.loadingTasks g = false := by simp [finishedIn, hf, hfin]
    refine ⟨?_, ?_, ?_⟩
    · rw [m4, e2 g, hin, hf]; rfl
    · rw [m2, e3 g, hin]; rfl
    · intro l
      rw [onAttached_edges, e4 l]
      exact List.count_filter (by simp [hin])

theorem C10_promotion_witness :
    ((sampleShared.taskFinish 8 none 44).onAttached 5).loadingTasks.find 8 = none ∧
    ((sampleShared.taskFinish 8 none 44).onAttached 5).completeGraphics.find 8 =
      some (DeferredGraphic.shape 8 44) ∧
    ((sampleShared.taskFinish 8 none 44).onAttached 5).loadingTasks.find 7 =
      some ⟨TaskStatus.Queued, DeferredGraphic.image 7 true none⟩ :=
  have hr : Reachable 2 (sampleShared.taskFinish 8 none 44) :=
    ⟨[Op.addAsyncContent 1 (some [GraphicRequest.image 7 true, GraphicRequest.shape 8 none]),
      Op.addAsyncContent 2 (some [GraphicRequest.image 7 false]), Op.onDetached,
      Op.taskFinish 8 none 44], by decide⟩
  have h8 := (C10_promotion 2 (sampleShared.taskFinish 8 none 44) 5 8
    ⟨TaskStatus.Finished, DeferredGraphic.shape 8 44⟩ hr (by decide)).1 rfl
  have h7 := (C10_promotion 2 (sampleShared.taskFinish 8 none 44) 5 7
    ⟨TaskStatus.Queued, DeferredGraphic.image 7 true none⟩ hr (by decide)).2 (by decide)
  ⟨h8.1, h8.2.2.2, h7.1⟩

end Loader

/-! ## What `cancelAsyncContent` removes -/

namespace Loader

theorem cancelAsyncContent_pendingLayers (st st1 : Loader) (layer : Nat)
    (h : st.cancelAsyncContent layer = some st1) : st1.pendingLayers = st.pendingLayers := by
  rcases cancelAsyncContent_cases st st1 layer h with ⟨hf, rfl⟩ | ⟨gs, st2, hf, hl, rfl⟩
  · rfl
  · exact (cancelLoop_frame layer gs _ st2 hl).2.2.2.1

theorem cancelAsyncContent_completeLayers (st st1 : Loader) (layer : Nat)
    (h : st.cancelAsyncContent layer = some st1) :
    st1.completeLayers = removeAll st.completeLayers layer := by
  rcases cancelAsyncContent_cases st st1 layer h with ⟨hf, rfl⟩ | ⟨gs, st2, hf, hl, rfl⟩
  · rfl
  · exact (cancelLoop_frame layer gs _ st2 hl).2.2.2.2.2.1

/-- Claim C3, counterexample.  Layer 1 registers one image source and is canceled before any
frame ends: the call returns and layer 1 is still in the pending queue. -/
theorem C3_counterexample :
    Reachable 1 sampleQueued ∧
    ∃ st1, sampleQueued.cancelAsyncContent 1 = some st1 ∧ 1 ∈ st1.pendingLayers :=
  ⟨⟨[Op.addAsyncContent 1 (some [GraphicRequest.image 7 true])], by decide⟩,
    ⟨_, rfl, by decide⟩⟩

/-- Claim C3, amended.  After `cancelAsyncContent(node)` has returned on a reachable loader,
the node is no key of `layerToGraphics`, is in no list of `graphicToLayers` and is not in
`completeLayers`; the pending queue is left as it was, so the node may still be queued. -/
theorem C3_cancel_untracks_node (cap : Nat) (st st1 : Loader) (node : Nat)
    (hr : Reachable cap st) (h : st.cancelAsyncContent node = some st1) :
    node ∉ st1.layerToGraphics.keys ∧
    (∀ g layers, (g, layers) ∈ st1.graphicToLayers → node ∉ layers) ∧
    node ∉ st1.completeLayers ∧
    st1.pendingLayers = st.pendingLayers := by
  have hc := hr.inv.2
  have hc1 := cancelAsyncContent_core st st1 node hc h
  refine ⟨?_, ?_, ?_, cancelAsyncContent_pendingLayers st st1 node h⟩
  · rw [PtrMap.not_mem_keys_iff]
    have he := cancelAsyncContent_edges st st1 node h node
    simp only [if_true] at he
    cases hf : st1.layerToGraphics.find node with
    | none => rfl
    | some ls =>
      have : ls = [] := by simpa [edges, hf] using he
      exact absurd (this ▸ hf) (hc1.layerNonempty node)
  · intro g layers hm hin
    have hf := PtrMap.find_of_mem _ g layers hc1.graphicKeys hm
    have hl : st1.layersOf g = layers := by simp [layersOf, hf]
    rw [← hl, cancelAsyncContent_layersOf st st1 node hc h g, mem_removeAll] at hin
    exact hin.2 rfl
  · rw [cancelAsyncContent_completeLayers st st1 node h, mem_removeAll]
    exact fun hx => hx.2 rfl

theorem C3_cancel_untracks_node_witness :
    ∃ st1, sampleShared.cancelAsyncContent 1 = some st1 ∧
      1 ∉ st1.layerToGraphics.keys ∧
      (∀ g layers, (g, layers) ∈ st1.graphicToLayers → 1 ∉ layers) ∧
      1 ∉ st1.completeLayers ∧ st1.pendingLayers = sampleShared.pendingLayers :=
  ⟨_, rfl, C3_cancel_untracks_node 2 sampleShared _ 1
    ⟨[Op.addAsyncContent 1 (some [GraphicRequest.image 7 true, GraphicRequest.shape 8 none]),
      Op.addAsyncContent 2 (some [GraphicRequest.image 7 false]), Op.onDetached], by decide⟩
    rfl⟩

theorem residual_eq_none_of_sole (st : Loader) (node s : Nat)
    (h : ∀ l ∈ st.layersOf s, l = node) :
    residual node (st.graphicToLayers.find s) = none := by
  rw [residual_eq_none_iff]
  apply List.eq_nil_iff_forall_not_mem.2
  intro l hl
  have hl2 := (mem_removeAll _ node l).1 hl
  exact hl2.2 (h l hl2.1)

theorem residual_ne_none_of_shared (st : Loader) (node s : Nat)
    (h : ∃ l ∈ st.layersOf s, l ≠ node) :
    residual node (st.graphicToLayers.find s) ≠ none := by
  rw [Ne, residual_eq_none_iff]
  obtain ⟨l, hl, hne⟩ := h
  intro hnil
  have : l ∈ removeAll ((st.graphicToLayers.find s).getD []) node :=
    (mem_removeAll _ node l).2 ⟨hl, hne⟩
  rw [hnil] at this
  exact absurd this (List.not_mem_nil l)

/-- What `cancelAsyncContent(node)` does to each source when it returns, on a reachable
loader in which the node is registered with the edge list `gs`.  The call returns whenever
every source of `gs` occurs once in it or is referenced by another layer.  When it returns,
`calls` being the `cancel()` calls it made: a source of the node that only the node
referenced is no key of `graphicToLayers`, `pendingGraphics` and `loadingTasks` afterwards,
and was canceled exactly once if it was in flight; a source that another layer references
keeps its `pendingGraphics` and `loadingTasks` entries and is not canceled. -/
theorem cancelAsyncContent_per_source (cap : Nat) (st : Loader) (node : Nat) (gs : List Nat)
    (hr : Reachable cap st) (hreg : st.layerToGraphics.find node = some gs) :
    ((∀ s ∈ gs, gs.count s = 1 ∨ ∃ l ∈ st.layersOf s, l ≠ node) →
      ∃ st1, st.cancelAsyncContent node = some st1) ∧
    ∀ st1, st.cancelAsyncContent node = some st1 →
      ∃ calls, st1.canceled = st.canceled ++ calls ∧ ∀ s ∈ gs,
        ((∀ l ∈ st.layersOf s, l = node) →
          s ∉ st1.graphicToLayers.keys ∧ s ∉ st1.pendingGraphics.keys ∧
          s ∉ st1.loadingTasks.keys ∧ (s ∈ st.loadingTasks.keys → calls.count s = 1)) ∧
        ((∃ l ∈ st.layersOf s, l ≠ node) →
          st1.pendingGraphics.find s = st.pendingGraphics.find s ∧
          st1.loadingTasks.find s = st.loadingTasks.find s ∧ s ∉ calls) := by
  have hc := hr.inv.2
  constructor
  · intro hall
    have hpre : ∀ g ∈ gs, st.graphicToLayers.find g ≠ none ∧
        (gs.count g ≤ 1 ∨ residual node (st.graphicToLayers.find g) ≠ none) := by
      intro g hg
      have hin : node ∈ st.layersOf g := by
        rw [← hc.mirror node g]
        simpa [edges, hreg] using hg
      refine ⟨?_, ?_⟩
      · intro hnone
        simp [layersOf, hnone] at hin
      · rcases hall g hg with h1 | h1
        · exact Or.inl (le_of_eq h1)
        · exact Or.inr (residual_ne_none_of_shared st node g h1)
    obtain ⟨st2, h2⟩ := cancelLoop_isSome node gs
      { st with completeLayers := removeAll st.completeLayers node } hpre
    refine ⟨{ st2 with layerToGraphics := st2.layerToGraphics.erase node }, ?_⟩
    simp [cancelAsyncContent, hreg, h2]
  · intro st1 h
    rcases cancelAsyncContent_cases st st1 node h with ⟨hf, _⟩ | ⟨gs2, st2, hf, hl, rfl⟩
    · rw [hreg] at hf
      exact absurd hf (by simp)
    · have hgs : gs2 = gs := by
        rw [hreg] at hf
        exact (Option.some.inj hf).symm
      subst hgs
      obtain ⟨calls, hcalls, hnodup, hmem⟩ := cancelLoop_canceled node gs2 _ st2 hl
      refine ⟨calls, hcalls, ?_⟩
      intro s hs
      have e1 := cancelLoop_graphicToLayers node gs2 _ st2 hl s
      have e2 := cancelLoop_pendingGraphics node gs2 _ st2 hl s
      have e3 := cancelLoop_loadingTasks node gs2 _ st2 hl s
      simp only [hs, if_true, true_and] at e1 e2 e3
      constructor
      · intro hsole
        have hres := residual_eq_none_of_sole st node s hsole
        rw [PtrMap.not_mem_keys_iff, PtrMap.not_mem_keys_iff, PtrMap.not_mem_keys_iff]
        refine ⟨?_, ?_, ?_, ?_⟩
        · rw [e1]; exact hres
        · rw [e2, if_pos hres]
        · rw [e3, if_pos hres]
        · intro hin
          apply List.count_eq_one_of_mem hnodup
          exact (hmem s).2 ⟨hs, hres, (PtrMap.mem_keys_iff _ s).1 hin⟩
      · intro hshared
        have hres := residual_ne_none_of_shared st node s hshared
        refine ⟨?_, ?_, ?_⟩
        · rw [e2, if_neg hres]
        · rw [e3, if_neg hres]
        · intro hin
          exact hres ((hmem s).1 hin).2.1

theorem cancelAsyncContent_per_source_sample :
    ∃ st1, sampleShared.cancelAsyncContent 1 = some st1 ∧
      st1.canceled = [8] ∧ 8 ∉ st1.loadingTasks.keys ∧
      st1.loadingTasks.find 7 = sampleShared.loadingTasks.find 7 :=
  have h := cancelAsyncContent_per_source 2 sampleShared 1 [7, 8]
    ⟨[Op.addAsyncContent 1 (some [GraphicRequest.image 7 true, GraphicRequest.shape 8 none]),
      Op.addAsyncContent 2 (some [GraphicRequest.image 7 false]), Op.onDetached], by decide⟩
    (by decide)
  have h1 := h.2 _ rfl
  ⟨_, rfl, by decide,
    (Exists.choose_spec h1).2 8 (by decide) |>.1 (by decide) |>.2.2.1,
    (Exists.choose_spec h1).2 7 (by decide) |>.2 ⟨2, by decide, by decide⟩ |>.2.1⟩

/-- Claim C4, the failing execution.  Layer 1 requests the image source 7 twice on a fresh
loader with cap 1 and `onDetached` starts the load of 7, so layer 1 is registered, is the
only layer referencing 7, and 7 is in flight.  In `cancelAsyncContent(1)` the first pass over
the edge list `[7, 7]` treats 7 as the claim says: it erases 7 from `graphicToLayers`,
`pendingGraphics` and `loadingTasks` and calls `cancel()` on its task.  The second pass
finds no entry for 7 in `graphicToLayers`: the lookup gives the end iterator, the
`DEBUG_ASSERT` fails, and the call does not return. -/
theorem C4_sole_source_cancel_fails :
    Reachable 1 sampleTwice.onDetached ∧
    sampleTwice.onDetached.layerToGraphics.find 1 = some [7, 7] ∧
    (∀ l ∈ sampleTwice.onDetached.layersOf 7, l = 1) ∧
    7 ∈ sampleTwice.onDetached.loadingTasks.keys ∧
    (∃ st1, cancelGraphic 1 sampleTwice.onDetached 7 = some st1 ∧ st1.canceled = [7] ∧
      7 ∉ st1.graphicToLayers.keys ∧ 7 ∉ st1.pendingGraphics.keys ∧
      7 ∉ st1.loadingTasks.keys ∧ cancelGraphic 1 st1 7 = none) ∧
    sampleTwice.onDetached.cancelAsyncContent 1 = none :=
  ⟨⟨[Op.addAsyncContent 1 (some [GraphicRequest.image 7 true, GraphicRequest.image 7 true]),
      Op.onDetached], by decide⟩, by decide, by decide, by decide,
    ⟨_, rfl, by decide, by decide, by decide, by decide, by decide⟩, by decide⟩

end Loader

/-! ## The bound on the in-flight set -/

namespace Loader

theorem collect_edges (c : LayerContent) (st : Loader) (l : Nat) :
    (collectDeferredGraphics c st).2.edges l =
      if st.currentLayer = l ∧ st.currentLayer ≠ 0 then st.edges l ++ misses st c
      else st.edges l := by
  induction c generalizing st with
  | nil => simp [collectDeferredGraphics, misses]
  | cons r rs ih =>
    simp only [collectDeferredGraphics]
    rw [ih]
    obtain ⟨_, f2, _, _, _, _, f7, _, _, _⟩ := request_sameFrame st r
    have hm : misses (st.request r).2 rs = misses st rs := by simp [misses, f7]
    rw [f2, hm, request_snd]
    by_cases hmiss : st.completeGraphics.find r.source = none
    · by_cases hcur : st.currentLayer = 0
      · simp [hcur]
      · by_cases hl : st.currentLayer = l
        · subst hl
          simp [hmiss, hcur, addDeferredGraphic_edges, misses, graphic_getSource]
        · simp [hmiss, hcur, hl, addDeferredGraphic_edges]
    · have hmiss2 : (st.completeGraphics.find r.source).isNone = false := by
        cases hx : st.completeGraphics.find r.source with
        | none => exact absurd hx hmiss
        | some x => rfl
      simp [hmiss, misses, hmiss2]

theorem misses_length_le (st : Loader) (c : LayerContent) : (misses st c).length ≤ c.length := by
  simp only [misses, List.length_map]
  exact List.length_filter_le _ _

theorem addAsyncContent_edges (st : Loader) (layer : Nat) (c : LayerContent) (l : Nat) :
    (st.addAsyncContent layer (some c)).2.edges l =
      if layer = l ∧ layer ≠ 0 then st.edges l ++ misses st c else st.edges l := by
  rw [addAsyncContent_snd]
  have h := collect_edges c { st with currentLayer := layer } l
  exact h

theorem addAsyncContent_frame (st : Loader) (layer : Nat) (content : Option LayerContent) :
    (st.addAsyncContent layer content).2.maxAsyncGraphicsPerFrame = st.maxAsyncGraphicsPerFrame ∧
    (st.addAsyncContent layer content).2.loadingTasks = st.loadingTasks ∧
    (st.addAsyncContent layer content).2.completeLayers = st.completeLayers ∧
    (st.addAsyncContent layer content).2.completeGraphics = st.completeGraphics ∧
    (st.addAsyncContent layer content).2.started = st.started ∧
    (st.addAsyncContent layer content).2.canceled = st.canceled ∧
    (st.addAsyncContent layer content).2.invalidated = st.invalidated := by
  cases content with
  | none => simp [addAsyncContent]
  | some c =>
    rw [addAsyncContent_snd]
    obtain ⟨_, _, f3, _, f5, f6, f7, f8, f9, f10⟩ :=
      collect_sameFrame c { st with currentLayer := layer }
    exact ⟨f3, f5, f6, f7, f8, f9, f10⟩

theorem cancelGraphic_length (layer : Nat) (st st1 : Loader) (g : Nat)
    (h : cancelGraphic layer st g = some st1) :
    st1.loadingTasks.length ≤ st.loadingTasks.length := by
  obtain ⟨ls, hf, h1 | h1 | h1⟩ := cancelGraphic_cases layer st st1 g h
  · rw [h1.2]
  · rw [h1.2.2]
  · rw [h1.2.2]; exact PtrMap.length_erase_le _ _

theorem cancelLoop_length (layer : Nat) (gs : List Nat) (st st1 : Loader)
    (h : cancelLoop layer gs st = some st1) :
    st1.loadingTasks.length ≤ st.loadingTasks.length := by
  induction gs generalizing st with
  | nil =>
    simp only [cancelLoop, Option.some.injEq] at h
    subst h
    exact le_refl _
  | cons g gs ih =>
    simp only [cancelLoop] at h
    cases hg : cancelGraphic layer st g with
    | none => simp [hg] at h
    | some st2 =>
      simp only [hg] at h
      exact le_trans (ih st2 h) (cancelGraphic_length layer st st2 g hg)

theorem cancelAsyncContent_length (st st1 : Loader) (layer : Nat)
    (h : st.cancelAsyncContent layer = some st1) :
    st1.loadingTasks.length ≤ st.loadingTasks.length := by
  rcases cancelAsyncContent_cases st st1 layer h with ⟨hf, rfl⟩ | ⟨gs, st2, hf, hl, rfl⟩
  · exact le_refl _
  · have h2 := cancelLoop_length layer gs _ st2 hl
    exact h2

theorem cancelAsyncContent_max (st st1 : Loader) (layer : Nat)
    (h : st.cancelAsyncContent layer = some st1) :
    st1.maxAsyncGraphicsPerFrame = st.maxAsyncGraphicsPerFrame := by
  rcases cancelAsyncContent_cases st st1 layer h with ⟨hf, rfl⟩ | ⟨gs, st2, hf, hl, rfl⟩
  · rfl
  · exact (cancelLoop_frame layer gs _ st2 hl).2.2.1

theorem sweepLoop_length (ts : PtrMap GraphicLoadTask) (st : Loader) :
    (sweepLoop ts st).loadingTasks.length ≤ st.loadingTasks.length := by
  induction ts generalizing st with
  | nil => exact le_refl _
  | cons e rest ih =>
    obtain ⟨g, task⟩ := e
    by_cases hfin : task.status = TaskStatus.Finished
    · simp only [sweepLoop, hfin, if_true]
      refine le_trans (ih _) ?_
      rw [promote_loadingTasks]
      exact PtrMap.length_erase_le _ _
    · simp only [sweepLoop, hfin, if_false]
      exact ih st

theorem dispatch_length (st : Loader) (g : Nat) :
    (st.dispatch g).loadingTasks.length ≤ st.loadingTasks.length + 1 := by
  rcases dispatch_cases st g with h | ⟨gr, _, h⟩
  · rw [h.2]; omega
  · rw [h]; exact PtrMap.length_assign_le _ _ _

theorem dispatchAll_length (gs : List Nat) (st : Loader) :
    (gs.foldl dispatch st).loadingTasks.length ≤ st.loadingTasks.length + gs.length := by
  induction gs generalizing st with
  | nil => simp
  | cons g gs ih =>
    simp only [List.foldl_cons, List.length_cons]
    have h1 := ih (st.dispatch g)
    have h2 := dispatch_length st g
    omega

theorem dispatchLayer_length (st : Loader) (layer : Nat) :
    (st.dispatchLayer layer).loadingTasks.length ≤
      st.loadingTasks.length + (st.edges layer).length := by
  unfold dispatchLayer edges
  cases st.layerToGraphics.find layer with
  | none => simp
  | some gs => exact dispatchAll_length gs st

theorem detachLoop_bounded (cap m : Nat) (q : List Nat) (st : Loader) (h : Bounded cap m st) :
    Bounded cap m (detachLoop q st) := by
  induction q generalizing st with
  | nil => exact h
  | cons l q ih =>
    simp only [detachLoop]
    obtain ⟨h1, h2, h3, h4⟩ := h
    split_ifs with hlt
    · apply ih
      obtain ⟨_, _, f3, _, f5, _, _, _, _, _⟩ :=
        dispatchLayer_frame { st with pendingLayers := q } l
      have hlen := dispatchLayer_length { st with pendingLayers := q } l
      have hedge : ({ st with pendingLayers := q } : Loader).edges l = st.edges l := rfl
      have hload : ({ st with pendingLayers := q } : Loader).loadingTasks = st.loadingTasks := rfl
      rw [hedge, hload] at hlen
      have hm := h2 l
      rw [h1] at hlt
      refine ⟨f3.trans h1, ?_, ?_, ?_⟩
      · intro k
        unfold edges
        rw [f5]
        exact h2 k
      · omega
      · intro h0
        omega
    · exact ⟨h1, h2, h3, h4⟩

theorem Bounded.of_le {cap m : Nat} {st st1 : Loader} (h : Bounded cap m st)
    (hmax : st1.maxAsyncGraphicsPerFrame = st.maxAsyncGraphicsPerFrame)
    (hedges : ∀ l, (st1.edges l).length ≤ m)
    (hlen : st1.loadingTasks.length ≤ st.loadingTasks.length) : Bounded cap m st1 := by
  obtain ⟨h1, _, h3, h4⟩ := h
  refine ⟨hmax.trans h1, hedges, le_trans hlen h3, ?_⟩
  intro h0
  have : st.loadingTasks.length = 0 := by rw [h4 h0]; rfl
  exact List.length_eq_zero.1 (by omega)

theorem onAttached_max (st : Loader) (current : Nat) :
    (st.onAttached current).maxAsyncGraphicsPerFrame = st.maxAsyncGraphicsPerFrame := by
  have hf := (sweepLoop_frame st.loadingTasks { st with context := current }).2.2.1
  rcases onAttached_cases st current with h | h
  · rw [h.2.2]; exact hf
  · rw [h.2]; exact hf

theorem onDetached_bounded (cap m : Nat) (st : Loader) (h : Bounded cap m st) :
    Bounded cap m st.onDetached := by
  have hd : Bounded cap m (detachLoop st.pendingLayers { st with context := 0 }) :=
    detachLoop_bounded cap m _ _ h
  rcases onDetached_cases st with h1 | h1
  · rw [h1.2]; exact hd
  · rw [h1.2]; exact hd

theorem retask_bounded (cap m : Nat) (st : Loader) (g : Nat) (old new : GraphicLoadTask)
    (h : Bounded cap m st) (hf : st.loadingTasks.find g = some old) :
    Bounded cap m { st with loadingTasks := st.loadingTasks.assign g new } :=
  h.of_le rfl h.2.1 (le_of_eq (PtrMap.length_assign_of_find _ g new old hf))

theorem step_bounded (cap m : Nat) (st st1 : Loader) (op : Op) (hi : Inv st)
    (hb : Bounded cap m st) (hop : op.requestCount ≤ m) (h : step st op = some st1) :
    Bounded cap m st1 := by
  cases op with
  | addAsyncContent layer content =>
    cases content with
    | none =>
      simp only [step, Option.some.injEq] at h
      exact h ▸ hb
    | some c =>
      simp only [step] at h
      split_ifs at h with hpre
      simp only [Option.some.injEq] at h
      subst h
      obtain ⟨f1, f2, _⟩ := addAsyncContent_frame st layer (some c)
      refine hb.of_le f1 ?_ (le_of_eq (by rw [f2]))
      intro l
      rw [addAsyncContent_edges]
      split_ifs with hl
      · have he : st.edges l = [] := by
          rw [← hl.1]
          simp [edges, hpre.2.1]
        rw [he]
        have hlen := misses_length_le st c
        have hc : c.length ≤ m := hop
        simp only [List.nil_append]
        omega
      · exact hb.2.1 l
  | cancelAsyncContent layer =>
    refine hb.of_le (cancelAsyncContent_max st st1 layer h) ?_
      (cancelAsyncContent_length st st1 layer h)
    intro l
    rw [cancelAsyncContent_edges st st1 layer h l]
    split_ifs
    · simp
    · exact hb.2.1 l
  | loadImage generator tryHardware =>
    simp only [step] at h
    split_ifs at h
    simp only [Option.some.injEq] at h
    rw [loadImage_probe st generator tryHardware hi.1] at h
    exact h ▸ hb
  | loadShape sh path =>
    simp only [step] at h
    split_ifs at h
    simp only [Option.some.injEq] at h
    rw [loadShape_probe st sh path hi.1] at h
    exact h ▸ hb
  | onAttached current =>
    simp only [step, Option.some.injEq] at h
    subst h
    refine hb.of_le (onAttached_max st current) ?_ ?_
    · intro l
      rw [onAttached_edges]
      have hs := (sweepLoop_spec st.loadingTasks { st with context := current }
        hi.2.loadingKeys (hi.2.congr rfl rfl rfl rfl rfl rfl)).2.2.2.1 l
      have hs2 : (st.sweep current).edges l =
          (st.edges l).filter (fun x => !finishedIn st.loadingTasks x) := hs
      rw [hs2]
      exact le_trans (List.length_filter_le _ _) (hb.2.1 l)
    · rw [(onAttached_maps st current).2.2.2.1]
      exact sweepLoop_length st.loadingTasks { st with context := current }
  | onDetached =>
    simp only [step, Option.some.injEq] at h
    exact h ▸ onDetached_bounded cap m st hb
  | taskRun g =>
    simp only [step, Option.some.injEq] at h
    subst h
    unfold taskRun
    cases hf : st.loadingTasks.find g with
    | none => exact hb
    | some task =>
      simp only []
      split_ifs
      · exact retask_bounded cap m st g task _ hb hf
      · exact hb
  | taskFinish g b p =>
    simp only [step, Option.some.injEq] at h
    subst h
    unfold taskFinish
    cases hf : st.loadingTasks.find g with
    | none => exact hb
    | some task =>
      simp only []
      split_ifs
      · exact retask_bounded cap m st g task _ hb hf
      · exact hb

theorem run_bounded (cap m : Nat) (ops : List Op) (st st1 : Loader) (hi : Inv st)
    (hb : Bounded cap m st) (hops : ∀ op ∈ ops, op.requestCount ≤ m)
    (h : run st ops = some st1) : Bounded cap m st1 := by
  induction ops generalizing st with
  | nil =>
    simp only [run, Option.some.injEq] at h
    exact h ▸ hb
  | cons op ops ih =>
    simp only [run] at h
    cases hs : step st op with
    | none => simp [hs] at h
    | some st2 =>
      simp only [hs] at h
      exact ih st2 (step_inv st st2 op hi hs)
        (step_bounded cap m st st2 op hi hb (hops op (List.mem_cons_self op ops)) hs)
        (fun o ho => hops o (List.mem_cons_of_mem op ho)) h

theorem init_bounded (cap m : Nat) : Bounded cap m (init cap) :=
  ⟨rfl, fun _ => Nat.zero_le m, Nat.zero_le _, fun _ => rfl⟩

/-- Claim C5, counterexample.  With the cap held at 1, one layer that requests two sources is
registered and `onDetached` runs once: two tasks are in flight. -/
theorem C5_counterexample :
    Reachable 1 sampleBurst ∧ sampleBurst.maxAsyncGraphicsPerFrame = 1 ∧
      sampleBurst.loadingTasks.length = 2 :=
  ⟨⟨[Op.addAsyncContent 1 (some [GraphicRequest.image 7 true, GraphicRequest.image 8 true]),
      Op.onDetached], by decide⟩, by decide, by decide⟩

/-- Claim C5, amended.  With the cap held at `cap` and no registered content making more
than `m` requests, every reachable state has at most `cap + (m - 1)` tasks in flight, and
none when the cap is zero; for contents with a single request this is the bound `cap`. -/
theorem C5_in_flight_bound (cap m : Nat) (st : Loader) (hr : ReachableWithin cap m st) :
    st.loadingTasks.length ≤ cap + (m - 1) ∧
    (m ≤ 1 → st.loadingTasks.length ≤ cap) ∧
    (cap = 0 → st.loadingTasks.length = 0) := by
  obtain ⟨ops, hops, hrun⟩ := hr
  obtain ⟨_, _, h3, h4⟩ :=
    run_bounded cap m ops (init cap) st (init_inv cap) (init_bounded cap m) hops hrun
  refine ⟨h3, ?_, ?_⟩
  · intro hm
    omega
  · intro h0
    rw [h4 h0]
    rfl

theorem C5_in_flight_bound_witness :
    sampleShared.loadingTasks.length ≤ 2 + (2 - 1) ∧
    (2 ≤ 1 → sampleShared.loadingTasks.length ≤ 2) ∧
    (2 = 0 → sampleShared.loadingTasks.length = 0) :=
  C5_in_flight_bound 2 2 sampleShared
    ⟨[Op.addAsyncContent 1 (some [GraphicRequest.image 7 true, GraphicRequest.shape 8 none]),
      Op.addAsyncContent 2 (some [GraphicRequest.image 7 false]), Op.onDetached],
      by decide, by decide⟩

end Loader

/-! ## How many loads one `onDetached` starts -/

namespace Loader

theorem step_max (st st1 : Loader) (op : Op) (hi : Inv st) (h : step st op = some st1) :
    st1.maxAsyncGraphicsPerFrame = st.maxAsyncGraphicsPerFrame := by
  cases op with
  | addAsyncContent layer content =>
    cases content with
    | none =>
      simp only [step, Option.some.injEq] at h
      rw [← h]
    | some c =>
      simp only [step] at h
      split_ifs at h
      simp only [Option.some.injEq] at h
      rw [← h]
      exact (addAsyncContent_frame st layer (some c)).1
  | cancelAsyncContent layer => exact cancelAsyncContent_max st st1 layer h
  | loadImage generator tryHardware =>
    simp only [step] at h
    split_ifs at h
    simp only [Option.some.injEq] at h
    rw [loadImage_probe st generator tryHardware hi.1] at h
    rw [← h]
  | loadShape sh path =>
    simp only [step] at h
    split_ifs at h
    simp only [Option.some.injEq] at h
    rw [loadShape_probe st sh path hi.1] at h
    rw [← h]
  | onAttached current =>
    simp only [step, Option.some.injEq] at h
    rw [← h]
    exact onAttached_max st current
  | onDetached =>
    simp only [step, Option.some.injEq] at h
    rw [← h]
    have hf := (detachLoop_frame st.pendingLayers { st with context := 0 }).2.2.1
    rcases onDetached_cases st with h1 | h1
    · rw [h1.2]; exact hf
    · rw [h1.2]; exact hf
  | taskRun g =>
    simp only [step, Option.some.injEq] at h
    rw [← h]
    unfold taskRun
    cases st.loadingTasks.find g with
    | none => rfl
    | some task =>
      simp only []
      split_ifs <;> rfl
  | taskFinish g b p =>
    simp only [step, Option.some.injEq] at h
    rw [← h]
    unfold taskFinish
    cases st.loadingTasks.find g with
    | none => rfl
    | some task =>
      simp only []
      split_ifs <;> rfl

theorem run_max (ops : List Op) (st st1 : Loader) (hi : Inv st) (h : run st ops = some st1) :
    st1.maxAsyncGraphicsPerFrame = st.maxAsyncGraphicsPerFrame := by
  induction ops generalizing st with
  | nil =>
    simp only [run, Option.some.injEq] at h
    rw [← h]
  | cons op ops ih =>
    simp only [run] at h
    cases hs : step st op with
    | none => simp [hs] at h
    | some st2 =>
      simp only [hs] at h
      exact (ih st2 (step_inv st st2 op hi hs) h).trans (step_max st st2 op hi hs)

theorem Reachable.max {cap : Nat} {st : Loader} (h : Reachable cap st) :
    st.maxAsyncGraphicsPerFrame = cap := by
  obtain ⟨ops, hr⟩ := h
  exact run_max ops (init cap) st (init_inv cap) hr

/-- The dispatch loop on a queue whose layers have one pending source each. -/
theorem detachLoop_single (qs : List (Nat × Nat)) (st : Loader)
    (hedge : ∀ p ∈ qs, st.layerToGraphics.find p.1 = some [p.2])
    (hpend : ∀ p ∈ qs, st.pendingGraphics.find p.2 ≠ none)
    (hfree : ∀ p ∈ qs, st.loadingTasks.find p.2 = none)
    (hdist : (qs.map Prod.snd).Nodup) :
    (detachLoop (qs.map Prod.fst) st).started =
        st.started ++
          (qs.map Prod.snd).take (st.maxAsyncGraphicsPerFrame - st.loadingTasks.length) ∧
    (detachLoop (qs.map Prod.fst) st).pendingLayers =
        (qs.map Prod.fst).drop (st.maxAsyncGraphicsPerFrame - st.loadingTasks.length) := by
  induction qs generalizing st with
  | nil => simp [detachLoop]
  | cons p rest ih =>
    obtain ⟨l, s⟩ := p
    simp only [List.map_cons, detachLoop]
    by_cases hlt : st.loadingTasks.length < st.maxAsyncGraphicsPerFrame
    · simp only [hlt, if_true]
      have he : st.layerToGraphics.find l = some [s] := hedge (l, s) (List.mem_cons_self _ _)
      obtain ⟨gr, hgr⟩ : ∃ gr, st.pendingGraphics.find s = some gr :=
        Option.ne_none_iff_exists'.1 (hpend (l, s) (List.mem_cons_self _ _))
      have hfr : st.loadingTasks.find s = none := hfree (l, s) (List.mem_cons_self _ _)
      have hd : dispatchLayer { st with pendingLayers := rest.map Prod.fst } l =
          { st with
            pendingLayers := rest.map Prod.fst
            started := st.started ++ [s]
            loadingTasks := st.loadingTasks.assign s ⟨TaskStatus.Queued, gr⟩
            pendingGraphics := st.pendingGraphics.erase s } := by
        simp [dispatchLayer, he, dispatch, hgr]
      rw [hd]
      have hn : s ∉ rest.map Prod.snd ∧ (rest.map Prod.snd).Nodup := by
        simpa using hdist
      have hne : ∀ q ∈ rest, s ≠ q.2 := by
        intro q hq hc
        exact hn.1 (List.mem_map.2 ⟨q, hq, hc.symm⟩)
      obtain ⟨i1, i2⟩ := ih
        { st with
          pendingLayers := rest.map Prod.fst
          started := st.started ++ [s]
          loadingTasks := st.loadingTasks.assign s ⟨TaskStatus.Queued, gr⟩
          pendingGraphics := st.pendingGraphics.erase s }
        (fun q hq => hedge q (List.mem_cons_of_mem _ hq))
        (fun q hq => by
          simp only [PtrMap.find_erase, hne q hq, if_false]
          exact hpend q (List.mem_cons_of_mem _ hq))
        (fun q hq => by
          simp only [PtrMap.find_assign, hne q hq, if_false]
          exact hfree q (List.mem_cons_of_mem _ hq))
        hn.2
      simp only [PtrMap.length_assign_of_none _ s _ hfr] at i1 i2
      obtain ⟨n, hnn⟩ : ∃ n, st.maxAsyncGraphicsPerFrame - st.loadingTasks.length = n + 1 :=
        ⟨st.maxAsyncGraphicsPerFrame - st.loadingTasks.length - 1, by omega⟩
      have hn2 : st.maxAsyncGraphicsPerFrame - (st.loadingTasks.length + 1) = n := by omega
      rw [hn2] at i1 i2
      rw [hnn]
      exact ⟨by simpa using i1, by simpa using i2⟩
    · simp only [hlt, if_false]
      have h0 : st.maxAsyncGraphicsPerFrame - st.loadingTasks.length = 0 := by omega
      rw [h0]
      simp

theorem onDetached_started (st : Loader) :
    st.onDetached.started = (detachLoop st.pendingLayers { st with context := 0 }).started := by
  rcases onDetached_cases st with h | h
  · rw [h.2]
  · rw [h.2]

theorem onDetached_queue (st : Loader) :
    st.onDetached.pendingLayers =
      (detachLoop st.pendingLayers { st with context := 0 }).pendingLayers := by
  rcases onDetached_cases st with h | h
  · rw [h.2]
  · rw [h.2]

/-- Claim C6, counterexample.  Cap 1, two queued layers (more than the cap) with two sources
each, four sources awaiting dispatch and nothing in flight: one `onDetached` starts the two
loads of the first layer, not `min 1 4 = 1`. -/
theorem C6_counterexample :
    Reachable 1 sampleWide ∧ sampleWide.pendingLayers.length = 2 ∧
    sampleWide.pendingGraphics.length = 4 ∧ sampleWide.loadingTasks = [] ∧
    sampleWide.onDetached.started = sampleWide.started ++ [7, 8] ∧
    [7, 8].length ≠ min 1 sampleWide.pendingGraphics.length :=
  ⟨⟨[Op.addAsyncContent 1 (some [GraphicRequest.image 7 true, GraphicRequest.image 8 true]),
      Op.addAsyncContent 2 (some [GraphicRequest.image 9 true, GraphicRequest.image 10 true])],
      by decide⟩, by decide, by decide, by decide, by decide, by decide⟩

/-- Claim C6, amended.  On a reachable loader with cap `cap`, let the pending queue consist of
layers that have exactly one source each, these sources being pairwise distinct and awaiting
dispatch (`qs` lists the queue as layer and source pairs).  One `onDetached` then starts
exactly `min (cap - in flight at entry) (queue length)` tasks, those of the first layers of
the queue in queue order, and the rest of the queue stays queued in its order. -/
theorem C6_dispatch_count (cap : Nat) (st : Loader) (qs : List (Nat × Nat))
    (hr : Reachable cap st)
    (hqueue : st.pendingLayers = qs.map Prod.fst)
    (hedge : ∀ p ∈ qs, st.layerToGraphics.find p.1 = some [p.2])
    (hpend : ∀ p ∈ qs, st.pendingGraphics.find p.2 ≠ none)
    (hdist : (qs.map Prod.snd).Nodup) :
    ∃ tasks, st.onDetached.started = st.started ++ tasks ∧
      tasks = (qs.map Prod.snd).take (cap - st.loadingTasks.length) ∧
      tasks.length = min (cap - st.loadingTasks.length) st.pendingLayers.length ∧
      st.onDetached.pendingLayers = st.pendingLayers.drop (cap - st.loadingTasks.length) := by
  have hc := hr.inv.2
  have hmax := hr.max
  obtain ⟨h1, h2⟩ := detachLoop_single qs { st with context := 0 } hedge hpend
    (fun p hp => hc.exclusive p.2 (hpend p hp)) hdist
  have h1b : (detachLoop (qs.map Prod.fst) { st with context := 0 }).started =
      st.started ++ (qs.map Prod.snd).take (cap - st.loadingTasks.length) := by
    rw [← hmax]; exact h1
  have h2b : (detachLoop (qs.map Prod.fst) { st with context := 0 }).pendingLayers =
      (qs.map Prod.fst).drop (cap - st.loadingTasks.length) := by
    rw [← hmax]; exact h2
  have hloop : detachLoop st.pendingLayers { st with context := 0 } =
      detachLoop (qs.map Prod.fst) { st with context := 0 } :=
    congrArg (fun q => detachLoop q { st with context := 0 }) hqueue
  refine ⟨(qs.map Prod.snd).take (cap - st.loadingTasks.length), ?_, rfl, ?_, ?_⟩
  · rw [onDetached_started, hloop]
    exact h1b
  · rw [hqueue]
    simp
  · rw [onDetached_queue, hloop, h2b, hqueue]

theorem C6_dispatch_count_witness :
    ∃ tasks, sampleRow.onDetached.started = sampleRow.started ++ tasks ∧
      tasks = ([(1, 7), (2, 8), (3, 9)].map Prod.snd).take (2 - sampleRow.loadingTasks.length) ∧
      tasks.length = min (2 - sampleRow.loadingTasks.length) sampleRow.pendingLayers.length ∧
      sampleRow.onDetached.pendingLayers =
        sampleRow.pendingLayers.drop (2 - sampleRow.loadingTasks.length) :=
  C6_dispatch_count 2 sampleRow [(1, 7), (2, 8), (3, 9)]
    ⟨[Op.addAsyncContent 1 (some [GraphicRequest.image 7 true]),
      Op.addAsyncContent 2 (some [GraphicRequest.shape 8 none]),
      Op.addAsyncContent 3 (some [GraphicRequest.image 9 false])], by decide⟩
    (by decide) (by decide) (by decide) (by decide)

end Loader

/-! ## One deferred load per source -/

namespace Loader

theorem addDeferredGraphic_pending_find (st : Loader) (g : DeferredGraphic) (k : Nat) :
    (st.addDeferredGraphic g).pendingGraphics.find k =
      if g.getSource = k ∧ st.pendingGraphics.find k = none ∧ st.loadingTasks.find k = none
      then some g else st.pendingGraphics.find k := by
  rw [addDeferredGraphic_pendingGraphics]
  by_cases hk : g.getSource = k
  · subst hk
    by_cases hc : st.pendingGraphics.find g.getSource = none ∧
        st.loadingTasks.find g.getSource = none
    · simp [hc, PtrMap.find_assign]
    · rw [if_neg hc]
      simp only [true_and]
      rw [if_neg hc]
  · simp only [hk, false_and, if_false]
    split_ifs
    · rw [PtrMap.find_assign]
      simp [hk]
    · rfl

theorem request_pending_keep (st : Loader) (r : GraphicRequest) (k : Nat) :
    (∀ gr, st.pendingGraphics.find k = some gr →
      (st.request r).2.pendingGraphics.find k = some gr) ∧
    (st.loadingTasks.find k ≠ none →
      (st.request r).2.pendingGraphics.find k = st.pendingGraphics.find k) := by
  rw [request_snd]
  split_ifs
  · rw [addDeferredGraphic_pending_find]
    constructor
    · intro gr hgr
      simp [hgr]
    · intro hl
      simp [hl]
  · exact ⟨fun _ h => h, fun _ => rfl⟩

theorem request_pending_new (st : Loader) (r : GraphicRequest)
    (hmiss : st.completeGraphics.find r.source = none) (hcur : st.currentLayer ≠ 0) :
    (st.request r).2.pendingGraphics.find r.source ≠ none ∨
      st.loadingTasks.find r.source ≠ none := by
  rw [request_snd, if_pos ⟨hmiss, hcur⟩, addDeferredGraphic_pending_find, graphic_getSource]
  by_cases hp : st.pendingGraphics.find r.source = none
  · by_cases hl : st.loadingTasks.find r.source = none
    · left
      simp [hp, hl]
    · exact Or.inr hl
  · left
    simp [hp]

theorem collect_pending_keep (c : LayerContent) (st : Loader) (k : Nat) :
    (∀ gr, st.pendingGraphics.find k = some gr →
      (collectDeferredGraphics c st).2.pendingGraphics.find k = some gr) ∧
    (st.loadingTasks.find k ≠ none →
      (collectDeferredGraphics c st).2.pendingGraphics.find k = st.pendingGraphics.find k) := by
  induction c generalizing st with
  | nil => exact ⟨fun _ h => h, fun _ => rfl⟩
  | cons r rs ih =>
    simp only [collectDeferredGraphics]
    obtain ⟨a1, a2⟩ := request_pending_keep st r k
    obtain ⟨b1, b2⟩ := ih (st.request r).2
    have hl : (st.request r).2.loadingTasks = st.loadingTasks :=
      (request_sameFrame st r).2.2.2.2.1
    constructor
    · intro gr hgr
      exact b1 gr (a1 gr hgr)
    · intro hload
      rw [b2 (by rw [hl]; exact hload), a2 hload]

theorem collect_pending_new (c : LayerContent) (st : Loader) (k : Nat)
    (hk : k ∈ misses st c) (hcur : st.currentLayer ≠ 0) :
    (collectDeferredGraphics c st).2.pendingGraphics.find k ≠ none ∨
      st.loadingTasks.find k ≠ none := by
  induction c generalizing st with
  | nil => simp [misses] at hk
  | cons r rs ih =>
    simp only [collectDeferredGraphics]
    obtain ⟨_, f2, _, _, f5, _, f7, _, _, _⟩ := request_sameFrame st r
    by_cases hr : r.source = k ∧ st.completeGraphics.find r.source = none
    · obtain ⟨hr1, hr2⟩ := hr
      rcases request_pending_new st r hr2 hcur with h1 | h1
      · left
        rw [hr1] at h1
        obtain ⟨gr, hgr⟩ := Option.ne_none_iff_exists'.1 h1
        rw [(collect_pending_keep rs (st.request r).2 k).1 gr hgr]
        simp
      · right
        rw [← hr1]
        exact h1
    · have hk2 : k ∈ misses (st.request r).2 rs := by
        simp only [misses, f7]
        simp only [misses, List.filter_cons] at hk
        by_cases hm : (st.completeGraphics.find r.source).isNone = true
        · simp only [hm, if_true, List.map_cons, List.mem_cons] at hk
          rcases hk with hk | hk
          · exact absurd ⟨hk.symm, Option.isNone_iff_eq_none.1 hm⟩ hr
          · exact hk
        · simpa [hm] using hk
      rcases ih (st.request r).2 hk2 (by rw [f2]; exact hcur) with h1 | h1
      · exact Or.inl h1
      · right
        rw [f5] at h1
        exact h1

theorem addAsyncContent_pending_keep (st : Loader) (layer : Nat)
    (content : Option LayerContent) (k : Nat) :
    (∀ gr, st.pendingGraphics.find k = some gr →
      (st.addAsyncContent layer content).2.pendingGraphics.find k = some gr) ∧
    (st.loadingTasks.find k ≠ none →
      (st.addAsyncContent layer content).2.pendingGraphics.find k =
        st.pendingGraphics.find k) := by
  cases content with
  | none => exact ⟨fun _ h => h, fun _ => rfl⟩
  | some c =>
    rw [addAsyncContent_snd]
    exact collect_pending_keep c { st with currentLayer := layer } k

/-- Tasks started while the sources of one edge list are dispatched. -/
theorem dispatchAll_tasks (gs : List Nat) (st : Loader) :
    ∃ tasks, (gs.foldl dispatch st).started = st.started ++ tasks ∧ tasks.Nodup ∧
      (∀ g, g ∈ tasks ↔ (g ∈ gs ∧ st.pendingGraphics.find g ≠ none)) ∧
      (∀ k, (gs.foldl dispatch st).pendingGraphics.find k =
        if k ∈ gs then none else st.pendingGraphics.find k) ∧
      (∀ k, (gs.foldl dispatch st).loadingTasks.find k ≠ none ↔
        (st.loadingTasks.find k ≠ none ∨ k ∈ tasks)) := by
  induction gs generalizing st with
  | nil => exact ⟨[], by simp, List.nodup_nil, by simp, by simp, by simp⟩
  | cons g gs ih =>
    simp only [List.foldl_cons]
    obtain ⟨t2, i1, i2, i3, i4, i5⟩ := ih (st.dispatch g)
    rcases dispatch_cases st g with ⟨hf, hd⟩ | ⟨gr, hf, hd⟩
    · rw [hd] at i1 i3 i4 i5 ⊢
      refine ⟨t2, i1, i2, ?_, ?_, i5⟩
      · intro k
        rw [i3 k]
        by_cases hk : k = g
        · subst hk
          simp [hf]
        · simp [hk]
      · intro k
        rw [i4 k]
        by_cases hk : k = g
        · subst hk
          simp [hf]
        · simp [hk]
    · have hp : ∀ k, (st.dispatch g).pendingGraphics.find k =
          if g = k then none else st.pendingGraphics.find k := by
        intro k
        rw [hd]
        exact PtrMap.find_erase _ g k
      have hl : ∀ k, (st.dispatch g).loadingTasks.find k =
          if g = k then some ⟨TaskStatus.Queued, gr⟩ else st.loadingTasks.find k := by
        intro k
        rw [hd]
        exact PtrMap.find_assign _ g _ k
      have hs : (st.dispatch g).started = st.started ++ [g] := by rw [hd]
      have hnot : g ∉ t2 := by
        intro hin
        have := ((i3 g).1 hin).2
        rw [hp g] at this
        simp at this
      refine ⟨g :: t2, ?_, List.nodup_cons.2 ⟨hnot, i2⟩, ?_, ?_, ?_⟩
      · rw [i1, hs]
        simp
      · intro k
        by_cases hk : k = g
        · subst hk
          simp [hf]
        · simp only [List.mem_cons, hk, false_or]
          rw [i3 k, hp k]
          simp [Ne.symm hk]
      · intro k
        rw [i4 k, hp k]
        by_cases hk : k = g
        · subst hk
          simp
        · simp [hk, Ne.symm hk]
      · intro k
        rw [i5 k, hl k]
        by_cases hk : k = g
        · subst hk
          simp
        · simp [hk, Ne.symm hk]

theorem dispatchLayer_tasks (st : Loader) (layer : Nat) :
    ∃ tasks, (st.dispatchLayer layer).started = st.started ++ tasks ∧ tasks.Nodup ∧
      (∀ g, g ∈ tasks ↔ (g ∈ st.edges layer ∧ st.pendingGraphics.find g ≠ none)) ∧
      (∀ k, (st.dispatchLayer layer).pendingGraphics.find k =
        if k ∈ st.edges layer then none else st.pendingGraphics.find k) ∧
      (∀ k, (st.dispatchLayer layer).loadingTasks.find k ≠ none ↔
        (st.loadingTasks.find k ≠ none ∨ k ∈ tasks)) := by
  unfold dispatchLayer edges
  cases st.layerToGraphics.find layer with
  | none => exact ⟨[], by simp, List.nodup_nil, by simp, by simp, by simp⟩
  | some gs => exact dispatchAll_tasks gs st

/-- Tasks started by the dispatch loop of `onDetached`. -/
theorem detachLoop_tasks (q : List Nat) (st : Loader) :
    ∃ tasks, (detachLoop q st).started = st.started ++ tasks ∧ tasks.Nodup ∧
      (∀ g ∈ tasks, st.pendingGraphics.find g ≠ none ∧
        (detachLoop q st).pendingGraphics.find g = none ∧
        (detachLoop q st).loadingTasks.find g ≠ none) ∧
      (∀ k, (detachLoop q st).pendingGraphics.find k ≠ none →
        st.pendingGraphics.find k ≠ none) ∧
      (∀ k, st.loadingTasks.find k ≠ none → (detachLoop q st).loadingTasks.find k ≠ none) ∧
      (∀ l rest, q = l :: rest → st.loadingTasks.length < st.maxAsyncGraphicsPerFrame →
        ∀ g ∈ st.edges l, st.pendingGraphics.find g ≠ none → g ∈ tasks) := by
  induction q generalizing st with
  | nil =>
    refine ⟨[], by simp [detachLoop], List.nodup_nil, by simp, ?_, ?_, ?_⟩
    · intro k hk; exact hk
    · intro k hk; exact hk
    · intro l rest h; exact absurd h (by simp)
  | cons l q ih =>
    simp only [detachLoop]
    by_cases hlt : st.loadingTasks.length < st.maxAsyncGraphicsPerFrame
    · simp only [hlt, if_true]
      obtain ⟨t1, a1, a2, a3, a4, a5⟩ := dispatchLayer_tasks { st with pendingLayers := q } l
      obtain ⟨t2, b1, b2, b3, b4, b5, _⟩ := ih (dispatchLayer { st with pendingLayers := q } l)
      have hedge : ({ st with pendingLayers := q } : Loader).edges l = st.edges l := rfl
      have a1b : (dispatchLayer { st with pendingLayers := q } l).started = st.started ++ t1 :=
        a1
      have a3b : ∀ g, g ∈ t1 ↔ (g ∈ st.edges l ∧ st.pendingGraphics.find g ≠ none) := a3
      have a4b : ∀ k, (dispatchLayer { st with pendingLayers := q } l).pendingGraphics.find k =
          if k ∈ st.edges l then none else st.pendingGraphics.find k := a4
      have a5b : ∀ k, (dispatchLayer { st with pendingLayers := q } l).loadingTasks.find k ≠ none ↔
          (st.loadingTasks.find k ≠ none ∨ k ∈ t1) := a5
      have hdisj : ∀ g ∈ t1, g ∉ t2 := by
        intro g h1 h2
        have h3 := (b3 g h2).1
        rw [a4b g, if_pos ((a3b g).1 h1).1] at h3
        exact h3 rfl
      refine ⟨t1 ++ t2, ?_, ?_, ?_, ?_, ?_, ?_⟩
      · rw [b1, a1b, List.append_assoc]
      · exact List.Nodup.append a2 b2 (fun g h1 h2 => hdisj g h1 h2)
      · intro g hg
        rcases List.mem_append.1 hg with h1 | h2
        · refine ⟨((a3b g).1 h1).2, ?_, ?_⟩
          · by_contra hne
            have := b4 g hne
            rw [a4b g, if_pos ((a3b g).1 h1).1] at this
            exact this rfl
          · exact b5 g ((a5b g).2 (Or.inr h1))
        · obtain ⟨c1, c2, c3⟩ := b3 g h2
          refine ⟨?_, c2, c3⟩
          rw [a4b g] at c1
          by_cases hm : g ∈ st.edges l
          · simp [hm] at c1
          · simpa [hm] using c1
      · intro k hk
        have := b4 k hk
        rw [a4b k] at this
        by_cases hm : k ∈ st.edges l
        · simp [hm] at this
        · simpa [hm] using this
      · intro k hk
        exact b5 k ((a5b k).2 (Or.inl hk))
      · intro l2 rest2 hq _ g hg hp
        have hl : l = l2 := (List.cons.inj hq).1
        subst hl
        exact List.mem_append_left _ ((a3b g).2 ⟨hg, hp⟩)
    · simp only [hlt, if_false]
      refine ⟨[], by simp, List.nodup_nil, by simp, ?_, ?_, ?_⟩
      · intro k hk; exact hk
      · intro k hk; exact hk
      · intro l2 rest2 _ h; exact h.elim

theorem onDetached_tasks (st : Loader) :
    ∃ tasks, st.onDetached.started = st.started ++ tasks ∧ tasks.Nodup ∧
      (∀ g ∈ tasks, st.pendingGraphics.find g ≠ none ∧
        st.onDetached.pendingGraphics.find g = none ∧
        st.onDetached.loadingTasks.find g ≠ none) ∧
      (∀ l rest, st.pendingLayers = l :: rest →
        st.loadingTasks.length < st.maxAsyncGraphicsPerFrame →
        ∀ g ∈ st.edges l, st.pendingGraphics.find g ≠ none → g ∈ tasks) := by
  obtain ⟨tasks, h1, h2, h3, _, _, h6⟩ :=
    detachLoop_tasks st.pendingLayers { st with context := 0 }
  refine ⟨tasks, ?_, h2, ?_, h6⟩
  · rw [onDetached_started]
    exact h1
  · rcases onDetached_cases st with h | h
    · rw [h.2]
      exact h3
    · rw [h.2]
      exact h3

theorem addAsyncContent_fst (st : Loader) (layer : Nat) (c : LayerContent) :
    (st.addAsyncContent layer (some c)).1 =
      c.any (fun r => (st.completeGraphics.find r.source).isNone) :=
  collect_fst c { st with currentLayer := layer }

theorem mem_misses (st : Loader) (c : LayerContent) (k : Nat) :
    k ∈ misses st c ↔ (∃ r ∈ c, r.source = k) ∧ st.completeGraphics.find k = none := by
  simp only [misses, List.mem_map, List.mem_filter, Option.isNone_iff_eq_none]
  constructor
  · rintro ⟨r, ⟨h1, h2⟩, h3⟩
    exact ⟨⟨r, h1, h3⟩, h3 ▸ h2⟩
  · rintro ⟨⟨r, h1, h3⟩, h2⟩
    exact ⟨r, ⟨h1, h3 ▸ h2⟩, h3⟩

theorem registerAll_frame (regs : List (Nat × LayerContent)) (st : Loader) :
    (registerAll regs st).maxAsyncGraphicsPerFrame = st.maxAsyncGraphicsPerFrame ∧
    (registerAll regs st).loadingTasks = st.loadingTasks ∧
    (registerAll regs st).completeGraphics = st.completeGraphics ∧
    (registerAll regs st).started = st.started := by
  induction regs generalizing st with
  | nil => exact ⟨rfl, rfl, rfl, rfl⟩
  | cons p rest ih =>
    obtain ⟨l, c⟩ := p
    simp only [registerAll]
    obtain ⟨a1, a2, _, a4, a5, _, _⟩ := addAsyncContent_frame st l (some c)
    obtain ⟨b1, b2, b3, b4⟩ := ih (st.addAsyncContent l (some c)).2
    exact ⟨b1.trans a1, b2.trans a2, b3.trans a4, b4.trans a5⟩

theorem registerAll_pendingLayers (regs : List (Nat × LayerContent)) (st : Loader) (s : Nat)
    (hs : st.completeGraphics.find s = none)
    (hreq : ∀ p ∈ regs, ∃ r ∈ p.2, r.source = s) :
    (registerAll regs st).pendingLayers = st.pendingLayers ++ regs.map Prod.fst := by
  induction regs generalizing st with
  | nil => simp [registerAll]
  | cons p rest ih =>
    obtain ⟨l, c⟩ := p
    simp only [registerAll]
    have hflag : (st.addAsyncContent l (some c)).1 = true := by
      rw [addAsyncContent_fst, List.any_eq_true]
      obtain ⟨r, hr, hrs⟩ := hreq (l, c) (List.mem_cons_self _ _)
      exact ⟨r, hr, by rw [hrs, hs]; rfl⟩
    have hq := addAsyncContent_pendingLayers st l (some c)
    rw [hflag] at hq
    have hc : (st.addAsyncContent l (some c)).2.completeGraphics.find s = none := by
      rw [(addAsyncContent_frame st l (some c)).2.2.2.1]
      exact hs
    rw [ih _ hc (fun p hp => hreq p (List.mem_cons_of_mem _ hp)), hq]
    simp

theorem registerAll_edges (regs : List (Nat × LayerContent)) (st : Loader) (l : Nat)
    (hl : l ∉ regs.map Prod.fst) : (registerAll regs st).edges l = st.edges l := by
  induction regs generalizing st with
  | nil => rfl
  | cons p rest ih =>
    obtain ⟨l2, c⟩ := p
    simp only [registerAll]
    have h2 : l2 ≠ l ∧ l ∉ rest.map Prod.fst := by
      simp only [List.map_cons, List.mem_cons, not_or] at hl
      exact ⟨fun hc => hl.1 hc.symm, hl.2⟩
    rw [ih _ h2.2, addAsyncContent_edges]
    simp [h2.1]

theorem registerAll_pending (regs : List (Nat × LayerContent)) (st : Loader) (s : Nat)
    (hp : st.pendingGraphics.find s ≠ none) :
    (registerAll regs st).pendingGraphics.find s ≠ none := by
  induction regs generalizing st with
  | nil => exact hp
  | cons p rest ih =>
    obtain ⟨l, c⟩ := p
    simp only [registerAll]
    apply ih
    obtain ⟨gr, hgr⟩ := Option.ne_none_iff_exists'.1 hp
    rw [(addAsyncContent_pending_keep st l (some c) s).1 gr hgr]
    simp

/-- Registrations that all request one uncached source on an idle loader, followed by
`onDetached` under a cap of at least one: exactly one task is started for the source. -/
theorem registerAll_then_detach (regs : List (Nat × LayerContent)) (st : Loader) (s : Nat)
    (hcap : 1 ≤ st.maxAsyncGraphicsPerFrame) (hq : st.pendingLayers = [])
    (hload : st.loadingTasks = []) (hs : st.completeGraphics.find s = none)
    (hne : regs ≠ []) (hzero : ∀ p ∈ regs, p.1 ≠ 0) (hdist : (regs.map Prod.fst).Nodup)
    (hreq : ∀ p ∈ regs, ∃ r ∈ p.2, r.source = s) :
    ∃ tasks, (registerAll regs st).onDetached.started = (registerAll regs st).started ++ tasks ∧
      tasks.count s = 1 := by
  cases regs with
  | nil => exact absurd rfl hne
  | cons p rest =>
    obtain ⟨l, c⟩ := p
    have hd : l ∉ rest.map Prod.fst ∧ (rest.map Prod.fst).Nodup := by simpa using hdist
    have hl0 : l ≠ 0 := hzero (l, c) (List.mem_cons_self _ _)
    have hmiss : s ∈ misses st c :=
      (mem_misses st c s).2 ⟨hreq (l, c) (List.mem_cons_self _ _), hs⟩
    have hfinal : registerAll ((l, c) :: rest) st =
        registerAll rest (st.addAsyncContent l (some c)).2 := rfl
    have hedge : s ∈ (registerAll ((l, c) :: rest) st).edges l := by
      rw [hfinal, registerAll_edges rest _ l hd.1, addAsyncContent_edges]
      simp [hl0, hmiss]
    have hpend : (registerAll ((l, c) :: rest) st).pendingGraphics.find s ≠ none := by
      rw [hfinal]
      apply registerAll_pending
      rw [addAsyncContent_snd]
      rcases collect_pending_new c { st with currentLayer := l } s hmiss hl0 with h1 | h1
      · exact h1
      · have : st.loadingTasks.find s = none := by rw [hload]; rfl
        exact absurd this h1
    obtain ⟨f1, f2, _, _⟩ := registerAll_frame ((l, c) :: rest) st
    have hqueue := registerAll_pendingLayers ((l, c) :: rest) st s hs hreq
    rw [hq] at hqueue
    obtain ⟨tasks, t1, t2, _, t4⟩ := onDetached_tasks (registerAll ((l, c) :: rest) st)
    refine ⟨tasks, t1, List.count_eq_one_of_mem t2 ?_⟩
    refine t4 l (rest.map Prod.fst) (by simpa using hqueue) ?_ s hedge hpend
    rw [f1, f2, hload]
    exact hcap

/-- Claim C1, counterexample.  Under cap 1, layer 1 registers source 8 and then layer 2
registers source 7.  The next `onDetached` starts the load of 8 only: no `GraphicLoadTask` is
started for 7, which stays pending. -/
theorem C1_counterexample :
    Reachable 1 sampleBehind ∧ sampleBehind.pendingGraphics.find 7 ≠ none ∧
    sampleBehind.onDetached.started = sampleBehind.started ++ [8] ∧
    ([8] : List Nat).count 7 = 0 ∧ sampleBehind.onDetached.pendingGraphics.find 7 ≠ none :=
  ⟨⟨[Op.addAsyncContent 1 (some [GraphicRequest.image 8 true]),
      Op.addAsyncContent 2 (some [GraphicRequest.image 7 true])], by decide⟩,
    by decide, by decide, by decide, by decide⟩

/-- Claim C1, amended.  For a reachable loader and a source `s`:
the source is a key of at most one of `pendingGraphics` and `loadingTasks`, and at most once
of each; a registration keeps an existing pending entry of `s` as it is and adds none while
`s` is in flight; one `onDetached` starts at most one task for `s`, and if it starts one then
`s` was pending and has moved to `loadingTasks`; and when the loader is idle (empty queue,
nothing in flight), `s` is not cached and the cap is at least one, registrations from
distinct layers that all request `s`, followed by `onDetached`, start exactly one task
for `s`. -/
theorem C1_single_deferred_load (cap : Nat) (st : Loader) (s : Nat) (hr : Reachable cap st) :
    ¬ (s ∈ st.pendingGraphics.keys ∧ s ∈ st.loadingTasks.keys) ∧
    st.pendingGraphics.keys.count s ≤ 1 ∧ st.loadingTasks.keys.count s ≤ 1 ∧
    (∀ layer content,
      (∀ gr, st.pendingGraphics.find s = some gr →
        (st.addAsyncContent layer content).2.pendingGraphics.find s = some gr) ∧
      (s ∈ st.loadingTasks.keys →
        s ∉ (st.addAsyncContent layer content).2.pendingGraphics.keys)) ∧
    (∃ tasks, st.onDetached.started = st.started ++ tasks ∧ tasks.count s ≤ 1 ∧
      (s ∈ tasks → s ∈ st.pendingGraphics.keys ∧ s ∉ st.onDetached.pendingGraphics.keys ∧
        s ∈ st.onDetached.loadingTasks.keys)) ∧
    (∀ regs : List (Nat × LayerContent), 1 ≤ cap → st.pendingLayers = [] →
      st.loadingTasks = [] → st.completeGraphics.find s = none → regs ≠ [] →
      (∀ p ∈ regs, p.1 ≠ 0) → (regs.map Prod.fst).Nodup →
      (∀ p ∈ regs, ∃ r ∈ p.2, r.source = s) →
      ∃ tasks, (registerAll regs st).onDetached.started =
          (registerAll regs st).started ++ tasks ∧ tasks.count s = 1) := by
  have hc := hr.inv.2
  have hex : st.loadingTasks.find s ≠ none → st.pendingGraphics.find s = none := by
    intro hl
    by_contra hp
    exact hl (hc.exclusive s hp)
  refine ⟨?_, List.nodup_iff_count_le_one.1 hc.pendingKeys s,
    List.nodup_iff_count_le_one.1 hc.loadingKeys s, ?_, ?_, ?_⟩
  · rintro ⟨h1, h2⟩
    rw [PtrMap.mem_keys_iff] at h1 h2
    exact h2 (hc.exclusive s h1)
  · intro layer content
    obtain ⟨k1, k2⟩ := addAsyncContent_pending_keep st layer content s
    refine ⟨k1, ?_⟩
    intro hin
    rw [PtrMap.mem_keys_iff] at hin
    rw [PtrMap.not_mem_keys_iff, k2 hin]
    exact hex hin
  · obtain ⟨tasks, t1, t2, t3, _⟩ := onDetached_tasks st
    refine ⟨tasks, t1, List.nodup_iff_count_le_one.1 t2 s, ?_⟩
    intro hin
    obtain ⟨a, b, c⟩ := t3 s hin
    exact ⟨(PtrMap.mem_keys_iff _ s).2 a, (PtrMap.not_mem_keys_iff _ s).2 b,
      (PtrMap.mem_keys_iff _ s).2 c⟩
  · intro regs hcap hq hload hs hne hzero hdist hreq
    exact registerAll_then_detach regs st s (by rw [hr.max]; exact hcap) hq hload hs hne hzero
      hdist hreq

theorem C1_single_deferred_load_witness :
    ∃ tasks,
      (registerAll [(1, [GraphicRequest.image 7 true]),
          (2, [GraphicRequest.shape 9 none, GraphicRequest.image 7 false]),
          (3, [GraphicRequest.image 7 true])] (init 1)).onDetached.started =
        (registerAll [(1, [GraphicRequest.image 7 true]),
          (2, [GraphicRequest.shape 9 none, GraphicRequest.image 7 false]),
          (3, [GraphicRequest.image 7 true])] (init 1)).started ++ tasks ∧
      tasks.count 7 = 1 :=
  (C1_single_deferred_load 1 (init 1) 7 ⟨[], rfl⟩).2.2.2.2.2
    [(1, [GraphicRequest.image 7 true]),
      (2, [GraphicRequest.shape 9 none, GraphicRequest.image 7 false]),
      (3, [GraphicRequest.image 7 true])]
    (by decide) rfl rfl rfl (by decide) (by decide) (by decide) (by decide)

theorem sharedImage_eq (cap a b g : Nat) (ha hb : Bool) (ha0 : a ≠ 0) (hb0 : b ≠ 0)
    (hab : a ≠ b) :
    sharedImage cap a b g ha hb =
      { init cap with
        pendingLayers := [a, b]
        layerToGraphics := [(a, [g]), (b, [g])]
        graphicToLayers := [(g, [a, b])]
        pendingGraphics := [(g, DeferredGraphic.image g ha none)] } := by
  simp [sharedImage, addAsyncContent, collectDeferredGraphics, request, loadImage,
    addDeferredGraphic, init, PtrMap.find, PtrMap.assign, edges, layersOf,
    DeferredGraphic.getSource, GraphicRequest.source, ha0, hb0, hab]

theorem sharedImage_detached (cap a b g : Nat) (ha hb : Bool) (hcap : 1 ≤ cap) (ha0 : a ≠ 0)
    (hb0 : b ≠ 0) (hab : a ≠ b) :
    (sharedImage cap a b g ha hb).onDetached =
      { init cap with
        pendingLayers := if 1 < cap then [] else [b]
        layerToGraphics := [(a, [g]), (b, [g])]
        graphicToLayers := [(g, [a, b])]
        loadingTasks := [(g, ⟨TaskStatus.Queued, DeferredGraphic.image g ha none⟩)]
        started := [g] } := by
  rw [sharedImage_eq cap a b g ha hb ha0 hb0 hab]
  have h0 : 0 < cap := hcap
  by_cases h1 : 1 < cap
  · simp [onDetached, detachLoop, dispatchLayer, dispatch, init, PtrMap.find, PtrMap.assign,
      PtrMap.erase, h0, h1, hab, hab.symm]
  · simp [onDetached, detachLoop, dispatchLayer, dispatch, init, PtrMap.find, PtrMap.assign,
      PtrMap.erase, h0, h1, hab, hab.symm]

theorem sharedImageDone_eq (cap a b g : Nat) (ha hb : Bool) (buffer : Option Nat)
    (current : Nat) (hcap : 1 ≤ cap) (ha0 : a ≠ 0) (hb0 : b ≠ 0) (hab : a ≠ b) :
    sharedImageDone cap a b g ha hb buffer current =
      { init cap with
        context := current
        pendingLayers := if 1 < cap then [] else [b]
        completeGraphics := [(g, DeferredGraphic.image g ha buffer)]
        started := [g]
        invalidated := [a, b] } := by
  unfold sharedImageDone
  rw [sharedImage_detached cap a b g ha hb hcap ha0 hb0 hab]
  simp [taskFinish, onAttached, sweep, sweepLoop, promote, promoteLayer, init, PtrMap.find,
    PtrMap.assign, PtrMap.erase, edges, layersOf, removeAll, setInsert, DeferredGraphic.load,
    MIN_ASYNC_LAYER_BATCH_SIZE, hab, hab.symm]

/-- Claim C2.  Example scenario on a fresh loader with a cap of at least one: layer `a`
registers the image source `g`, then layer `b` registers the same `g`.  After `onDetached`
exactly one task is in flight, the one started for `g`.  After that task has finished and
`onAttached` has run, `invalidateAsyncContent` was called once on `a` and once on `b`, and a
following `loadImage` for `g`, whichever layer is current, returns the cached buffer and
leaves the loader, in particular `pendingGraphics` and `loadingTasks`, unchanged. -/
theorem C2_shared_image_scenario (cap a b g : Nat) (ha hb : Bool) (buffer : Option Nat)
    (current : Nat) (hcap : 1 ≤ cap) (ha0 : a ≠ 0) (hb0 : b ≠ 0) (hab : a ≠ b) :
    (sharedImage cap a b g ha hb).onDetached.loadingTasks.length = 1 ∧
    (sharedImage cap a b g ha hb).onDetached.loadingTasks.keys = [g] ∧
    (sharedImage cap a b g ha hb).onDetached.started = [g] ∧
    (sharedImageDone cap a b g ha hb buffer current).invalidated.count a = 1 ∧
    (sharedImageDone cap a b g ha hb buffer current).invalidated.count b = 1 ∧
    (sharedImageDone cap a b g ha hb buffer current).completeGraphics.find g =
      some (DeferredGraphic.image g ha buffer) ∧
    ∀ layer tryHardware,
      ({ sharedImageDone cap a b g ha hb buffer current with currentLayer := layer }
          : Loader).loadImage g tryHardware =
        (buffer, { sharedImageDone cap a b g ha hb buffer current with currentLayer := layer }) := by
  rw [sharedImage_detached cap a b g ha hb hcap ha0 hb0 hab,
    sharedImageDone_eq cap a b g ha hb buffer current hcap ha0 hb0 hab]
  refine ⟨rfl, rfl, rfl, ?_, ?_, ?_, ?_⟩
  · simp [List.count_cons, hab, hab.symm]
  · simp [List.count_cons, hab, hab.symm]
  · simp [PtrMap.find]
  · intro layer tryHardware
    simp [loadImage, PtrMap.find, DeferredGraphic.getBuffer]

theorem C2_shared_image_scenario_witness :
    (sharedImage 1 1 2 7 true false).onDetached.loadingTasks.length = 1 ∧
    (sharedImageDone 1 1 2 7 true false (some 100) 5).invalidated.count 1 = 1 ∧
    (sharedImageDone 1 1 2 7 true false (some 100) 5).invalidated.count 2 = 1 ∧
    ({ sharedImageDone 1 1 2 7 true false (some 100) 5 with currentLayer := 2 }
        : Loader).loadImage 7 true =
      (some 100, { sharedImageDone 1 1 2 7 true false (some 100) 5 with currentLayer := 2 }) :=
  have h := C2_shared_image_scenario 1 1 2 7 true false (some 100) 5 (by decide) (by decide)
    (by decide) (by decide)
  ⟨h.1, h.2.2.2.1, h.2.2.2.2.1, h.2.2.2.2.2.2 2 true⟩

end Loader

/-! ## Registration calls: null content, cache hits, misses and probes -/

namespace Loader

/-- Claim C12.  `addAsyncContent(node, nullptr)` returns `false` and leaves the loader as it
is: the pending queue, both edge maps, the pending and in-flight loads, the completed batch
and the completed cache are unchanged. -/
theorem C12_null_content_rejected (st : Loader) (layer : Nat) :
    (st.addAsyncContent layer none).1 = false ∧
    (st.addAsyncContent layer none).2 = st ∧
    (st.addAsyncContent layer none).2.pendingLayers = st.pendingLayers ∧
    (st.addAsyncContent layer none).2.layerToGraphics = st.layerToGraphics ∧
    (st.addAsyncContent layer none).2.graphicToLayers = st.graphicToLayers ∧
    (st.addAsyncContent layer none).2.pendingGraphics = st.pendingGraphics ∧
    (st.addAsyncContent layer none).2.loadingTasks = st.loadingTasks ∧
    (st.addAsyncContent layer none).2.completeLayers = st.completeLayers ∧
    (st.addAsyncContent layer none).2.completeGraphics = st.completeGraphics :=
  ⟨rfl, rfl, rfl, rfl, rfl, rfl, rfl, rfl, rfl⟩

/-- Claim C15.  Cache hit: when `completeGraphics` maps the source to `graphic`, `loadImage`
returns the buffer of `graphic`, `loadShape` returns `true` and stores the path of `graphic`
in a non-null out-path (a null out-path stays null), and both leave the loader unchanged, so
no edge and no pending load is registered, whatever the current layer is.  The buffer handed
out for a cached `ImageGraphic` is the buffer that graphic holds, and the path stored for a
cached `ShapeGraphic` is the path that graphic holds; in particular a graphic that a finished
load filled with a buffer or a path hands out that buffer or path. -/
theorem C15_cache_hit (st : Loader) (source : Nat) (graphic : DeferredGraphic)
    (tryHardware : Bool) (old : Path)
    (hit : st.completeGraphics.find source = some graphic) :
    st.loadImage source tryHardware = (graphic.getBuffer, st) ∧
    st.loadShape source (some old) = (true, some graphic.getPath, st) ∧
    st.loadShape source none = (true, none, st) ∧
    (∀ generator hardware buffer, graphic = DeferredGraphic.image generator hardware buffer →
      (st.loadImage source tryHardware).1 = buffer) ∧
    (∀ sh path, graphic = DeferredGraphic.shape sh path →
      (st.loadShape source (some old)).2.1 = some path) ∧
    (∀ (pending : DeferredGraphic) (makeBuffer : Nat) (shapePath : Path),
      graphic = pending.load (some makeBuffer) shapePath →
      (∀ generator hardware buffer, pending = DeferredGraphic.image generator hardware buffer →
        (st.loadImage source tryHardware).1 = some makeBuffer) ∧
      (∀ sh path, pending = DeferredGraphic.shape sh path →
        (st.loadShape source (some old)).2.1 = some shapePath)) := by
  have h1 : st.loadImage source tryHardware = (graphic.getBuffer, st) := by
    unfold loadImage
    rw [hit]
  have h2 : st.loadShape source (some old) = (true, some graphic.getPath, st) := by
    unfold loadShape
    rw [hit]
  refine ⟨h1, h2, ?_, ?_, ?_, ?_⟩
  · unfold loadShape
    rw [hit]
  · intro generator hardware buffer hg
    rw [h1, hg]
    rfl
  · intro sh path hg
    rw [h2, hg]
    rfl
  · intro pending makeBuffer shapePath hg
    constructor
    · intro generator hardware buffer hp
      rw [h1, hg, hp]
      rfl
    · intro sh path hp
      rw [h2, hg, hp]
      rfl

theorem C15_cache_hit_witness :
    (({ sampleTwoLayers.taskFinish 8 (some 100) 0 |>.onAttached 5 with currentLayer := 3 } :
        Loader).loadImage 8 false).1 = some 100 ∧
    ({ sampleTwoLayers.taskFinish 8 (some 100) 0 |>.onAttached 5 with currentLayer := 3 } :
        Loader).loadImage 8 false =
      (some 100,
        { sampleTwoLayers.taskFinish 8 (some 100) 0 |>.onAttached 5 with currentLayer := 3 }) ∧
    ({ sampleCached with currentLayer := 3 } : Loader).loadShape 8 (some 0) =
      (true, some 44, { sampleCached with currentLayer := 3 }) ∧
    ({ sampleCached with currentLayer := 3 } : Loader).loadShape 8 none =
      (true, none, { sampleCached with currentLayer := 3 }) :=
  have h := C15_cache_hit
    { sampleTwoLayers.taskFinish 8 (some 100) 0 |>.onAttached 5 with currentLayer := 3 } 8
    (DeferredGraphic.image 8 true (some 100)) false 0 (by decide)
  have k := C15_cache_hit { sampleCached with currentLayer := 3 } 8
    (DeferredGraphic.shape 8 44) true 0 (by decide)
  ⟨h.2.2.2.1 8 true (some 100) rfl, h.1, k.2.1, k.2.2.1⟩

/-- Claim C16.  Cache miss while a layer is current: when the source is not in
`completeGraphics` and the current layer is not null, `loadImage` returns `nullptr` and
`loadShape` returns `false` with the out-path as it was, and after either call the source is
appended to the edge list of the current layer in `layerToGraphics` and the current layer is
appended to the list of the source in `graphicToLayers`. -/
theorem C16_cache_miss_registers (st : Loader) (source : Nat) (tryHardware : Bool)
    (path : Option Path) (miss : st.completeGraphics.find source = none)
    (hcur : st.currentLayer ≠ 0) :
    (st.loadImage source tryHardware).1 = none ∧
    (st.loadImage source tryHardware).2.layerToGraphics.find st.currentLayer =
      some (st.edges st.currentLayer ++ [source]) ∧
    (st.loadImage source tryHardware).2.graphicToLayers.find source =
      some (st.layersOf source ++ [st.currentLayer]) ∧
    (st.loadShape source path).1 = false ∧
    (st.loadShape source path).2.1 = path ∧
    (st.loadShape source path).2.2.layerToGraphics.find st.currentLayer =
      some (st.edges st.currentLayer ++ [source]) ∧
    (st.loadShape source path).2.2.graphicToLayers.find source =
      some (st.layersOf source ++ [st.currentLayer]) := by
  have e1 : st.loadImage source tryHardware =
      (none, st.addDeferredGraphic (DeferredGraphic.image source tryHardware none)) := by
    simp [loadImage, miss, hcur]
  have e2 : st.loadShape source path =
      (false, path, st.addDeferredGraphic (DeferredGraphic.shape source 0)) := by
    simp [loadShape, miss, hcur]
  rw [e1, e2]
  simp [addDeferredGraphic_layerToGraphics, addDeferredGraphic_graphicToLayers,
    PtrMap.find_assign, DeferredGraphic.getSource]

theorem C16_cache_miss_registers_witness :
    (({ sampleQueued with currentLayer := 2 } : Loader).loadImage 7 false).1 = none ∧
    (({ sampleQueued with currentLayer := 2 } : Loader).loadImage 7 false
      ).2.layerToGraphics.find 2 = some [7] ∧
    (({ sampleQueued with currentLayer := 2 } : Loader).loadImage 7 false
      ).2.graphicToLayers.find 7 = some [1, 2] ∧
    (({ sampleQueued with currentLayer := 2 } : Loader).loadShape 9 (some 3)).2.1 = some 3 :=
  have h := C16_cache_miss_registers { sampleQueued with currentLayer := 2 } 7 false none
    (by decide) (by decide)
  have h2 := C16_cache_miss_registers { sampleQueued with currentLayer := 2 } 9 false (some 3)
    (by decide) (by decide)
  ⟨h.1, h.2.1, h.2.2.1, h2.2.2.2.2.1⟩

/-- Claim C17.  Pure cache probe: with no current layer `loadImage` and `loadShape` leave the
loader unchanged, and on a miss they return `nullptr` and `false` (with the out-path as it
was).  No layer is current outside a collection pass: `addAsyncContent` on a non-null
content returns with the current layer reset to null, and no layer is current in any
reachable state. -/
theorem C17_pure_cache_probe (st : Loader) (source : Nat) (tryHardware : Bool)
    (path : Option Path) :
    (st.currentLayer = 0 →
      (st.loadImage source tryHardware).2 = st ∧ (st.loadShape source path).2.2 = st ∧
      (st.completeGraphics.find source = none →
        (st.loadImage source tryHardware).1 = none ∧
        (st.loadShape source path).1 = false ∧ (st.loadShape source path).2.1 = path)) ∧
    (∀ layer c, (st.addAsyncContent layer (some c)).2.currentLayer = 0) ∧
    (∀ cap, Reachable cap st → st.currentLayer = 0) := by
  refine ⟨?_, ?_, ?_⟩
  · intro h
    refine ⟨loadImage_probe st source tryHardware h, loadShape_probe st source path h, ?_⟩
    intro miss
    simp [loadImage, loadShape, miss, h]
  · intro layer c
    rw [addAsyncContent_snd]
  · intro cap hr
    exact hr.inv.1

theorem C17_pure_cache_probe_witness :
    (sampleShared.loadImage 9 true).2 = sampleShared ∧
    (sampleShared.loadShape 9 (some 3)).2.2 = sampleShared ∧
    (sampleShared.loadImage 9 true).1 = none ∧
    (sampleShared.loadShape 9 (some 3)).1 = false ∧
    (sampleShared.loadShape 9 (some 3)).2.1 = some 3 :=
  have h := (C17_pure_cache_probe sampleShared 9 true (some 3)).1 (by decide)
  have h2 := h.2.2 (by decide)
  ⟨h.1, h.2.1, h2.1, h2.2.1, h2.2.2⟩

end Loader

/-! ## The completed cache -/

namespace Loader

theorem onDetached_loadingTasks (st : Loader) :
    st.onDetached.loadingTasks =
      (detachLoop st.pendingLayers { st with context := 0 }).loadingTasks := by
  rcases onDetached_cases st with h | h
  · rw [h.2]
  · rw [h.2]

/-- Claim C19.  `onDetached` clears the completed cache exactly when the in-flight set is empty
at the end of the dispatch loop: the in-flight set on return is the one the loop ended with,
`completeGraphics` is empty on return if that set is empty, and is the cache at entry
otherwise. -/
theorem C19_cache_cleared_when_idle (st : Loader) :
    st.onDetached.loadingTasks =
      (detachLoop st.pendingLayers { st with context := 0 }).loadingTasks ∧
    st.onDetached.completeGraphics =
      (if st.onDetached.loadingTasks = [] then [] else st.completeGraphics) := by
  refine ⟨onDetached_loadingTasks st, ?_⟩
  have hf : (detachLoop st.pendingLayers { st with context := 0 }).completeGraphics =
      st.completeGraphics :=
    (detachLoop_frame st.pendingLayers { st with context := 0 }).2.2.2.2.2.2.1
  rw [onDetached_loadingTasks]
  rcases onDetached_cases st with h | h
  · rw [h.2, if_pos h.1]
  · rw [h.2, if_neg h.1, hf]

end Loader

/-! ## What a registration records -/

namespace Loader

theorem misses_cons (st : Loader) (r : GraphicRequest) (rs : LayerContent) :
    misses st (r :: rs) =
      if st.completeGraphics.find r.source = none then r.source :: misses st rs
      else misses st rs := by
  cases h : st.completeGraphics.find r.source <;> simp [misses, h]

theorem misses_request (st : Loader) (r : GraphicRequest) (rs : LayerContent) :
    misses (st.request r).2 rs = misses st rs := by
  simp [misses, (request_sameFrame st r).2.2.2.2.2.2.1]

theorem collect_layersOf (c : LayerContent) (st : Loader) (g : Nat) :
    (collectDeferredGraphics c st).2.layersOf g =
      if st.currentLayer ≠ 0
      then st.layersOf g ++ List.replicate ((misses st c).count g) st.currentLayer
      else st.layersOf g := by
  induction c generalizing st with
  | nil => simp [collectDeferredGraphics, misses]
  | cons r rs ih =>
    simp only [collectDeferredGraphics]
    rw [ih, (request_sameFrame st r).2.1, misses_request, misses_cons, request_snd]
    by_cases hcur : st.currentLayer = 0
    · simp [hcur]
    · by_cases hmiss : st.completeGraphics.find r.source = none
      · simp only [hmiss, hcur, ne_eq, not_false_eq_true, and_self, if_true]
        rw [addDeferredGraphic_layersOf, graphic_getSource]
        by_cases hg : r.source = g
        · subst hg
          simp [List.replicate_succ]
        · simp [hg, List.count_cons]
      · simp [hmiss, hcur]

theorem collect_eq_self (c : LayerContent) (st : Loader) (h : misses st c = []) :
    (collectDeferredGraphics c st).2 = st := by
  induction c generalizing st with
  | nil => rfl
  | cons r rs ih =>
    simp only [collectDeferredGraphics]
    rw [misses_cons] at h
    by_cases hmiss : st.completeGraphics.find r.source = none
    · simp [hmiss] at h
    · rw [if_neg hmiss] at h
      have hr : (st.request r).2 = st := by
        rw [request_snd]
        simp [hmiss]
      rw [hr]
      exact ih st h

theorem misses_eq_nil_iff (st : Loader) (c : LayerContent) :
    misses st c = [] ↔ (st.addAsyncContent 0 (some c)).1 = false := by
  rw [addAsyncContent_fst]
  simp only [misses, List.map_eq_nil_iff, List.filter_eq_nil_iff, List.any_eq_false]

theorem addAsyncContent_flag_layer (st : Loader) (l1 l2 : Nat) (c : LayerContent) :
    (st.addAsyncContent l1 (some c)).1 = (st.addAsyncContent l2 (some c)).1 := by
  rw [addAsyncContent_fst, addAsyncContent_fst]

theorem count_misses (st : Loader) (c : LayerContent) (s : Nat) :
    (misses st c).count s =
      if st.completeGraphics.find s = none then (c.map GraphicRequest.source).count s
      else 0 := by
  induction c with
  | nil => simp [misses]
  | cons r rs ih =>
    rw [misses_cons]
    by_cases hs : r.source = s
    · subst hs
      by_cases hm : st.completeGraphics.find r.source = none
      · simp [hm] at ih ⊢
        exact ih
      · simp [hm] at ih ⊢
        exact ih
    · by_cases hm : st.completeGraphics.find r.source = none
      · simp only [hm, if_true, List.map_cons]
        rw [List.count_cons_of_ne (fun hc => hs hc.symm),
          List.count_cons_of_ne (fun hc => hs hc.symm)]
        exact ih
      · simp only [hm, if_false, List.map_cons]
        rw [List.count_cons_of_ne (fun hc => hs hc.symm)]
        exact ih

/-- Claim C13.  `addAsyncContent(node, content)` for a non-null content that reports whether a
requested source was deferred.  It returns `true` if and only if some requested source is
absent from the completed cache, which for a non-null node is the case if and only if the
call added an edge for the node.  When it returns `true` the node is appended to the pending
queue, once.  When it returns `false` the loader is as before with no current layer, so the
pending queue and both edge maps are unchanged. -/
theorem C13_returns_whether_deferred (st : Loader) (layer : Nat) (c : LayerContent) :
    ((st.addAsyncContent layer (some c)).1 = true ↔
      ∃ r ∈ c, st.completeGraphics.find r.source = none) ∧
    (layer ≠ 0 → ((st.addAsyncContent layer (some c)).1 = true ↔
      (st.addAsyncContent layer (some c)).2.edges layer ≠ st.edges layer)) ∧
    ((st.addAsyncContent layer (some c)).1 = true →
      (st.addAsyncContent layer (some c)).2.pendingLayers = st.pendingLayers ++ [layer]) ∧
    ((st.addAsyncContent layer (some c)).1 = false →
      (st.addAsyncContent layer (some c)).2 = { st with currentLayer := 0 } ∧
      (st.addAsyncContent layer (some c)).2.pendingLayers = st.pendingLayers ∧
      (st.addAsyncContent layer (some c)).2.layerToGraphics = st.layerToGraphics ∧
      (st.addAsyncContent layer (some c)).2.graphicToLayers = st.graphicToLayers) := by
  have hnil : misses st c = [] ↔ (st.addAsyncContent layer (some c)).1 = false := by
    rw [misses_eq_nil_iff, addAsyncContent_flag_layer st 0 layer c]
  refine ⟨?_, ?_, ?_, ?_⟩
  · rw [addAsyncContent_fst, List.any_eq_true]
    simp only [Option.isNone_iff_eq_none]
  · intro hl
    rw [addAsyncContent_edges]
    simp only [hl, ne_eq, not_false_eq_true, and_self, if_true, List.append_right_eq_self]
    rw [hnil]
    simp
  · intro h
    have hq := addAsyncContent_pendingLayers st layer (some c)
    rw [h] at hq
    simpa using hq
  · intro h
    have hm : misses st c = [] := hnil.2 h
    have hsame : (st.addAsyncContent layer (some c)).2 = { st with currentLayer := 0 } := by
      rw [addAsyncContent_snd]
      have hcol := collect_eq_self c { st with currentLayer := layer } hm
      have hflag : (collectDeferredGraphics c { st with currentLayer := layer }).1 = false := h
      rw [hcol, hflag]
      rfl
    rw [hsame]
    exact ⟨rfl, rfl, rfl, rfl⟩

theorem C13_returns_whether_deferred_witness :
    ((sampleCached.addAsyncContent 3 (some [GraphicRequest.shape 8 none])).1 = false ∧
      (sampleCached.addAsyncContent 3 (some [GraphicRequest.shape 8 none])).2.pendingLayers =
        sampleCached.pendingLayers) ∧
    ((sampleCached.addAsyncContent 3
        (some [GraphicRequest.shape 8 none, GraphicRequest.image 9 true])).1 = true ∧
      (sampleCached.addAsyncContent 3
        (some [GraphicRequest.shape 8 none, GraphicRequest.image 9 true])).2.pendingLayers =
        sampleCached.pendingLayers ++ [3]) :=
  have h1 := C13_returns_whether_deferred sampleCached 3 [GraphicRequest.shape 8 none]
  have h2 := C13_returns_whether_deferred sampleCached 3
    [GraphicRequest.shape 8 none, GraphicRequest.image 9 true]
  ⟨⟨by decide, (h1.2.2.2 (by decide)).2.1⟩, ⟨by decide, h2.2.2.1 (by decide)⟩⟩

theorem addAsyncContent_layersOf (st : Loader) (layer : Nat) (c : LayerContent) (g : Nat) :
    (st.addAsyncContent layer (some c)).2.layersOf g =
      if layer ≠ 0 then st.layersOf g ++ List.replicate ((misses st c).count g) layer
      else st.layersOf g := by
  rw [addAsyncContent_snd]
  exact collect_layersOf c { st with currentLayer := layer } g

end Loader

/-! ## Entering the completed batch -/

namespace Loader

theorem find_eq_none_of_edges_nil (st : Loader) (hc : Core st) (l : Nat)
    (h : st.edges l = []) : st.layerToGraphics.find l = none := by
  cases hf : st.layerToGraphics.find l with
  | none => rfl
  | some ls =>
    have : ls = [] := by simpa [edges, hf] using h
    exact absurd (this ▸ hf) (hc.layerNonempty l)

theorem not_referenced_of_edges_nil (st : Loader) (hc : Core st) (l : Nat)
    (h : st.edges l = []) :
    ∀ g layers, (g, layers) ∈ st.graphicToLayers → l ∉ layers := by
  intro g layers hm hin
  have hf := PtrMap.find_of_mem _ g layers hc.graphicKeys hm
  have hl : st.layersOf g = layers := by simp [layersOf, hf]
  rw [← hl, ← hc.mirror l g, h] at hin
  exact absurd hin (List.not_mem_nil g)

/-- Claim C11.  A layer enters the completed batch only when no dependency is left.  On a
reachable loader, if the sweep of `onAttached` puts the layer `l` into `completeLayers`
(it is in the batch after the sweep and was not before), then after `onAttached` the layer
is no key of `layerToGraphics` and is in no list of `graphicToLayers`, and every source it
had at entry belonged to a finished task.  A layer that has a source without a finished task
is not added by the sweep. -/
theorem C11_batch_entry (cap : Nat) (st : Loader) (current l : Nat) (hr : Reachable cap st)
    (hnew : l ∉ st.completeLayers) :
    (l ∈ (st.sweep current).completeLayers →
      l ∉ (st.onAttached current).layerToGraphics.keys ∧
      (∀ g layers, (g, layers) ∈ (st.onAttached current).graphicToLayers → l ∉ layers) ∧
      st.edges l ≠ [] ∧
      ∀ g ∈ st.edges l, finishedIn st.loadingTasks g = true) ∧
    ((∃ g ∈ st.edges l, finishedIn st.loadingTasks g = false) →
      l ∉ (st.sweep current).completeLayers) := by
  have hc := hr.inv.2
  have hs := sweep_core st current hc
  obtain ⟨_, _, _, s4, _, s6⟩ :=
    sweepLoop_spec st.loadingTasks { st with context := current } hc.loadingKeys
      (hc.congr rfl rfl rfl rfl rfl rfl)
  have e4 : (st.sweep current).edges l =
      (st.edges l).filter (fun x => !finishedIn st.loadingTasks x) := s4 l
  have e6 : l ∈ (st.sweep current).completeLayers ↔
      (l ∈ st.completeLayers ∨ (st.edges l ≠ [] ∧ (st.sweep current).edges l = [])) := s6 l
  obtain ⟨m1, m2, _, _, _⟩ := onAttached_maps st current
  constructor
  · intro hin
    rcases e6.1 hin with h | ⟨h1, h2⟩
    · exact absurd h hnew
    · refine ⟨?_, ?_, h1, ?_⟩
      · rw [m1, PtrMap.not_mem_keys_iff]
        exact find_eq_none_of_edges_nil _ hs l h2
      · rw [m2]
        exact not_referenced_of_edges_nil _ hs l h2
      · intro g hg
        rw [e4, List.filter_eq_nil_iff] at h2
        have := h2 g hg
        simpa using this
  · rintro ⟨g, hg, hfin⟩ hin
    rcases e6.1 hin with h | ⟨_, h2⟩
    · exact hnew h
    · rw [e4, List.filter_eq_nil_iff] at h2
      have := h2 g hg
      simp [hfin] at this

theorem C11_batch_entry_witness :
    1 ∈ ((sampleTwoLayers.taskFinish 8 (some 100) 0).sweep 5).completeLayers ∧
    1 ∉ ((sampleTwoLayers.taskFinish 8 (some 100) 0).onAttached 5).layerToGraphics.keys ∧
    2 ∉ ((sampleTwoLayers.taskFinish 8 (some 100) 0).sweep 5).completeLayers :=
  have hr : Reachable 2 (sampleTwoLayers.taskFinish 8 (some 100) 0) :=
    ⟨[Op.addAsyncContent 1 (some [GraphicRequest.image 8 true]),
      Op.addAsyncContent 2 (some [GraphicRequest.image 7 true]), Op.onDetached,
      Op.taskFinish 8 (some 100) 0], by decide⟩
  have h1 := C11_batch_entry 2 (sampleTwoLayers.taskFinish 8 (some 100) 0) 5 1 hr (by decide)
  have h2 := C11_batch_entry 2 (sampleTwoLayers.taskFinish 8 (some 100) 0) 5 2 hr (by decide)
  ⟨by decide, (h1.1 (by decide)).1, h2.2 ⟨7, by decide, by decide⟩⟩

end Loader

/-! ## Repeating a cancellation -/

namespace Loader

theorem cancelAsyncContent_unregistered (st : Loader) (node : Nat)
    (h1 : st.layerToGraphics.find node = none) (h2 : node ∉ st.completeLayers) :
    st.cancelAsyncContent node = some st := by
  unfold cancelAsyncContent
  simp only [h1, removeAll_eq_self _ _ h2]

theorem cancelAsyncContent_isSome (cap : Nat) (st : Loader) (node : Nat) (gs : List Nat)
    (hr : Reachable cap st) (hreg : st.layerToGraphics.find node = some gs)
    (hall : ∀ s ∈ gs, gs.count s = 1 ∨ ∃ l ∈ st.layersOf s, l ≠ node) :
    ∃ st1, st.cancelAsyncContent node = some st1 := by
  have hc := hr.inv.2
  have hpre : ∀ g ∈ gs, st.graphicToLayers.find g ≠ none ∧
      (gs.count g ≤ 1 ∨ residual node (st.graphicToLayers.find g) ≠ none) := by
    intro g hg
    have hin : node ∈ st.layersOf g := by
      rw [← hc.mirror node g]
      simpa [edges, hreg] using hg
    refine ⟨?_, ?_⟩
    · intro hnone
      simp [layersOf, hnone] at hin
    · rcases hall g hg with h1 | h1
      · exact Or.inl (le_of_eq h1)
      · exact Or.inr (residual_ne_none_of_shared st node g h1)
  obtain ⟨st2, h2⟩ := cancelLoop_isSome node gs
    { st with completeLayers := removeAll st.completeLayers node } hpre
  exact ⟨{ st2 with layerToGraphics := st2.layerToGraphics.erase node },
    by simp [cancelAsyncContent, hreg, h2]⟩

theorem cancelAsyncContent_twice (st st1 : Loader) (node : Nat)
    (h : st.cancelAsyncContent node = some st1) : st1.cancelAsyncContent node = some st1 := by
  apply cancelAsyncContent_unregistered
  · rcases cancelAsyncContent_cases st st1 node h with ⟨hf, rfl⟩ | ⟨gs, st2, hf, hl, rfl⟩
    · exact hf
    · simp only []
      rw [PtrMap.find_erase]
      simp
  · rw [cancelAsyncContent_completeLayers st st1 node h, mem_removeAll]
    exact fun hx => hx.2 rfl

/-- Repeating `cancelAsyncContent`.  For a node that is no key of `layerToGraphics` and not in
`completeLayers` the call returns with the loader unchanged.  Whenever a call returns, a
second call for the same node returns with the loader the first call produced.  On a
reachable loader the call returns for every unregistered node, and for a registered node if
each of its sources occurs once in its edge list or is referenced by another layer. -/
theorem cancelAsyncContent_idempotent (st : Loader) (node : Nat) :
    (node ∉ st.layerToGraphics.keys → node ∉ st.completeLayers →
      st.cancelAsyncContent node = some st) ∧
    (∀ st1, st.cancelAsyncContent node = some st1 →
      st1.cancelAsyncContent node = some st1) ∧
    ((st.cancelAsyncContent node).bind (fun st1 => st1.cancelAsyncContent node) =
      st.cancelAsyncContent node) ∧
    (∀ cap, Reachable cap st →
      (node ∉ st.layerToGraphics.keys ∨
        (∀ s ∈ st.edges node, (st.edges node).count s = 1 ∨ ∃ l ∈ st.layersOf s, l ≠ node)) →
      ∃ st1, st.cancelAsyncContent node = some st1 ∧
        st1.cancelAsyncContent node = some st1) := by
  refine ⟨?_, ?_, ?_, ?_⟩
  · intro h1 h2
    exact cancelAsyncContent_unregistered st node ((PtrMap.not_mem_keys_iff _ node).1 h1) h2
  · intro st1 h
    exact cancelAsyncContent_twice st st1 node h
  · cases h : st.cancelAsyncContent node with
    | none => rfl
    | some st1 =>
      simp only [Option.bind]
      exact cancelAsyncContent_twice st st1 node h
  · intro cap hr hcond
    have hret : ∃ st1, st.cancelAsyncContent node = some st1 := by
      cases hf : st.layerToGraphics.find node with
      | none =>
        unfold cancelAsyncContent
        simp only [hf]
        exact ⟨_, rfl⟩
      | some gs =>
        have hall : ∀ s ∈ gs, gs.count s = 1 ∨ ∃ l ∈ st.layersOf s, l ≠ node := by
          rcases hcond with h | h
          · exact absurd ((PtrMap.not_mem_keys_iff _ node).1 h) (by simp [hf])
          · simpa [edges, hf] using h
        exact cancelAsyncContent_isSome cap st node gs hr hf hall
    obtain ⟨st1, h1⟩ := hret
    exact ⟨st1, h1, cancelAsyncContent_twice st st1 node h1⟩

theorem cancelAsyncContent_idempotent_sample :
    sampleShared.cancelAsyncContent 9 = some sampleShared ∧
    (∃ st1, sampleShared.cancelAsyncContent 1 = some st1 ∧
      st1.cancelAsyncContent 1 = some st1) :=
  have h := cancelAsyncContent_idempotent sampleShared 9
  have h1 := cancelAsyncContent_idempotent sampleShared 1
  ⟨h.1 (by decide) (by decide),
    h1.2.2.2 2
      ⟨[Op.addAsyncContent 1 (some [GraphicRequest.image 7 true, GraphicRequest.shape 8 none]),
        Op.addAsyncContent 2 (some [GraphicRequest.image 7 false]), Op.onDetached], by decide⟩
      (Or.inr (by decide))⟩

/-- Claim C14, the failing execution.  Under cap 2 layer 1 requests the shape source 8 twice
and layer 2 registers the image source 7; the state is reachable and layer 1 is registered
with the edge list `[8, 8]`.  The first `cancelAsyncContent(1)` erases the entry of 8 from
`graphicToLayers` in its first pass and finds none in its second: the lookup gives the end
iterator, the `DEBUG_ASSERT` fails and the call does not return, so there is no state after
one call for a second call to reproduce.  For layer 2 and for the unregistered layer 3 of
the same state the call returns and a second call changes nothing. -/
theorem C14_first_cancel_fails :
    Reachable 2 sampleTwiceShape ∧
    sampleTwiceShape.layerToGraphics.find 1 = some [8, 8] ∧
    (∃ st1, cancelGraphic 1 sampleTwiceShape 8 = some st1 ∧
      st1.graphicToLayers.find 8 = none ∧ cancelGraphic 1 st1 8 = none) ∧
    sampleTwiceShape.cancelAsyncContent 1 = none ∧
    (sampleTwiceShape.cancelAsyncContent 1).bind (fun st1 => st1.cancelAsyncContent 1) = none ∧
    (∃ st2, sampleTwiceShape.cancelAsyncContent 2 = some st2 ∧
      st2.cancelAsyncContent 2 = some st2) ∧
    sampleTwiceShape.cancelAsyncContent 3 = some sampleTwiceShape :=
  ⟨⟨[Op.addAsyncContent 1
        (some [GraphicRequest.shape 8 none, GraphicRequest.shape 8 (some 0)]),
      Op.addAsyncContent 2 (some [GraphicRequest.image 7 true])], by decide⟩,
    by decide, ⟨_, rfl, by decide, by decide⟩, by decide, by decide,
    ⟨_, rfl, by decide⟩, by decide⟩

end Loader

/-! ## Cached sources are not scheduled -/

namespace Loader

theorem request_uncached (st : Loader) (r : GraphicRequest) (h : Uncached st) :
    Uncached (st.request r).2 := by
  intro g hg
  obtain ⟨_, _, _, _, f5, _, f7, _, _, _⟩ := request_sameFrame st r
  rw [f7] at hg
  rw [f5]
  refine ⟨?_, (h g hg).2⟩
  rw [request_snd]
  split_ifs with hc
  · rw [addDeferredGraphic_pending_find, graphic_getSource]
    have hne : r.source ≠ g := by
      intro he
      rw [he] at hc
      exact hg hc.1
    simp only [hne, false_and, if_false]
    exact (h g hg).1
  · exact (h g hg).1

theorem collect_uncached (c : LayerContent) (st : Loader) (h : Uncached st) :
    Uncached (collectDeferredGraphics c st).2 := by
  induction c generalizing st with
  | nil => exact h
  | cons r rs ih =>
    simp only [collectDeferredGraphics]
    exact ih _ (request_uncached st r h)

theorem addAsyncContent_uncached (st : Loader) (layer : Nat) (content : Option LayerContent)
    (h : Uncached st) : Uncached (st.addAsyncContent layer content).2 := by
  cases content with
  | none => exact h
  | some c =>
    rw [addAsyncContent_snd]
    have h0 : Uncached { st with currentLayer := layer } := h
    exact collect_uncached c _ h0

theorem cancelAsyncContent_uncached (st st1 : Loader) (layer : Nat) (h : Uncached st)
    (hcan : st.cancelAsyncContent layer = some st1) : Uncached st1 := by
  rcases cancelAsyncContent_cases st st1 layer hcan with ⟨hf, rfl⟩ | ⟨gs, st2, hf, hl, rfl⟩
  · exact h
  · intro g hg
    have f7 := (cancelLoop_frame layer gs _ st2 hl).2.2.2.2.2.2.1
    have hg2 : st.completeGraphics.find g ≠ none := by
      have : st2.completeGraphics.find g ≠ none := hg
      rw [f7] at this
      exact this
    have e2 := cancelLoop_pendingGraphics layer gs _ st2 hl g
    have e3 := cancelLoop_loadingTasks layer gs _ st2 hl g
    constructor
    · show st2.pendingGraphics.find g = none
      rw [e2]
      split_ifs
      · rfl
      · exact (h g hg2).1
    · show st2.loadingTasks.find g = none
      rw [e3]
      split_ifs
      · rfl
      · exact (h g hg2).2

theorem finishedIn_find (ts : PtrMap GraphicLoadTask) (g : Nat) (h : finishedIn ts g = true) :
    PtrMap.find ts g ≠ none := by
  unfold finishedIn at h
  cases hf : PtrMap.find ts g with
  | none => simp [hf] at h
  | some t => simp

theorem onAttached_uncached (st : Loader) (current : Nat) (hc : Core st) (h : Uncached st) :
    Uncached (st.onAttached current) := by
  obtain ⟨_, s2, _, _, s5, _⟩ :=
    sweepLoop_spec st.loadingTasks { st with context := current } hc.loadingKeys
      (hc.congr rfl rfl rfl rfl rfl rfl)
  have e2 : ∀ k, (st.sweep current).loadingTasks.find k =
      if finishedIn st.loadingTasks k then none else st.loadingTasks.find k := s2
  have e5 : ∀ k, (st.sweep current).completeGraphics.find k =
      if finishedIn st.loadingTasks k then (PtrMap.find st.loadingTasks k).map (fun t => t.graphic)
      else st.completeGraphics.find k := s5
  have ep : (st.sweep current).pendingGraphics = st.pendingGraphics :=
    (sweepLoop_frame st.loadingTasks { st with context := current }).2.2.2.2.1
  obtain ⟨_, _, m3, m4, m5⟩ := onAttached_maps st current
  intro g hg
  rw [m5, e5 g] at hg
  rw [m3, m4, ep, e2 g]
  by_cases hfin : finishedIn st.loadingTasks g = true
  · simp only [hfin, if_true, and_true]
    by_contra hp
    exact finishedIn_find _ g hfin (hc.exclusive g hp)
  · simp only [hfin, Bool.false_eq_true, if_false] at hg ⊢
    exact h g hg

theorem detachLoop_loading_origin (q : List Nat) (st : Loader) (k : Nat)
    (h : (detachLoop q st).loadingTasks.find k ≠ none) :
    st.loadingTasks.find k ≠ none ∨ st.pendingGraphics.find k ≠ none := by
  induction q generalizing st with
  | nil => exact Or.inl h
  | cons l q ih =>
    simp only [detachLoop] at h
    by_cases hlt : st.loadingTasks.length < st.maxAsyncGraphicsPerFrame
    · simp only [hlt, if_true] at h
      obtain ⟨t1, _, _, a3, a4, a5⟩ := dispatchLayer_tasks { st with pendingLayers := q } l
      have a3b : ∀ g, g ∈ t1 ↔ (g ∈ st.edges l ∧ st.pendingGraphics.find g ≠ none) := a3
      have a4b : (dispatchLayer { st with pendingLayers := q } l).pendingGraphics.find k =
          if k ∈ st.edges l then none else st.pendingGraphics.find k := a4 k
      have a5b : (dispatchLayer { st with pendingLayers := q } l).loadingTasks.find k ≠ none ↔
          (st.loadingTasks.find k ≠ none ∨ k ∈ t1) := a5 k
      rcases ih _ h with h1 | h1
      · rcases a5b.1 h1 with h2 | h2
        · exact Or.inl h2
        · exact Or.inr ((a3b k).1 h2).2
      · rw [a4b] at h1
        by_cases hm : k ∈ st.edges l
        · simp [hm] at h1
        · right
          simpa [hm] using h1
    · simp only [hlt, if_false] at h
      exact Or.inl h

theorem onDetached_uncached (st : Loader) (h : Uncached st) : Uncached st.onDetached := by
  obtain ⟨_, _, _, _, b4, _, _⟩ :=
    detachLoop_tasks st.pendingLayers { st with context := 0 }
  have hcg : (detachLoop st.pendingLayers { st with context := 0 }).completeGraphics =
      st.completeGraphics :=
    (detachLoop_frame st.pendingLayers { st with context := 0 }).2.2.2.2.2.2.1
  rcases onDetached_cases st with h1 | h1
  · rw [h1.2]
    intro g hg
    exact absurd rfl hg
  · rw [h1.2]
    intro g hg
    rw [hcg] at hg
    obtain ⟨p, lo⟩ := h g hg
    constructor
    · by_contra hne
      exact b4 g hne p
    · by_contra hne
      rcases detachLoop_loading_origin _ _ g hne with h2 | h2
      · exact h2 lo
      · exact h2 p

theorem retask_uncached (st : Loader) (g : Nat) (old new : GraphicLoadTask) (h : Uncached st)
    (hf : st.loadingTasks.find g = some old) :
    Uncached { st with loadingTasks := st.loadingTasks.assign g new } := by
  intro k hk
  obtain ⟨p, lo⟩ := h k hk
  refine ⟨p, ?_⟩
  simp only [PtrMap.find_assign]
  by_cases hg : g = k
  · subst hg
    rw [hf] at lo
    exact absurd lo (by simp)
  · simpa [hg] using lo

theorem step_uncached (st st1 : Loader) (op : Op) (hi : Inv st) (h : Uncached st)
    (hs : step st op = some st1) : Uncached st1 := by
  cases op with
  | addAsyncContent layer content =>
    cases content with
    | none =>
      simp only [step, Option.some.injEq] at hs
      exact hs ▸ h
    | some c =>
      simp only [step] at hs
      split_ifs at hs
      simp only [Option.some.injEq] at hs
      exact hs ▸ addAsyncContent_uncached st layer (some c) h
  | cancelAsyncContent layer => exact cancelAsyncContent_uncached st st1 layer h hs
  | loadImage generator tryHardware =>
    simp only [step] at hs
    split_ifs at hs
    simp only [Option.some.injEq] at hs
    rw [loadImage_probe st generator tryHardware hi.1] at hs
    exact hs ▸ h
  | loadShape sh path =>
    simp only [step] at hs
    split_ifs at hs
    simp only [Option.some.injEq] at hs
    rw [loadShape_probe st sh path hi.1] at hs
    exact hs ▸ h
  | onAttached current =>
    simp only [step, Option.some.injEq] at hs
    exact hs ▸ onAttached_uncached st current hi.2 h
  | onDetached =>
    simp only [step, Option.some.injEq] at hs
    exact hs ▸ onDetached_uncached st h
  | taskRun g =>
    simp only [step, Option.some.injEq] at hs
    subst hs
    unfold taskRun
    cases hf : st.loadingTasks.find g with
    | none => exact h
    | some task =>
      simp only []
      split_ifs
      · exact retask_uncached st g task _ h hf
      · exact h
  | taskFinish g b p =>
    simp only [step, Option.some.injEq] at hs
    subst hs
    unfold taskFinish
    cases hf : st.loadingTasks.find g with
    | none => exact h
    | some task =>
      simp only []
      split_ifs
      · exact retask_uncached st g task _ h hf
      · exact h

theorem run_uncached (ops : List Op) (st st1 : Loader) (hi : Inv st) (h : Uncached st)
    (hr : run st ops = some st1) : Uncached st1 := by
  induction ops generalizing st with
  | nil =>
    simp only [run, Option.some.injEq] at hr
    exact hr ▸ h
  | cons op ops ih =>
    simp only [run] at hr
    cases hs : step st op with
    | none => simp [hs] at hr
    | some st2 =>
      simp only [hs] at hr
      exact ih st2 (step_inv st st2 op hi hs) (step_uncached st st2 op hi h hs) hr

theorem Reachable.uncached {cap : Nat} {st : Loader} (h : Reachable cap st) : Uncached st := by
  obtain ⟨ops, hr⟩ := h
  refine run_uncached ops (init cap) st (init_inv cap) ?_ hr
  intro g hg
  exact absurd rfl hg

/-- Claim C20.  In every reachable state the keys of `completeGraphics` are disjoint from the
keys of `pendingGraphics` and from the keys of `loadingTasks`: a source with a cached result
is neither awaiting dispatch nor in flight. -/
theorem C20_cached_not_scheduled (cap : Nat) (st : Loader) (hr : Reachable cap st) :
    (∀ g, g ∈ st.completeGraphics.keys →
      g ∉ st.pendingGraphics.keys ∧ g ∉ st.loadingTasks.keys) ∧
    st.completeGraphics.keys.Disjoint st.pendingGraphics.keys ∧
    st.completeGraphics.keys.Disjoint st.loadingTasks.keys := by
  have hu := hr.uncached
  have hall : ∀ g, g ∈ st.completeGraphics.keys →
      g ∉ st.pendingGraphics.keys ∧ g ∉ st.loadingTasks.keys := by
    intro g hg
    rw [PtrMap.mem_keys_iff] at hg
    rw [PtrMap.not_mem_keys_iff, PtrMap.not_mem_keys_iff]
    exact hu g hg
  exact ⟨hall, fun g h1 h2 => (hall g h1).1 h2, fun g h1 h2 => (hall g h1).2 h2⟩

theorem C20_cached_not_scheduled_witness :
    sampleCached.completeGraphics.keys = [8] ∧ sampleCached.loadingTasks.keys = [7] ∧
    sampleCached.completeGraphics.keys.Disjoint sampleCached.loadingTasks.keys :=
  ⟨by decide, by decide,
    (C20_cached_not_scheduled 2 sampleCached
      ⟨[Op.addAsyncContent 1 (some [GraphicRequest.image 7 true, GraphicRequest.shape 8 none]),
        Op.addAsyncContent 2 (some [GraphicRequest.image 7 false]), Op.onDetached,
        Op.taskFinish 8 none 44, Op.onAttached 5], by decide⟩).2.2⟩

end Loader

/-! ## Atlas upload: traces -/

theorem creationAttempts_append (a b : List GpuCall) :
    creationAttempts (a ++ b) = creationAttempts a ++ creationAttempts b := by
  induction a with
  | nil => rfl
  | cons c a ih => cases c <;> simp [creationAttempts, ih]

theorem createdTextures_append (a b : List GpuCall) :
    createdTextures (a ++ b) = createdTextures a ++ createdTextures b := by
  induction a with
  | nil => rfl
  | cons c a ih =>
    cases c with
    | makeFrom buffer result => cases result <;> simp [createdTextures, ih]
    | wait t => simp [createdTextures, ih]
    | unlockPixels b => simp [createdTextures, ih]
    | assignUniqueKey t k => simp [createdTextures, ih]
    | writePixels t x y w h d r => simp [createdTextures, ih]

theorem keyAssignments_append (a b : List GpuCall) :
    keyAssignments (a ++ b) = keyAssignments a ++ keyAssignments b := by
  induction a with
  | nil => rfl
  | cons c a ih => cases c <;> simp [keyAssignments, ih]

theorem waitedTasks_append (a b : List GpuCall) :
    waitedTasks (a ++ b) = waitedTasks a ++ waitedTasks b := by
  induction a with
  | nil => rfl
  | cons c a ih => cases c <;> simp [waitedTasks, ih]

theorem pixelWrites_append (a b : List GpuCall) :
    pixelWrites (a ++ b) = pixelWrites a ++ pixelWrites b := by
  induction a with
  | nil => rfl
  | cons c a ih => cases c <;> simp [pixelWrites, ih]

theorem waitLoop_views (ts : List Nat) :
    creationAttempts (waitLoop ts) = [] ∧ createdTextures (waitLoop ts) = [] ∧
    keyAssignments (waitLoop ts) = [] ∧ pixelWrites (waitLoop ts) = [] ∧
    waitedTasks (waitLoop ts) = ts := by
  induction ts with
  | nil => exact ⟨rfl, rfl, rfl, rfl, rfl⟩
  | cons t ts ih =>
    obtain ⟨h1, h2, h3, h4, h5⟩ := ih
    simp [waitLoop, creationAttempts, createdTextures, keyAssignments, pixelWrites,
      waitedTasks, h1, h2, h3, h4, h5]

namespace HardwareAtlasUploadTask

theorem uploadLoop_append (mk : Nat → Option Nat) (a b : List (Nat × TextureProxy)) :
    uploadLoop mk (a ++ b) = uploadLoop mk a ++ uploadLoop mk b := by
  induction a with
  | nil => rfl
  | cons e a ih =>
    obtain ⟨buffer, proxy⟩ := e
    simp [uploadLoop, ih]

theorem uploadBuffer_views (mk : Nat → Option Nat) (buffer : Nat) (proxy : TextureProxy) :
    creationAttempts (uploadBuffer mk buffer proxy) =
        (if proxy.texture.isNone then [buffer] else []) ∧
    createdTextures (uploadBuffer mk buffer proxy) =
        (if proxy.texture.isNone then (mk buffer).toList else []) ∧
    keyAssignments (uploadBuffer mk buffer proxy) =
        (if proxy.texture.isNone then ((mk buffer).map (fun t => (t, proxy.uniqueKey))).toList
         else []) ∧
    waitedTasks (uploadBuffer mk buffer proxy) = [] ∧
    pixelWrites (uploadBuffer mk buffer proxy) = [] := by
  unfold uploadBuffer
  cases hp : proxy.texture with
  | some t =>
    simp [creationAttempts, createdTextures, keyAssignments, waitedTasks, pixelWrites]
  | none =>
    cases hm : mk buffer with
    | none =>
      simp [creationAttempts, createdTextures, keyAssignments, waitedTasks, pixelWrites]
    | some t =>
      simp [creationAttempts, createdTextures, keyAssignments, waitedTasks, pixelWrites]

theorem uploadLoop_attempts (mk : Nat → Option Nat) (bs : List (Nat × TextureProxy)) :
    creationAttempts (uploadLoop mk bs) =
      (bs.filter (fun e => e.2.texture.isNone)).map Prod.fst := by
  induction bs with
  | nil => rfl
  | cons e bs ih =>
    obtain ⟨buffer, proxy⟩ := e
    simp only [uploadLoop, creationAttempts_append, ih, (uploadBuffer_views mk buffer proxy).1,
      List.filter_cons]
    cases proxy.texture <;> simp

theorem uploadLoop_created (mk : Nat → Option Nat) (bs : List (Nat × TextureProxy)) :
    createdTextures (uploadLoop mk bs) =
      (bs.filter (fun e => e.2.texture.isNone)).filterMap (fun e => mk e.1) := by
  induction bs with
  | nil => rfl
  | cons e bs ih =>
    obtain ⟨buffer, proxy⟩ := e
    simp only [uploadLoop, createdTextures_append, ih, (uploadBuffer_views mk buffer proxy).2.1,
      List.filter_cons]
    cases proxy.texture with
    | some t => simp
    | none => cases hm : mk buffer <;> simp [List.filterMap_cons, hm]

theorem uploadLoop_keys (mk : Nat → Option Nat) (bs : List (Nat × TextureProxy)) :
    keyAssignments (uploadLoop mk bs) =
      (bs.filter (fun e => e.2.texture.isNone)).filterMap
        (fun e => (mk e.1).map (fun t => (t, e.2.uniqueKey))) := by
  induction bs with
  | nil => rfl
  | cons e bs ih =>
    obtain ⟨buffer, proxy⟩ := e
    simp only [uploadLoop, keyAssignments_append, ih,
      (uploadBuffer_views mk buffer proxy).2.2.1, List.filter_cons]
    cases proxy.texture with
    | some t => simp
    | none => cases hm : mk buffer <;> simp [List.filterMap_cons, hm]

theorem uploadLoop_quiet (mk : Nat → Option Nat) (bs : List (Nat × TextureProxy)) :
    waitedTasks (uploadLoop mk bs) = [] ∧ pixelWrites (uploadLoop mk bs) = [] := by
  induction bs with
  | nil => exact ⟨rfl, rfl⟩
  | cons e bs ih =>
    obtain ⟨buffer, proxy⟩ := e
    obtain ⟨_, _, _, v4, v5⟩ := uploadBuffer_views mk buffer proxy
    simp [uploadLoop, waitedTasks_append, pixelWrites_append, ih.1, ih.2, v4, v5]

end HardwareAtlasUploadTask

/-! ## Hardware atlas upload -/

namespace HardwareAtlasUploadTask

theorem length_filterMap_of_ne_none {α β : Type} (f : α → Option β) (l : List α)
    (h : ∀ x ∈ l, f x ≠ none) : (l.filterMap f).length = l.length := by
  induction l with
  | nil => rfl
  | cons a l ih =>
    obtain ⟨b, hb⟩ := Option.ne_none_iff_exists'.1 (h a (List.mem_cons_self a l))
    rw [List.filterMap_cons_some hb]
    simp [ih (fun x hx => h x (List.mem_cons_of_mem a hx))]

theorem countP_unresolved (bs : List (Nat × TextureProxy)) :
    (bs.filter (fun e => e.2.texture.isNone)).length +
      bs.countP (fun e => e.2.texture.isSome) = bs.length := by
  induction bs with
  | nil => rfl
  | cons e bs ih =>
    obtain ⟨buffer, proxy⟩ := e
    cases hp : proxy.texture with
    | none =>
      simp [List.filter_cons, List.countP_cons, hp]
      omega
    | some t =>
      simp [List.filter_cons, List.countP_cons, hp]
      omega

theorem execute_views (mk : Nat → Option Nat) (task : HardwareAtlasUploadTask) :
    creationAttempts (execute mk task).2 = creationAttempts (uploadLoop mk task.buffers) ∧
    createdTextures (execute mk task).2 = createdTextures (uploadLoop mk task.buffers) ∧
    keyAssignments (execute mk task).2 = keyAssignments (uploadLoop mk task.buffers) := by
  obtain ⟨w1, w2, w3, _, _⟩ := waitLoop_views task.cellTasks
  simp [execute, creationAttempts_append, createdTextures_append, keyAssignments_append,
    w1, w2, w3]

/-- Claim C24.  Hardware atlas upload, for every list of (buffer, proxy) entries and every
outcome of texture creation.  `execute` returns `true`; it asks for a texture exactly for the
entries whose proxy does not resolve, in map order; it assigns a key, the unique key of the
proxy, exactly to the textures it created, so an entry whose proxy resolves causes no
creation and no key assignment.  With exactly one resolving proxy and creation succeeding
for the other entries, one texture less than the number of entries is created. -/
theorem C24_hardware_upload (mk : Nat → Option Nat) (task : HardwareAtlasUploadTask) :
    (execute mk task).1 = true ∧
    creationAttempts (execute mk task).2 =
      (task.buffers.filter (fun e => e.2.texture.isNone)).map Prod.fst ∧
    keyAssignments (execute mk task).2 =
      (task.buffers.filter (fun e => e.2.texture.isNone)).filterMap
        (fun e => (mk e.1).map (fun t => (t, e.2.uniqueKey))) ∧
    (keyAssignments (execute mk task).2).map Prod.fst = createdTextures (execute mk task).2 ∧
    (task.buffers.countP (fun e => e.2.texture.isSome) = 1 →
      (∀ e ∈ task.buffers, e.2.texture = none → mk e.1 ≠ none) →
      (createdTextures (execute mk task).2).length = task.buffers.length - 1) := by
  obtain ⟨v1, v2, v3⟩ := execute_views mk task
  refine ⟨rfl, ?_, ?_, ?_, ?_⟩
  · rw [v1, uploadLoop_attempts]
  · rw [v3, uploadLoop_keys]
  · rw [v3, v2, uploadLoop_keys, uploadLoop_created, List.map_filterMap]
    apply congrArg (fun f => List.filterMap f _)
    funext e
    cases mk e.1 <;> rfl
  · intro hone hmk
    rw [v2, uploadLoop_created, length_filterMap_of_ne_none]
    · have := countP_unresolved task.buffers
      omega
    · intro e he
      have he2 := List.mem_filter.1 he
      exact hmk e he2.1 (Option.isNone_iff_eq_none.1 he2.2)

theorem C24_hardware_upload_witness :
    (createdTextures (execute (fun b => some (b + 30)) sampleHardware).2).length =
      sampleHardware.buffers.length - 1 :=
  (C24_hardware_upload (fun b => some (b + 30)) sampleHardware).2.2.2.2 (by decide)
    (by intro e _ _; simp)

/-- Claim C25.  `HardwareAtlasUploadTask::execute` returns `true` for every cell-task list,
every buffer map and every outcome of texture creation, in particular for an empty task
list and an empty map.  An entry whose texture creation fails contributes the unlock and
the failed creation only, no key assignment, and the entries before and after it are
processed as they are without it. -/
theorem C25_hardware_always_true (mk : Nat → Option Nat) (task : HardwareAtlasUploadTask) :
    (execute mk task).1 = true ∧
    execute mk ⟨[], []⟩ = (true, []) ∧
    (∀ before after buffer proxy, task.buffers = before ++ (buffer, proxy) :: after →
      proxy.texture = none → mk buffer = none →
      (execute mk task).2 =
          waitLoop task.cellTasks ++ (uploadLoop mk before ++
            ([GpuCall.unlockPixels buffer, GpuCall.makeFrom buffer none] ++
              uploadLoop mk after)) ∧
      keyAssignments (execute mk task).2 =
          keyAssignments (uploadLoop mk before) ++ keyAssignments (uploadLoop mk after)) ∧
    ((∀ e ∈ task.buffers, mk e.1 = none) → keyAssignments (execute mk task).2 = []) := by
  refine ⟨rfl, rfl, ?_, ?_⟩
  · intro before after buffer proxy hb hp hm
    have hone : uploadBuffer mk buffer proxy =
        [GpuCall.unlockPixels buffer, GpuCall.makeFrom buffer none] := by
      simp [uploadBuffer, hp, hm]
    have htrace : (execute mk task).2 =
        waitLoop task.cellTasks ++ (uploadLoop mk before ++
          ([GpuCall.unlockPixels buffer, GpuCall.makeFrom buffer none] ++
            uploadLoop mk after)) := by
      simp only [execute, hb, uploadLoop_append, uploadLoop, hone]
    refine ⟨htrace, ?_⟩
    rw [htrace]
    simp [keyAssignments_append, (waitLoop_views task.cellTasks).2.2.1, keyAssignments]
  · intro hfail
    rw [(execute_views mk task).2.2, uploadLoop_keys]
    apply List.filterMap_eq_nil_iff.2
    intro e he
    have he2 := List.mem_filter.1 he
    simp [hfail e he2.1]

theorem C25_hardware_always_true_witness :
    (execute (fun b => if b = 10 then none else some (b + 30)) sampleHardware).1 = true ∧
    keyAssignments (execute (fun b => if b = 10 then none else some (b + 30))
        sampleHardware).2 = [(42, 102)] :=
  have h := C25_hardware_always_true (fun b => if b = 10 then none else some (b + 30))
    sampleHardware
  have h2 := (h.2.2.1 [] [(11, ⟨some 51, 101⟩), (12, ⟨none, 102⟩)] 10 ⟨none, 100⟩ rfl rfl
    (by decide)).2
  ⟨h.1, h2⟩

end HardwareAtlasUploadTask

/-! ## Software atlas upload -/

namespace SoftwareAtlasUploadTask

theorem writeCells_views (texture : Nat) (cells : List AtlasCellData) :
    pixelWrites (writeCells texture cells) = cells.filterMap (expectedWrite texture) ∧
    waitedTasks (writeCells texture cells) = [] := by
  induction cells with
  | nil => exact ⟨rfl, rfl⟩
  | cons cell cells ih =>
    cases hp : cell.pixels with
    | none =>
      have he : expectedWrite texture cell = none := by simp [expectedWrite, hp]
      simp only [writeCells, hp, List.filterMap_cons_none he]
      exact ih
    | some data =>
      have he : expectedWrite texture cell =
          some (GpuCall.writePixels texture cell.atlasOffset.x cell.atlasOffset.y
            cell.pixelsInfo.width cell.pixelsInfo.height data cell.pixelsInfo.rowBytes) := by
        simp [expectedWrite, hp]
      simp only [writeCells, hp, List.filterMap_cons_some he, pixelWrites, waitedTasks]
      exact ⟨by rw [ih.1], ih.2⟩

theorem uploadLoop_views (entries : List (Option TextureProxy × List AtlasCellData)) :
    pixelWrites (uploadLoop entries) =
      (resolvedCells entries).filterMap (fun p => expectedWrite p.1 p.2) ∧
    waitedTasks (uploadLoop entries) = [] := by
  induction entries with
  | nil => exact ⟨rfl, rfl⟩
  | cons e rest ih =>
    obtain ⟨proxy, cells⟩ := e
    cases proxy with
    | none => simpa [uploadLoop, resolvedCells] using ih
    | some p =>
      obtain ⟨tex, key⟩ := p
      cases tex with
      | none =>
        by_cases hc : cells.isEmpty = true <;> simpa [uploadLoop, resolvedCells, hc] using ih
      | some t =>
        by_cases hc : cells.isEmpty = true
        · have hnil : cells = [] := List.isEmpty_iff.1 hc
          subst hnil
          simpa [uploadLoop, resolvedCells] using ih
        · obtain ⟨w1, w2⟩ := writeCells_views t cells
          have hc2 : cells.isEmpty = false := by simpa using hc
          simp only [uploadLoop, hc2, Bool.false_eq_true, if_false, resolvedCells,
            pixelWrites_append, waitedTasks_append, w1, w2, ih.1, ih.2, List.filterMap_append,
            List.filterMap_map]
          exact ⟨rfl, rfl⟩

theorem mem_resolvedCells (entries : List (Option TextureProxy × List AtlasCellData))
    (texture : Nat) (cell : AtlasCellData) :
    (texture, cell) ∈ resolvedCells entries ↔
      ∃ key cells, (some ⟨some texture, key⟩, cells) ∈ entries ∧ cell ∈ cells := by
  induction entries with
  | nil => simp [resolvedCells]
  | cons e rest ih =>
    obtain ⟨proxy, cells⟩ := e
    cases proxy with
    | none => simp [resolvedCells, ih]
    | some p =>
      obtain ⟨tex, key⟩ := p
      cases tex with
      | none => simp [resolvedCells, ih]
      | some t =>
        simp only [resolvedCells, List.mem_append, List.mem_map, ih, List.mem_cons,
          Prod.mk.injEq, Option.some.injEq, TextureProxy.mk.injEq]
        constructor
        · rintro (⟨c, hc, h1, h2⟩ | ⟨k, cs, h1, h2⟩)
          · exact ⟨key, cells, Or.inl ⟨⟨h1.symm, rfl⟩, rfl⟩, h2 ▸ hc⟩
          · exact ⟨k, cs, Or.inr h1, h2⟩
        · rintro ⟨k, cs, (⟨⟨h1, h2⟩, h3⟩ | h1), h4⟩
          · exact Or.inl ⟨cell, h3 ▸ h4, h1.symm, rfl⟩
          · exact Or.inr ⟨k, cs, h1, h4⟩

theorem length_filterMap_expected (l : List (Nat × AtlasCellData)) :
    (l.filterMap (fun p => expectedWrite p.1 p.2)).length =
      l.countP (fun p => p.2.pixels.isSome) := by
  rw [List.length_filterMap_eq_countP]
  apply congrArg (fun f => List.countP f l)
  funext p
  cases hp : p.2.pixels <;> simp [expectedWrite, hp]

theorem execute_of_tasks (task : SoftwareAtlasUploadTask) (h : task.cellTasks ≠ []) :
    execute task = (true, waitLoop task.cellTasks ++ uploadLoop task.cellDatas) := by
  unfold execute
  have : task.cellTasks.isEmpty = false := by
    cases hc : task.cellTasks with
    | nil => exact absurd hc h
    | cons t ts => rfl
  simp [this]

theorem execute_of_no_tasks (task : SoftwareAtlasUploadTask) (h : task.cellTasks = []) :
    execute task = (false, []) := by
  unfold execute
  simp [h]

/-- Claim C26.  `SoftwareAtlasUploadTask::execute` returns `false` if and only if its cell-task
list is empty, whatever the cell map holds; when it returns `false` it has made no call at
all, so it has waited on no task and written no pixels. -/
theorem C26_software_fails_without_tasks (task : SoftwareAtlasUploadTask) :
    ((execute task).1 = false ↔ task.cellTasks = []) ∧
    ((execute task).1 = false →
      (execute task).2 = [] ∧ waitedTasks (execute task).2 = [] ∧
      pixelWrites (execute task).2 = []) := by
  have hiff : (execute task).1 = false ↔ task.cellTasks = [] := by
    constructor
    · intro h
      by_contra hne
      rw [execute_of_tasks task hne] at h
      exact absurd h (by simp)
    · intro h
      rw [execute_of_no_tasks task h]
  refine ⟨hiff, ?_⟩
  intro h
  rw [execute_of_no_tasks task (hiff.1 h)]
  exact ⟨rfl, rfl, rfl⟩

theorem C26_software_fails_without_tasks_witness :
    (execute { sampleSoftware with cellTasks := [] }).1 = false ∧
    (execute { sampleSoftware with cellTasks := [] }).2 = [] ∧
    (execute sampleSoftware).1 = true :=
  have h := C26_software_fails_without_tasks { sampleSoftware with cellTasks := [] }
  ⟨h.1.2 rfl, (h.2 (h.1.2 rfl)).1, by decide⟩

/-- Claim C27.  `SoftwareAtlasUploadTask::execute` with a non-empty cell-task list returns
`true`, waits on every cell task, and its pixel writes are, in map order, one write for each
cell with a non-null payload among the cells whose proxy is not null and resolves to a
texture, and no other write.  The write for a cell goes to the texture of its proxy with the
rectangle `(atlasOffset.x, atlasOffset.y, width, height)`, the payload, and the row stride
`rowBytes` of the cell. -/
theorem C27_software_writes (task : SoftwareAtlasUploadTask) (h : task.cellTasks ≠ []) :
    (execute task).1 = true ∧
    waitedTasks (execute task).2 = task.cellTasks ∧
    pixelWrites (execute task).2 =
      (resolvedCells task.cellDatas).filterMap (fun p => expectedWrite p.1 p.2) ∧
    (pixelWrites (execute task).2).length =
      (resolvedCells task.cellDatas).countP (fun p => p.2.pixels.isSome) ∧
    (∀ texture cell, (texture, cell) ∈ resolvedCells task.cellDatas ↔
      ∃ key cells, (some ⟨some texture, key⟩, cells) ∈ task.cellDatas ∧ cell ∈ cells) ∧
    (∀ texture cell data, cell.pixels = some data →
      expectedWrite texture cell =
        some (GpuCall.writePixels texture cell.atlasOffset.x cell.atlasOffset.y
          cell.pixelsInfo.width cell.pixelsInfo.height data cell.pixelsInfo.rowBytes)) := by
  obtain ⟨u1, u2⟩ := uploadLoop_views task.cellDatas
  obtain ⟨_, _, _, w4, w5⟩ := waitLoop_views task.cellTasks
  have hw : pixelWrites (execute task).2 =
      (resolvedCells task.cellDatas).filterMap (fun p => expectedWrite p.1 p.2) := by
    rw [execute_of_tasks task h]
    simp only [pixelWrites_append, w4, u1, List.nil_append]
  refine ⟨?_, ?_, hw, ?_, mem_resolvedCells task.cellDatas, ?_⟩
  · rw [execute_of_tasks task h]
  · rw [execute_of_tasks task h]
    simp only [waitedTasks_append, w5, u2, List.append_nil]
  · rw [hw, length_filterMap_expected]
  · intro texture cell data hd
    simp [expectedWrite, hd]

theorem C27_software_writes_witness :
    pixelWrites (execute sampleSoftware).2 =
      [GpuCall.writePixels 51 0 0 8 2 72 32, GpuCall.writePixels 51 16 4 3 5 73 12] ∧
    (pixelWrites (execute sampleSoftware).2).length = 2 :=
  have h := C27_software_writes sampleSoftware (by decide)
  ⟨h.2.2.1, h.2.2.2.1⟩

end SoftwareAtlasUploadTask

/-! ## Consistency of the edge maps -/

namespace PtrMap

variable {V : Type}

theorem mem_of_find (m : PtrMap V) (k : Nat) (v : V) (h : m.find k = some v) : (k, v) ∈ m := by
  induction m with
  | nil => simp [find] at h
  | cons e m ih =>
    obtain ⟨a, b⟩ := e
    by_cases hk : a = k
    · have hb : b = v := by simpa [find, hk] using h
      simp [hk, hb]
    · have h2 : find m k = some v := by simpa [find, hk] using h
      exact List.mem_cons_of_mem _ (ih h2)

end PtrMap

namespace Loader

/-- Claim C28, the failing execution.  Layer 1 requests the image source 7 twice on a fresh
loader, which is reachable under the preconditions of `addAsyncContent`.  In
`cancelAsyncContent(1)` the first pass over the edge list `[7, 7]` removes layer 1 from the
list of 7 and erases the emptied entry; the second pass finds no entry for 7 in
`graphicToLayers`, so the lookup gives the end iterator and the `DEBUG_ASSERT` fails. -/
theorem C28_lookup_fails :
    Reachable 1 sampleTwice ∧ sampleTwice.edges 1 = [7, 7] ∧
    (∃ st1, cancelGraphic 1 sampleTwice 7 = some st1 ∧ st1.graphicToLayers.find 7 = none ∧
      cancelGraphic 1 st1 7 = none) ∧
    sampleTwice.cancelAsyncContent 1 = none :=
  ⟨⟨[Op.addAsyncContent 1 (some [GraphicRequest.image 7 true, GraphicRequest.image 7 true])],
      by decide⟩, by decide, ⟨_, rfl, by decide, by decide⟩, by decide⟩

/-- Claim C29.  The two edge maps mirror each other in every reachable state: a layer occurs
in the list `graphicToLayers` holds for a source if and only if the source occurs in the list
`layerToGraphics` holds for the layer, and no key of either map has an empty list. -/
theorem C29_edge_maps_consistent (cap : Nat) (st : Loader) (hr : Reachable cap st) :
    (∀ l g, l ∈ st.layersOf g ↔ g ∈ st.edges l) ∧
    (∀ l g, (∃ ls, (g, ls) ∈ st.graphicToLayers ∧ l ∈ ls) ↔
      (∃ gs, (l, gs) ∈ st.layerToGraphics ∧ g ∈ gs)) ∧
    (∀ l gs, (l, gs) ∈ st.layerToGraphics → gs ≠ []) ∧
    (∀ g ls, (g, ls) ∈ st.graphicToLayers → ls ≠ []) := by
  have hc := hr.inv.2
  have h1 : ∀ l g, (∃ ls, (g, ls) ∈ st.graphicToLayers ∧ l ∈ ls) ↔ l ∈ st.layersOf g := by
    intro l g
    constructor
    · rintro ⟨ls, hm, hl⟩
      have hf := PtrMap.find_of_mem _ g ls hc.graphicKeys hm
      simpa [layersOf, hf] using hl
    · intro hl
      cases hf : st.graphicToLayers.find g with
      | none => simp [layersOf, hf] at hl
      | some ls => exact ⟨ls, PtrMap.mem_of_find _ g ls hf, by simpa [layersOf, hf] using hl⟩
  have h2 : ∀ l g, (∃ gs, (l, gs) ∈ st.layerToGraphics ∧ g ∈ gs) ↔ g ∈ st.edges l := by
    intro l g
    constructor
    · rintro ⟨gs, hm, hg⟩
      have hf := PtrMap.find_of_mem _ l gs hc.layerKeys hm
      simpa [edges, hf] using hg
    · intro hg
      cases hf : st.layerToGraphics.find l with
      | none => simp [edges, hf] at hg
      | some gs => exact ⟨gs, PtrMap.mem_of_find _ l gs hf, by simpa [edges, hf] using hg⟩
  refine ⟨fun l g => (hc.mirror l g).symm, ?_, ?_, ?_⟩
  · intro l g
    rw [h1, h2]
    exact (hc.mirror l g).symm
  · intro l gs hm hnil
    have hf := PtrMap.find_of_mem _ l gs hc.layerKeys hm
    exact hc.layerNonempty l (hnil ▸ hf)
  · intro g ls hm hnil
    have hf := PtrMap.find_of_mem _ g ls hc.graphicKeys hm
    exact hc.graphicNonempty g (hnil ▸ hf)

theorem C29_edge_maps_consistent_witness :
    (2 ∈ sampleShared.layersOf 7 ↔ 7 ∈ sampleShared.edges 2) ∧
    (∀ l gs, (l, gs) ∈ sampleShared.layerToGraphics → gs ≠ []) :=
  have h := C29_edge_maps_consistent 2 sampleShared
    ⟨[Op.addAsyncContent 1 (some [GraphicRequest.image 7 true, GraphicRequest.shape 8 none]),
      Op.addAsyncContent 2 (some [GraphicRequest.image 7 false]), Op.onDetached], by decide⟩
  ⟨h.1 2 7, h.2.2.1⟩

end Loader

/-! ## Edges and scheduled loads -/

namespace Loader

theorem addDeferredGraphic_scheduled (st : Loader) (g : DeferredGraphic) (h : Scheduled st) :
    Scheduled (st.addDeferredGraphic g) := by
  intro k
  rw [addDeferredGraphic_graphicToLayers, PtrMap.find_assign, addDeferredGraphic_pending_find,
    (addDeferredGraphic_rest st g).2.2.2.2.1]
  by_cases hk : g.getSource = k
  · subst hk
    by_cases hp : st.pendingGraphics.find g.getSource = none
    · by_cases hl : st.loadingTasks.find g.getSource = none
      · simp [hp, hl]
      · simp [hp, hl]
    · simp [hp]
  · simp only [hk, if_false, false_and]
    exact h k

theorem request_scheduled (st : Loader) (r : GraphicRequest) (h : Scheduled st) :
    Scheduled (st.request r).2 := by
  rw [request_snd]
  split_ifs
  · exact addDeferredGraphic_scheduled st r.graphic h
  · exact h

theorem collect_scheduled (c : LayerContent) (st : Loader) (h : Scheduled st) :
    Scheduled (collectDeferredGraphics c st).2 := by
  induction c generalizing st with
  | nil => exact h
  | cons r rs ih =>
    simp only [collectDeferredGraphics]
    exact ih _ (request_scheduled st r h)

theorem addAsyncContent_scheduled (st : Loader) (layer : Nat) (content : Option LayerContent)
    (h : Scheduled st) : Scheduled (st.addAsyncContent layer content).2 := by
  cases content with
  | none => exact h
  | some c =>
    rw [addAsyncContent_snd]
    have h0 : Scheduled { st with currentLayer := layer } := h
    exact collect_scheduled c _ h0

theorem residual_ne_none (layer : Nat) (entry : Option (List Nat))
    (h : residual layer entry ≠ none) : entry ≠ none := by
  intro hn
  rw [hn] at h
  exact h rfl

theorem cancelAsyncContent_scheduled (st st1 : Loader) (layer : Nat) (h : Scheduled st)
    (hcan : st.cancelAsyncContent layer = some st1) : Scheduled st1 := by
  rcases cancelAsyncContent_cases st st1 layer hcan with ⟨hf, rfl⟩ | ⟨gs, st2, hf, hl, rfl⟩
  · exact h
  · intro k
    have e1 := cancelLoop_graphicToLayers layer gs _ st2 hl k
    have e2 := cancelLoop_pendingGraphics layer gs _ st2 hl k
    have e3 := cancelLoop_loadingTasks layer gs _ st2 hl k
    show st2.graphicToLayers.find k ≠ none ↔
      (st2.pendingGraphics.find k ≠ none ∨ st2.loadingTasks.find k ≠ none)
    rw [e1, e2, e3]
    by_cases hm : k ∈ gs
    · by_cases hres : residual layer (st.graphicToLayers.find k) = none
      · simp [hm, hres]
      · simp only [hm, hres, if_true, and_false, if_false, ne_eq, not_false_eq_true, true_iff]
        exact (h k).1 (residual_ne_none layer _ hres)
    · simp only [hm, if_false, false_and]
      exact h k

theorem onAttached_scheduled (st : Loader) (current : Nat) (hc : Core st) (h : Scheduled st) :
    Scheduled (st.onAttached current) := by
  obtain ⟨_, s2, s3, _, _, _⟩ :=
    sweepLoop_spec st.loadingTasks { st with context := current } hc.loadingKeys
      (hc.congr rfl rfl rfl rfl rfl rfl)
  have e2 : ∀ k, (st.sweep current).loadingTasks.find k =
      if finishedIn st.loadingTasks k then none else st.loadingTasks.find k := s2
  have e3 : ∀ k, (st.sweep current).graphicToLayers.find k =
      if finishedIn st.loadingTasks k then none else st.graphicToLayers.find k := s3
  have ep : (st.sweep current).pendingGraphics = st.pendingGraphics :=
    (sweepLoop_frame st.loadingTasks { st with context := current }).2.2.2.2.1
  obtain ⟨_, m2, m3, m4, _⟩ := onAttached_maps st current
  intro k
  rw [m2, m3, m4, ep, e2 k, e3 k]
  by_cases hfin : finishedIn st.loadingTasks k = true
  · have hp : st.pendingGraphics.find k = none := by
      by_contra hp
      exact finishedIn_find _ k hfin (hc.exclusive k hp)
    simp [hfin, hp]
  · simp only [hfin, Bool.false_eq_true, if_false]
    exact h k

theorem detachLoop_pending_fate (q : List Nat) (st : Loader) (k : Nat)
    (h : st.pendingGraphics.find k ≠ none) :
    (detachLoop q st).pendingGraphics.find k ≠ none ∨
      (detachLoop q st).loadingTasks.find k ≠ none := by
  induction q generalizing st with
  | nil => exact Or.inl h
  | cons l q ih =>
    simp only [detachLoop]
    by_cases hlt : st.loadingTasks.length < st.maxAsyncGraphicsPerFrame
    · simp only [hlt, if_true]
      obtain ⟨t1, _, _, a3, a4, a5⟩ := dispatchLayer_tasks { st with pendingLayers := q } l
      have a3b : ∀ g, g ∈ t1 ↔ (g ∈ st.edges l ∧ st.pendingGraphics.find g ≠ none) := a3
      have a4b : (dispatchLayer { st with pendingLayers := q } l).pendingGraphics.find k =
          if k ∈ st.edges l then none else st.pendingGraphics.find k := a4 k
      have a5b : (dispatchLayer { st with pendingLayers := q } l).loadingTasks.find k ≠ none ↔
          (st.loadingTasks.find k ≠ none ∨ k ∈ t1) := a5 k
      obtain ⟨_, _, _, _, _, b5, _⟩ :=
        detachLoop_tasks q (dispatchLayer { st with pendingLayers := q } l)
      by_cases hm : k ∈ st.edges l
      · right
        exact b5 k (a5b.2 (Or.inr ((a3b k).2 ⟨hm, h⟩)))
      · apply ih
        rw [a4b, if_neg hm]
        exact h
    · simp only [hlt, if_false]
      exact Or.inl h

theorem onDetached_scheduled (st : Loader) (h : Scheduled st) : Scheduled st.onDetached := by
  obtain ⟨_, _, _, _, b4, b5, _⟩ :=
    detachLoop_tasks st.pendingLayers { st with context := 0 }
  have hg : (detachLoop st.pendingLayers { st with context := 0 }).graphicToLayers =
      st.graphicToLayers :=
    (detachLoop_frame st.pendingLayers { st with context := 0 }).2.2.2.2.1
  have key : Scheduled (detachLoop st.pendingLayers { st with context := 0 }) := by
    intro k
    rw [hg]
    constructor
    · intro hk
      rcases (h k).1 hk with hp | hl
      · exact detachLoop_pending_fate _ _ k hp
      · exact Or.inr (b5 k hl)
    · rintro (hp | hl)
      · exact (h k).2 (Or.inl (b4 k hp))
      · rcases detachLoop_loading_origin _ _ k hl with h2 | h2
        · exact (h k).2 (Or.inr h2)
        · exact (h k).2 (Or.inl h2)
  rcases onDetached_cases st with h1 | h1
  · rw [h1.2]
    exact key
  · rw [h1.2]
    exact key

theorem retask_scheduled (st : Loader) (g : Nat) (old new : GraphicLoadTask) (h : Scheduled st)
    (hf : st.loadingTasks.find g = some old) :
    Scheduled { st with loadingTasks := st.loadingTasks.assign g new } := by
  intro k
  show st.graphicToLayers.find k ≠ none ↔
    (st.pendingGraphics.find k ≠ none ∨ (st.loadingTasks.assign g new).find k ≠ none)
  rw [PtrMap.find_assign]
  by_cases hk : g = k
  · subst hk
    have := h g
    simp only [hf, ne_eq, not_false_eq_true, or_true, iff_true, reduceCtorEq] at this
    simp [this]
  · simp only [hk, if_false]
    exact h k

theorem step_scheduled (st st1 : Loader) (op : Op) (hi : Inv st) (h : Scheduled st)
    (hs : step st op = some st1) : Scheduled st1 := by
  cases op with
  | addAsyncContent layer content =>
    cases content with
    | none =>
      simp only [step, Option.some.injEq] at hs
      exact hs ▸ h
    | some c =>
      simp only [step] at hs
      split_ifs at hs
      simp only [Option.some.injEq] at hs
      exact hs ▸ addAsyncContent_scheduled st layer (some c) h
  | cancelAsyncContent layer => exact cancelAsyncContent_scheduled st st1 layer h hs
  | loadImage generator tryHardware =>
    simp only [step] at hs
    split_ifs at hs
    simp only [Option.some.injEq] at hs
    rw [loadImage_probe st generator tryHardware hi.1] at hs
    exact hs ▸ h
  | loadShape sh path =>
    simp only [step] at hs
    split_ifs at hs
    simp only [Option.some.injEq] at hs
    rw [loadShape_probe st sh path hi.1] at hs
    exact hs ▸ h
  | onAttached current =>
    simp only [step, Option.some.injEq] at hs
    exact hs ▸ onAttached_scheduled st current hi.2 h
  | onDetached =>
    simp only [step, Option.some.injEq] at hs
    exact hs ▸ onDetached_scheduled st h
  | taskRun g =>
    simp only [step, Option.some.injEq] at hs
    subst hs
    unfold taskRun
    cases hf : st.loadingTasks.find g with
    | none => exact h
    | some task =>
      simp only []
      split_ifs
      · exact retask_scheduled st g task _ h hf
      · exact h
  | taskFinish g b p =>
    simp only [step, Option.some.injEq] at hs
    subst hs
    unfold taskFinish
    cases hf : st.loadingTasks.find g with
    | none => exact h
    | some task =>
      simp only []
      split_ifs
      · exact retask_scheduled st g task _ h hf
      · exact h

theorem run_scheduled (ops : List Op) (st st1 : Loader) (hi : Inv st) (h : Scheduled st)
    (hr : run st ops = some st1) : Scheduled st1 := by
  induction ops generalizing st with
  | nil =>
    simp only [run, Option.some.injEq] at hr
    exact hr ▸ h
  | cons op ops ih =>
    simp only [run] at hr
    cases hs : step st op with
    | none => simp [hs] at hr
    | some st2 =>
      simp only [hs] at hr
      exact ih st2 (step_inv st st2 op hi hs) (step_scheduled st st2 op hi h hs) hr

theorem Reachable.scheduled {cap : Nat} {st : Loader} (h : Reachable cap st) :
    Scheduled st := by
  obtain ⟨ops, hr⟩ := h
  refine run_scheduled ops (init cap) st (init_inv cap) ?_ hr
  intro g
  simp [init, PtrMap.find]

theorem anchored_of (st : Loader) (hc : Core st) (hs : Scheduled st) (g : Nat)
    (hg : g ∈ st.pendingGraphics.keys ∨ g ∈ st.loadingTasks.keys) :
    ∃ ls, st.graphicToLayers.find g = some ls ∧ ls ≠ [] := by
  have hne : st.graphicToLayers.find g ≠ none := by
    apply (hs g).2
    rcases hg with h | h
    · exact Or.inl ((PtrMap.mem_keys_iff _ g).1 h)
    · exact Or.inr ((PtrMap.mem_keys_iff _ g).1 h)
  obtain ⟨ls, hls⟩ := Option.ne_none_iff_exists'.1 hne
  refine ⟨ls, hls, ?_⟩
  intro hnil
  exact hc.graphicNonempty g (hnil ▸ hls)

/-- Claim C21.  No pending or in-flight load is dangling: in every reachable state each key of
`pendingGraphics` or `loadingTasks` has an entry in `graphicToLayers` with a non-empty list
of layers.  The same holds in the state reached by `cancelAsyncContent(node)` followed
immediately by `addAsyncContent(node, content)`, for every content. -/
theorem C21_no_dangling_load (cap : Nat) (st : Loader) (hr : Reachable cap st) :
    (∀ g, g ∈ st.pendingGraphics.keys ∨ g ∈ st.loadingTasks.keys →
      ∃ ls, st.graphicToLayers.find g = some ls ∧ ls ≠ []) ∧
    (∀ node st1 content, st.cancelAsyncContent node = some st1 →
      ∀ g, g ∈ (st1.addAsyncContent node content).2.pendingGraphics.keys ∨
          g ∈ (st1.addAsyncContent node content).2.loadingTasks.keys →
        ∃ ls, (st1.addAsyncContent node content).2.graphicToLayers.find g = some ls ∧
          ls ≠ []) := by
  have hc := hr.inv.2
  have hs := hr.scheduled
  refine ⟨anchored_of st hc hs, ?_⟩
  intro node st1 content hcan
  exact anchored_of _
    (addAsyncContent_core st1 node content (cancelAsyncContent_core st st1 node hc hcan))
    (addAsyncContent_scheduled st1 node content
      (cancelAsyncContent_scheduled st st1 node hs hcan))

theorem C21_no_dangling_load_witness :
    (∃ ls, sampleShared.graphicToLayers.find 8 = some ls ∧ ls ≠ []) ∧
    (∃ st1, sampleShared.cancelAsyncContent 1 = some st1 ∧
      ∃ ls, (st1.addAsyncContent 1
          (some [GraphicRequest.image 7 true, GraphicRequest.shape 8 none])).2.graphicToLayers.find
            8 = some ls ∧ ls ≠ []) :=
  have h := C21_no_dangling_load 2 sampleShared
    ⟨[Op.addAsyncContent 1 (some [GraphicRequest.image 7 true, GraphicRequest.shape 8 none]),
      Op.addAsyncContent 2 (some [GraphicRequest.image 7 false]), Op.onDetached], by decide⟩
  ⟨h.1 8 (Or.inr (by decide)),
    ⟨_, rfl, h.2 1 _ (some [GraphicRequest.image 7 true, GraphicRequest.shape 8 none]) rfl 8
      (Or.inl (by decide))⟩⟩

end Loader

/-! ## Registering a layer again after a cancellation -/

namespace Loader

theorem cancelAsyncContent_completeGraphics (st st1 : Loader) (layer : Nat)
    (h : st.cancelAsyncContent layer = some st1) :
    st1.completeGraphics = st.completeGraphics := by
  rcases cancelAsyncContent_cases st st1 layer h with ⟨hf, rfl⟩ | ⟨gs, st2, hf, hl, rfl⟩
  · rfl
  · exact (cancelLoop_frame layer gs _ st2 hl).2.2.2.2.2.2.1

theorem edge_source_uncached (st : Loader) (hc : Core st) (hs : Scheduled st)
    (hu : Uncached st) (node s : Nat) (h : s ∈ st.edges node) :
    st.completeGraphics.find s = none := by
  have hin : node ∈ st.layersOf s := (hc.mirror node s).1 h
  have hne : st.graphicToLayers.find s ≠ none := by
    intro hn
    simp [layersOf, hn] at hin
  by_contra hcached
  obtain ⟨p, l⟩ := hu s hcached
  rcases (hs s).1 hne with h1 | h1
  · exact h1 p
  · exact h1 l

theorem addAsyncContent_counts (st : Loader) (layer : Nat) (c : LayerContent) (s : Nat)
    (hc : Core st) (hl : layer ≠ 0) (hedge : st.edges layer = [])
    (hs : st.completeGraphics.find s = none) :
    ((st.addAsyncContent layer (some c)).2.edges layer).count s =
      (c.map GraphicRequest.source).count s ∧
    ((st.addAsyncContent layer (some c)).2.layersOf s).count layer =
      (c.map GraphicRequest.source).count s := by
  have hnot : layer ∉ st.layersOf s := by
    rw [← hc.mirror layer s, hedge]
    exact List.not_mem_nil s
  constructor
  · rw [addAsyncContent_edges]
    simp only [hl, ne_eq, not_false_eq_true, and_self, if_true, hedge, List.nil_append]
    rw [count_misses, if_pos hs]
  · rw [addAsyncContent_layersOf, if_pos hl, List.count_append,
      List.count_eq_zero_of_not_mem hnot, List.count_replicate_self, count_misses, if_pos hs]
    omega

/-- Cancel and add again while no source has finished.  On a reachable loader let the
non-null layer `node` be registered with the
pairwise distinct sources `gs`, and let `content` request exactly these sources, each once.
Then `cancelAsyncContent(node)` returns, and after the `addAsyncContent(node, content)` that
follows it every source of `gs` occurs exactly once in `layerToGraphics[node]` and `node`
occurs exactly once in the list `graphicToLayers` holds for that source. -/
theorem cancelAsyncContent_then_add (cap : Nat) (st : Loader) (node : Nat) (gs : List Nat)
    (c : LayerContent) (hr : Reachable cap st) (hnode : node ≠ 0)
    (hreg : st.layerToGraphics.find node = some gs) (hdist : gs.Nodup)
    (hsame : (c.map GraphicRequest.source).Perm gs) :
    ∃ st1, st.cancelAsyncContent node = some st1 ∧
      ∀ s ∈ gs,
        ((st1.addAsyncContent node (some c)).2.edges node).count s = 1 ∧
        ((st1.addAsyncContent node (some c)).2.layersOf s).count node = 1 := by
  have hc := hr.inv.2
  obtain ⟨st1, h1⟩ := cancelAsyncContent_isSome cap st node gs hr hreg
    (fun s hs => Or.inl (List.count_eq_one_of_mem hdist hs))
  refine ⟨st1, h1, ?_⟩
  intro s hs
  have hc1 := cancelAsyncContent_core st st1 node hc h1
  have hedge : st1.edges node = [] := by
    rw [cancelAsyncContent_edges st st1 node h1 node]
    simp
  have hunc : st1.completeGraphics.find s = none := by
    rw [cancelAsyncContent_completeGraphics st st1 node h1]
    apply edge_source_uncached st hc hr.scheduled hr.uncached node s
    simpa [edges, hreg] using hs
  obtain ⟨k1, k2⟩ := addAsyncContent_counts st1 node c s hc1 hnode hedge hunc
  have hcount : (c.map GraphicRequest.source).count s = 1 := by
    rw [hsame.count_eq s]
    exact List.count_eq_one_of_mem hdist hs
  exact ⟨k1.trans hcount, k2.trans hcount⟩

theorem cancelAsyncContent_then_add_sample :
    ∃ st1, sampleShared.cancelAsyncContent 1 = some st1 ∧
      ∀ s ∈ [7, 8],
        ((st1.addAsyncContent 1
          (some [GraphicRequest.shape 8 none, GraphicRequest.image 7 true])).2.edges 1).count s
            = 1 ∧
        ((st1.addAsyncContent 1
          (some [GraphicRequest.shape 8 none, GraphicRequest.image 7 true])).2.layersOf s).count
            1 = 1 :=
  cancelAsyncContent_then_add 2 sampleShared 1 [7, 8]
    [GraphicRequest.shape 8 none, GraphicRequest.image 7 true]
    ⟨[Op.addAsyncContent 1 (some [GraphicRequest.image 7 true, GraphicRequest.shape 8 none]),
      Op.addAsyncContent 2 (some [GraphicRequest.image 7 false]), Op.onDetached], by decide⟩
    (by decide) (by decide) (by decide) (by decide)

theorem run_append (a b : List Op) (st : Loader) :
    run st (a ++ b) = (run st a).bind (fun st1 => run st1 b) := by
  induction a generalizing st with
  | nil => rfl
  | cons op a ih =>
    simp only [List.cons_append, run]
    cases step st op with
    | none => rfl
    | some st1 => exact ih st1

theorem Reachable.run {cap : Nat} {st st1 : Loader} (h : Reachable cap st) (ops : List Op)
    (hr : Loader.run st ops = some st1) : Reachable cap st1 := by
  obtain ⟨pre, hpre⟩ := h
  refine ⟨pre ++ ops, ?_⟩
  rw [run_append, hpre]
  exact hr

theorem misses_nodup (st : Loader) (c : LayerContent)
    (h : (c.map GraphicRequest.source).Nodup) : (misses st c).Nodup := by
  unfold misses
  exact List.Nodup.sublist ((List.filter_sublist c).map GraphicRequest.source) h

theorem step_edges_sublist (st st1 : Loader) (op : Op) (node : Nat) (hi : Inv st)
    (hop : op.registers node = false) (hs : step st op = some st1) :
    (st1.edges node).Sublist (st.edges node) := by
  have same : ∀ {x : Loader}, x = st → (x.edges node).Sublist (st.edges node) := by
    intro x hx
    rw [hx]
  cases op with
  | addAsyncContent layer content =>
    cases content with
    | none =>
      simp only [step, Option.some.injEq] at hs
      exact same hs.symm
    | some c =>
      simp only [step] at hs
      split_ifs at hs
      simp only [Option.some.injEq] at hs
      subst hs
      have hne : layer ≠ node := by simpa [Op.registers] using hop
      rw [addAsyncContent_edges]
      simp only [hne, false_and, if_false]
      exact List.Sublist.refl _
  | cancelAsyncContent layer =>
    rw [cancelAsyncContent_edges st st1 layer hs node]
    split_ifs
    · exact List.nil_sublist _
    · exact List.Sublist.refl _
  | loadImage generator tryHardware =>
    simp only [step] at hs
    split_ifs at hs
    simp only [Option.some.injEq] at hs
    rw [loadImage_probe st generator tryHardware hi.1] at hs
    exact same hs.symm
  | loadShape sh path =>
    simp only [step] at hs
    split_ifs at hs
    simp only [Option.some.injEq] at hs
    rw [loadShape_probe st sh path hi.1] at hs
    exact same hs.symm
  | onAttached current =>
    simp only [step, Option.some.injEq] at hs
    subst hs
    obtain ⟨_, _, _, s4, _, _⟩ :=
      sweepLoop_spec st.loadingTasks { st with context := current } hi.2.loadingKeys
        (hi.2.congr rfl rfl rfl rfl rfl rfl)
    have e4 : (st.sweep current).edges node =
        (st.edges node).filter (fun x => !finishedIn st.loadingTasks x) := s4 node
    rw [onAttached_edges, e4]
    exact List.filter_sublist _
  | onDetached =>
    simp only [step, Option.some.injEq] at hs
    subst hs
    have f4 := (detachLoop_frame st.pendingLayers { st with context := 0 }).2.2.2.1
    have key : st.onDetached.edges node = st.edges node := by
      rcases onDetached_cases st with h1 | h1
      · rw [h1.2]
        unfold edges
        simp only []
        rw [f4]
      · rw [h1.2]
        unfold edges
        rw [f4]
    rw [key]
  | taskRun g =>
    simp only [step, Option.some.injEq] at hs
    subst hs
    unfold taskRun
    cases hg : st.loadingTasks.find g with
    | none => exact same rfl
    | some task =>
      simp only []
      split_ifs
      · exact List.Sublist.refl _
      · exact same rfl
  | taskFinish g b p =>
    simp only [step, Option.some.injEq] at hs
    subst hs
    unfold taskFinish
    cases hg : st.loadingTasks.find g with
    | none => exact same rfl
    | some task =>
      simp only []
      split_ifs
      · exact List.Sublist.refl _
      · exact same rfl

theorem run_edges_sublist (ops : List Op) (st st1 : Loader) (node : Nat) (hi : Inv st)
    (hops : ∀ op ∈ ops, op.registers node = false) (hr : run st ops = some st1) :
    (st1.edges node).Sublist (st.edges node) := by
  induction ops generalizing st with
  | nil =>
    simp only [run, Option.some.injEq] at hr
    subst hr
    exact List.Sublist.refl _
  | cons op ops ih =>
    simp only [run] at hr
    cases hs : step st op with
    | none => simp [hs] at hr
    | some st2 =>
      simp only [hs] at hr
      have h1 := step_edges_sublist st st2 op node hi
        (hops op (List.mem_cons_self op ops)) hs
      have h2 := ih st2 (step_inv st st2 op hi hs)
        (fun o ho => hops o (List.mem_cons_of_mem op ho)) hr
      exact h2.trans h1

theorem addAsyncContent_counts_cached (st : Loader) (layer : Nat) (c : LayerContent) (s : Nat)
    (hc : Core st) (hl : layer ≠ 0) (hedge : st.edges layer = [])
    (hs : st.completeGraphics.find s ≠ none) :
    ((st.addAsyncContent layer (some c)).2.edges layer).count s = 0 ∧
    ((st.addAsyncContent layer (some c)).2.layersOf s).count layer = 0 := by
  have hnot : layer ∉ st.layersOf s := by
    rw [← hc.mirror layer s, hedge]
    exact List.not_mem_nil s
  constructor
  · rw [addAsyncContent_edges]
    simp only [hl, ne_eq, not_false_eq_true, and_self, if_true, hedge, List.nil_append]
    rw [count_misses, if_neg hs]
  · rw [addAsyncContent_layersOf, if_pos hl, List.count_append,
      List.count_eq_zero_of_not_mem hnot, List.count_replicate_self, count_misses, if_neg hs]

/-- Claim C22, counterexample.  Under cap 2 layer 1 registers a content requesting the image
source 7 and the shape source 8, layer 2 registers 7, `onDetached` starts both loads, the
load of 8 finishes and `onAttached` moves 8 into the completed cache.  Then
`cancelAsyncContent(1)` followed immediately by `addAsyncContent(1, content)` with the same
two sources: the request for 8 is a cache hit and registers nothing, so 8 does not occur in
`layerToGraphics[1]`, which is `[7]`, and layer 1 does not occur in the list of 8. -/
theorem C22_counterexample :
    run (init 2)
      [Op.addAsyncContent 1 (some [GraphicRequest.image 7 true, GraphicRequest.shape 8 none]),
        Op.addAsyncContent 2 (some [GraphicRequest.image 7 false]), Op.onDetached,
        Op.taskFinish 8 none 44, Op.onAttached 5] = some sampleCached ∧
    ∃ st1, sampleCached.cancelAsyncContent 1 = some st1 ∧
      (st1.addAsyncContent 1
        (some [GraphicRequest.image 7 true, GraphicRequest.shape 8 none])).2.edges 1 = [7] ∧
      ((st1.addAsyncContent 1
        (some [GraphicRequest.image 7 true, GraphicRequest.shape 8 none])).2.edges 1).count 8
          ≠ 1 ∧
      ((st1.addAsyncContent 1
        (some [GraphicRequest.image 7 true, GraphicRequest.shape 8 none])).2.layersOf 8).count 1
          ≠ 1 :=
  ⟨by decide, _, rfl, by decide, by decide, by decide⟩

/-- Claim C22, amended.  Let a content with pairwise distinct sources be registered for a
layer by `addAsyncContent` on a reachable loader, and let any calls follow that do not
register the layer again.  Then `cancelAsyncContent(node)` returns, and after the
`addAsyncContent(node, content)` that follows it immediately, with a content requesting the
same sources, no edge is registered twice: each of those sources that is not in the
completed cache occurs exactly once in `layerToGraphics[node]` and `node` occurs exactly once
in the list `graphicToLayers` holds for it, and each of those sources that is in the
completed cache occurs in neither. -/
theorem C22_cancel_then_add (cap : Nat) (st0 st : Loader) (node : Nat) (c d : LayerContent)
    (ops : List Op) (hr : Reachable cap st0)
    (hdist : (c.map GraphicRequest.source).Nodup)
    (hsame : (d.map GraphicRequest.source).Perm (c.map GraphicRequest.source))
    (hops : ∀ op ∈ ops, op.registers node = false)
    (hrun : run st0 (Op.addAsyncContent node (some c) :: ops) = some st) :
    ∃ st1, st.cancelAsyncContent node = some st1 ∧
      ∀ s ∈ c.map GraphicRequest.source,
        (st.completeGraphics.find s = none →
          ((st1.addAsyncContent node (some d)).2.edges node).count s = 1 ∧
          ((st1.addAsyncContent node (some d)).2.layersOf s).count node = 1) ∧
        (st.completeGraphics.find s ≠ none →
          ((st1.addAsyncContent node (some d)).2.edges node).count s = 0 ∧
          ((st1.addAsyncContent node (some d)).2.layersOf s).count node = 0) := by
  have hrst : Reachable cap st := hr.run _ hrun
  simp only [run] at hrun
  cases hs : step st0 (Op.addAsyncContent node (some c)) with
  | none => simp [hs] at hrun
  | some sa =>
    simp only [hs] at hrun
    have hia : Inv sa := step_inv st0 sa _ hr.inv hs
    simp only [step] at hs
    split_ifs at hs with hpre
    simp only [Option.some.injEq] at hs
    subst hs
    obtain ⟨hnode, hfresh, _⟩ := hpre
    have hstart : (st0.addAsyncContent node (some c)).2.edges node = misses st0 c := by
      rw [addAsyncContent_edges]
      simp [hnode, edges, hfresh]
    have hnd : (st.edges node).Nodup := by
      apply List.Nodup.sublist (run_edges_sublist ops _ st node hia hops hrun)
      rw [hstart]
      exact misses_nodup st0 c hdist
    have hret : ∃ st1, st.cancelAsyncContent node = some st1 := by
      cases hf : st.layerToGraphics.find node with
      | none =>
        unfold cancelAsyncContent
        simp only [hf]
        exact ⟨_, rfl⟩
      | some gs =>
        have hgs : st.edges node = gs := by simp [edges, hf]
        rw [hgs] at hnd
        exact cancelAsyncContent_isSome cap st node gs hrst hf
          (fun s hs => Or.inl (List.count_eq_one_of_mem hnd hs))
    obtain ⟨st1, h1⟩ := hret
    refine ⟨st1, h1, ?_⟩
    intro s hs
    have hc1 := cancelAsyncContent_core st st1 node hrst.inv.2 h1
    have hedge : st1.edges node = [] := by
      rw [cancelAsyncContent_edges st st1 node h1 node]
      simp
    have hcache := cancelAsyncContent_completeGraphics st st1 node h1
    constructor
    · intro hmiss
      obtain ⟨k1, k2⟩ := addAsyncContent_counts st1 node d s hc1 hnode hedge
        (by rw [hcache]; exact hmiss)
      have hcount : (d.map GraphicRequest.source).count s = 1 := by
        rw [hsame.count_eq s]
        exact List.count_eq_one_of_mem hdist hs
      exact ⟨k1.trans hcount, k2.trans hcount⟩
    · intro hhit
      exact addAsyncContent_counts_cached st1 node d s hc1 hnode hedge
        (by rw [hcache]; exact hhit)

theorem C22_cancel_then_add_witness :
    (sampleCached.completeGraphics.find 7 = none ∧
      sampleCached.completeGraphics.find 8 ≠ none) ∧
    ∃ st1, sampleCached.cancelAsyncContent 1 = some st1 ∧
      ∀ s ∈ [7, 8],
        (sampleCached.completeGraphics.find s = none →
          ((st1.addAsyncContent 1
            (some [GraphicRequest.shape 8 none, GraphicRequest.image 7 false])).2.edges 1).count s
              = 1 ∧
          ((st1.addAsyncContent 1
            (some [GraphicRequest.shape 8 none, GraphicRequest.image 7 false])).2.layersOf
              s).count 1 = 1) ∧
        (sampleCached.completeGraphics.find s ≠ none →
          ((st1.addAsyncContent 1
            (some [GraphicRequest.shape 8 none, GraphicRequest.image 7 false])).2.edges 1).count s
              = 0 ∧
          ((st1.addAsyncContent 1
            (some [GraphicRequest.shape 8 none, GraphicRequest.image 7 false])).2.layersOf
              s).count 1 = 0) :=
  ⟨⟨by decide, by decide⟩,
    C22_cancel_then_add 2 (init 2) sampleCached 1
      [GraphicRequest.image 7 true, GraphicRequest.shape 8 none]
      [GraphicRequest.shape 8 none, GraphicRequest.image 7 false]
      [Op.addAsyncContent 2 (some [GraphicRequest.image 7 false]), Op.onDetached,
        Op.taskFinish 8 none 44, Op.onAttached 5]
      ⟨[], rfl⟩ (by decide) (by decide) (by decide) (by decide)⟩

end Loader

/-! ## After the last reference to a source is canceled -/

namespace Loader

theorem request_pending_other (st : Loader) (r : GraphicRequest) (s : Nat)
    (h : r.source ≠ s) :
    (st.request r).2.pendingGraphics.find s = st.pendingGraphics.find s := by
  rw [request_snd]
  split_ifs
  · rw [addDeferredGraphic_pending_find, graphic_getSource]
    simp [h]
  · rfl

theorem collect_pending_other (c : LayerContent) (st : Loader) (s : Nat)
    (h : ∀ r ∈ c, r.source ≠ s) :
    (collectDeferredGraphics c st).2.pendingGraphics.find s = st.pendingGraphics.find s := by
  induction c generalizing st with
  | nil => rfl
  | cons r rs ih =>
    simp only [collectDeferredGraphics]
    rw [ih _ (fun x hx => h x (List.mem_cons_of_mem r hx)),
      request_pending_other st r s (h r (List.mem_cons_self r rs))]

theorem addAsyncContent_forgotten (st : Loader) (layer : Nat) (c : LayerContent) (s : Nat)
    (hf : Forgotten s st) (h : s ∉ c.map GraphicRequest.source) :
    Forgotten s (st.addAsyncContent layer (some c)).2 := by
  obtain ⟨_, f2, _, f4, _⟩ := addAsyncContent_frame st layer (some c)
  refine ⟨?_, by rw [f2]; exact hf.2.1, by rw [f4]; exact hf.2.2⟩
  rw [addAsyncContent_snd]
  have hne : ∀ r ∈ c, r.source ≠ s := by
    intro r hr he
    exact h (List.mem_map.2 ⟨r, hr, he⟩)
  have := collect_pending_other c { st with currentLayer := layer } s hne
  exact this.trans hf.1

theorem cancelAsyncContent_forgotten (st st1 : Loader) (layer s : Nat) (hf : Forgotten s st)
    (hcan : st.cancelAsyncContent layer = some st1) : Forgotten s st1 := by
  rcases cancelAsyncContent_cases st st1 layer hcan with ⟨_, rfl⟩ | ⟨gs, st2, _, hl, rfl⟩
  · exact hf
  · have e2 := cancelLoop_pendingGraphics layer gs _ st2 hl s
    have e3 := cancelLoop_loadingTasks layer gs _ st2 hl s
    have f7 := (cancelLoop_frame layer gs _ st2 hl).2.2.2.2.2.2.1
    refine ⟨?_, ?_, ?_⟩
    · show st2.pendingGraphics.find s = none
      rw [e2]
      split_ifs
      · rfl
      · exact hf.1
    · show st2.loadingTasks.find s = none
      rw [e3]
      split_ifs
      · rfl
      · exact hf.2.1
    · show st2.completeGraphics.find s = none
      rw [f7]
      exact hf.2.2

theorem finishedIn_of_none (ts : PtrMap GraphicLoadTask) (s : Nat)
    (h : PtrMap.find ts s = none) : finishedIn ts s = false := by
  simp [finishedIn, h]

theorem onAttached_forgotten (st : Loader) (current s : Nat) (hc : Core st)
    (hf : Forgotten s st) : Forgotten s (st.onAttached current) := by
  obtain ⟨_, s2, _, _, s5, _⟩ :=
    sweepLoop_spec st.loadingTasks { st with context := current } hc.loadingKeys
      (hc.congr rfl rfl rfl rfl rfl rfl)
  have e2 : (st.sweep current).loadingTasks.find s =
      if finishedIn st.loadingTasks s then none else st.loadingTasks.find s := s2 s
  have e5 : (st.sweep current).completeGraphics.find s =
      if finishedIn st.loadingTasks s then (PtrMap.find st.loadingTasks s).map (fun t => t.graphic)
      else st.completeGraphics.find s := s5 s
  have ep : (st.sweep current).pendingGraphics = st.pendingGraphics :=
    (sweepLoop_frame st.loadingTasks { st with context := current }).2.2.2.2.1
  obtain ⟨_, _, m3, m4, m5⟩ := onAttached_maps st current
  have hfin := finishedIn_of_none st.loadingTasks s hf.2.1
  refine ⟨?_, ?_, ?_⟩
  · rw [m3, ep]
    exact hf.1
  · rw [m4, e2, hfin]
    exact hf.2.1
  · rw [m5, e5, hfin]
    exact hf.2.2

theorem onDetached_forgotten (st : Loader) (s : Nat) (hf : Forgotten s st) :
    Forgotten s st.onDetached := by
  obtain ⟨_, _, _, _, b4, _, _⟩ :=
    detachLoop_tasks st.pendingLayers { st with context := 0 }
  have hcg : (detachLoop st.pendingLayers { st with context := 0 }).completeGraphics =
      st.completeGraphics :=
    (detachLoop_frame st.pendingLayers { st with context := 0 }).2.2.2.2.2.2.1
  have hp : (detachLoop st.pendingLayers { st with context := 0 }).pendingGraphics.find s =
      none := by
    by_contra hne
    exact b4 s hne hf.1
  have hl : (detachLoop st.pendingLayers { st with context := 0 }).loadingTasks.find s =
      none := by
    by_contra hne
    rcases detachLoop_loading_origin _ _ s hne with h2 | h2
    · exact h2 hf.2.1
    · exact h2 hf.1
  rcases onDetached_cases st with h1 | h1
  · rw [h1.2]
    exact ⟨hp, hl, rfl⟩
  · rw [h1.2]
    exact ⟨hp, hl, by rw [hcg]; exact hf.2.2⟩

theorem retask_forgotten (st : Loader) (g s : Nat) (old new : GraphicLoadTask)
    (hf : Forgotten s st) (hg : st.loadingTasks.find g = some old) :
    Forgotten s { st with loadingTasks := st.loadingTasks.assign g new } := by
  refine ⟨hf.1, ?_, hf.2.2⟩
  show (st.loadingTasks.assign g new).find s = none
  rw [PtrMap.find_assign]
  have hne : g ≠ s := by
    intro he
    rw [he, hf.2.1] at hg
    exact absurd hg (by simp)
  simp only [hne, if_false]
  exact hf.2.1

theorem step_forgotten (st st1 : Loader) (op : Op) (s : Nat) (hi : Inv st)
    (hf : Forgotten s st) (hop : op.requestsSource s = false)
    (hs : step st op = some st1) : Forgotten s st1 := by
  cases op with
  | addAsyncContent layer content =>
    cases content with
    | none =>
      simp only [step, Option.some.injEq] at hs
      exact hs ▸ hf
    | some c =>
      simp only [step] at hs
      split_ifs at hs
      simp only [Option.some.injEq] at hs
      have hnot : s ∉ c.map GraphicRequest.source := by
        simpa [Op.requestsSource] using hop
      exact hs ▸ addAsyncContent_forgotten st layer c s hf hnot
  | cancelAsyncContent layer => exact cancelAsyncContent_forgotten st st1 layer s hf hs
  | loadImage generator tryHardware =>
    simp only [step] at hs
    split_ifs at hs
    simp only [Option.some.injEq] at hs
    rw [loadImage_probe st generator tryHardware hi.1] at hs
    exact hs ▸ hf
  | loadShape sh path =>
    simp only [step] at hs
    split_ifs at hs
    simp only [Option.some.injEq] at hs
    rw [loadShape_probe st sh path hi.1] at hs
    exact hs ▸ hf
  | onAttached current =>
    simp only [step, Option.some.injEq] at hs
    exact hs ▸ onAttached_forgotten st current s hi.2 hf
  | onDetached =>
    simp only [step, Option.some.injEq] at hs
    exact hs ▸ onDetached_forgotten st s hf
  | taskRun g =>
    simp only [step, Option.some.injEq] at hs
    subst hs
    unfold taskRun
    cases hg : st.loadingTasks.find g with
    | none => exact hf
    | some task =>
      simp only []
      split_ifs
      · exact retask_forgotten st g s task _ hf hg
      · exact hf
  | taskFinish g b p =>
    simp only [step, Option.some.injEq] at hs
    subst hs
    unfold taskFinish
    cases hg : st.loadingTasks.find g with
    | none => exact hf
    | some task =>
      simp only []
      split_ifs
      · exact retask_forgotten st g s task _ hf hg
      · exact hf

theorem run_forgotten (ops : List Op) (st st1 : Loader) (s : Nat) (hi : Inv st)
    (hf : Forgotten s st) (hops : ∀ op ∈ ops, op.requestsSource s = false)
    (hr : run st ops = some st1) : Inv st1 ∧ Forgotten s st1 := by
  induction ops generalizing st with
  | nil =>
    simp only [run, Option.some.injEq] at hr
    exact hr ▸ ⟨hi, hf⟩
  | cons op ops ih =>
    simp only [run] at hr
    cases hs : step st op with
    | none => simp [hs] at hr
    | some st2 =>
      simp only [hs] at hr
      exact ih st2 (step_inv st st2 op hi hs)
        (step_forgotten st st2 op s hi hf (hops op (List.mem_cons_self op ops)) hs)
        (fun o ho => hops o (List.mem_cons_of_mem op ho)) hr

/-- Claim C23.  The result of a canceled load is never consulted.  On a reachable loader let
`cancelAsyncContent(node)` return, for a source `s` of the node that no other layer
references.  Then `s` is no key of `loadingTasks` afterwards, and this stays so through
every later sequence of calls in which no `addAsyncContent` requests `s`, whatever progress
the worker reports for `s`: after such a sequence `s` is neither in flight nor cached, and an
`onAttached` that follows does not put `s` into `completeGraphics`. -/
theorem C23_canceled_result_unused (cap : Nat) (st st1 : Loader) (node s : Nat)
    (hr : Reachable cap st) (hcancel : st.cancelAsyncContent node = some st1)
    (hedge : s ∈ st.edges node) (hsole : ∀ l ∈ st.layersOf s, l = node) :
    s ∉ st1.loadingTasks.keys ∧
    ∀ ops st2, (∀ op ∈ ops, op.requestsSource s = false) → run st1 ops = some st2 →
      s ∉ st2.loadingTasks.keys ∧ s ∉ st2.completeGraphics.keys ∧
      ∀ current, s ∉ (st2.onAttached current).completeGraphics.keys := by
  have hc := hr.inv.2
  have hi1 := cancelAsyncContent_inv st st1 node hr.inv hcancel
  have hf1 : Forgotten s st1 := by
    have hres := residual_eq_none_of_sole st node s hsole
    have hunc := edge_source_uncached st hc hr.scheduled hr.uncached node s hedge
    rcases cancelAsyncContent_cases st st1 node hcancel with ⟨hf, _⟩ | ⟨gs, st2, hf, hl, rfl⟩
    · simp [edges, hf] at hedge
    · have hs : s ∈ gs := by simpa [edges, hf] using hedge
      have e2 := cancelLoop_pendingGraphics node gs _ st2 hl s
      have e3 := cancelLoop_loadingTasks node gs _ st2 hl s
      have f7 := (cancelLoop_frame node gs _ st2 hl).2.2.2.2.2.2.1
      simp only [hs, true_and] at e2 e3
      refine ⟨?_, ?_, ?_⟩
      · show st2.pendingGraphics.find s = none
        rw [e2, if_pos hres]
      · show st2.loadingTasks.find s = none
        rw [e3, if_pos hres]
      · show st2.completeGraphics.find s = none
        rw [f7]
        exact hunc
  refine ⟨(PtrMap.not_mem_keys_iff _ s).2 hf1.2.1, ?_⟩
  intro ops st2 hops hrun
  obtain ⟨hi2, hf2⟩ := run_forgotten ops st1 st2 s hi1 hf1 hops hrun
  refine ⟨(PtrMap.not_mem_keys_iff _ s).2 hf2.2.1, (PtrMap.not_mem_keys_iff _ s).2 hf2.2.2, ?_⟩
  intro current
  exact (PtrMap.not_mem_keys_iff _ s).2 (onAttached_forgotten st2 current s hi2.2 hf2).2.2

theorem C23_canceled_result_unused_witness :
    ∃ st1, sampleShared.cancelAsyncContent 1 = some st1 ∧ 8 ∉ st1.loadingTasks.keys ∧
      ∀ st2, run st1 [Op.taskFinish 8 none 44, Op.onAttached 5,
          Op.addAsyncContent 3 (some [GraphicRequest.image 9 true]), Op.onDetached] = some st2 →
        8 ∉ st2.completeGraphics.keys :=
  have h := C23_canceled_result_unused 2 sampleShared _ 1 8
    ⟨[Op.addAsyncContent 1 (some [GraphicRequest.image 7 true, GraphicRequest.shape 8 none]),
      Op.addAsyncContent 2 (some [GraphicRequest.image 7 false]), Op.onDetached], by decide⟩
    rfl (by decide) (by decide)
  ⟨_, rfl, h.1, fun st2 hrun => (h.2 _ st2 (by decide) hrun).2.1⟩

end Loader

/-! ## Notifications after a cancellation -/

namespace Loader

theorem cancelAsyncContent_invalidated (st st1 : Loader) (layer : Nat)
    (h : st.cancelAsyncContent layer = some st1) : st1.invalidated = st.invalidated := by
  rcases cancelAsyncContent_cases st st1 layer h with ⟨_, rfl⟩ | ⟨gs, st2, _, hl, rfl⟩
  · rfl
  · exact (cancelLoop_frame layer gs _ st2 hl).2.2.2.2.2.2.2.2

theorem cancelAsyncContent_untracked (st st1 : Loader) (node : Nat)
    (h : st.cancelAsyncContent node = some st1) : Untracked node st1 := by
  constructor
  · rw [cancelAsyncContent_completeLayers st st1 node h, mem_removeAll]
    exact fun hx => hx.2 rfl
  · rw [cancelAsyncContent_edges st st1 node h node]
    simp

theorem onAttached_untracked (st : Loader) (current node : Nat) (hc : Core st)
    (hu : Untracked node st) :
    Untracked node (st.onAttached current) ∧
    ∃ calls, (st.onAttached current).invalidated = st.invalidated ++ calls ∧
      node ∉ calls := by
  obtain ⟨_, _, _, s4, _, s6⟩ :=
    sweepLoop_spec st.loadingTasks { st with context := current } hc.loadingKeys
      (hc.congr rfl rfl rfl rfl rfl rfl)
  have e4 : (st.sweep current).edges node =
      (st.edges node).filter (fun x => !finishedIn st.loadingTasks x) := s4 node
  have e6 : node ∈ (st.sweep current).completeLayers ↔
      (node ∈ st.completeLayers ∨
        (st.edges node ≠ [] ∧ (st.sweep current).edges node = [])) := s6 node
  have hedge : (st.sweep current).edges node = [] := by
    rw [e4, hu.2]
    rfl
  have hnot : node ∉ (st.sweep current).completeLayers := by
    intro hin
    rcases e6.1 hin with h | h
    · exact hu.1 h
    · exact h.1 hu.2
  rcases onAttached_cases st current with h | h
  · rw [h.2.2]
    exact ⟨⟨hnot, hedge⟩, [], by rw [sweep_invalidated]; simp, List.not_mem_nil node⟩
  · refine ⟨⟨?_, ?_⟩, (st.sweep current).completeLayers, ?_, hnot⟩
    · rw [h.2]
      exact List.not_mem_nil node
    · rw [onAttached_edges]
      exact hedge
    · rw [h.2]
      simp only []
      rw [sweep_invalidated]

theorem onDetached_untracked (st : Loader) (node : Nat) (hu : Untracked node st) :
    Untracked node st.onDetached ∧ st.onDetached.invalidated = st.invalidated := by
  obtain ⟨_, _, _, f4, _, f6, _, _, f9⟩ :=
    detachLoop_frame st.pendingLayers { st with context := 0 }
  have key : Untracked node (detachLoop st.pendingLayers { st with context := 0 }) := by
    constructor
    · rw [f6]
      exact hu.1
    · unfold edges
      rw [f4]
      exact hu.2
  rcases onDetached_cases st with h1 | h1
  · rw [h1.2]
    exact ⟨key, f9⟩
  · rw [h1.2]
    exact ⟨key, f9⟩

theorem step_untracked (st st1 : Loader) (op : Op) (node : Nat) (hi : Inv st)
    (hu : Untracked node st) (hop : op.registers node = false)
    (hs : step st op = some st1) :
    Untracked node st1 ∧
    ∃ calls, st1.invalidated = st.invalidated ++ calls ∧ node ∉ calls := by
  have same : ∀ {x : Loader}, x = st → Untracked node x ∧
      ∃ calls, x.invalidated = st.invalidated ++ calls ∧ node ∉ calls := by
    intro x hx
    rw [hx]
    exact ⟨hu, [], by simp, List.not_mem_nil node⟩
  cases op with
  | addAsyncContent layer content =>
    cases content with
    | none =>
      simp only [step, Option.some.injEq] at hs
      exact same hs.symm
    | some c =>
      simp only [step] at hs
      split_ifs at hs
      simp only [Option.some.injEq] at hs
      subst hs
      have hne : layer ≠ node := by simpa [Op.registers] using hop
      obtain ⟨_, _, f3, _, _, _, f7⟩ := addAsyncContent_frame st layer (some c)
      refine ⟨⟨by rw [f3]; exact hu.1, ?_⟩, [], by rw [f7]; simp, List.not_mem_nil node⟩
      rw [addAsyncContent_edges]
      simp only [hne, false_and, if_false]
      exact hu.2
  | cancelAsyncContent layer =>
    refine ⟨⟨?_, ?_⟩, [], ?_, List.not_mem_nil node⟩
    · rw [cancelAsyncContent_completeLayers st st1 layer hs, mem_removeAll]
      exact fun hx => hu.1 hx.1
    · rw [cancelAsyncContent_edges st st1 layer hs node]
      split_ifs
      · rfl
      · exact hu.2
    · rw [cancelAsyncContent_invalidated st st1 layer hs]
      simp
  | loadImage generator tryHardware =>
    simp only [step] at hs
    split_ifs at hs
    simp only [Option.some.injEq] at hs
    rw [loadImage_probe st generator tryHardware hi.1] at hs
    exact same hs.symm
  | loadShape sh path =>
    simp only [step] at hs
    split_ifs at hs
    simp only [Option.some.injEq] at hs
    rw [loadShape_probe st sh path hi.1] at hs
    exact same hs.symm
  | onAttached current =>
    simp only [step, Option.some.injEq] at hs
    subst hs
    exact onAttached_untracked st current node hi.2 hu
  | onDetached =>
    simp only [step, Option.some.injEq] at hs
    subst hs
    obtain ⟨k1, k2⟩ := onDetached_untracked st node hu
    exact ⟨k1, [], by rw [k2]; simp, List.not_mem_nil node⟩
  | taskRun g =>
    simp only [step, Option.some.injEq] at hs
    subst hs
    unfold taskRun
    cases hg : st.loadingTasks.find g with
    | none => exact same rfl
    | some task =>
      simp only []
      split_ifs
      · exact ⟨hu, [], by simp, List.not_mem_nil node⟩
      · exact same rfl
  | taskFinish g b p =>
    simp only [step, Option.some.injEq] at hs
    subst hs
    unfold taskFinish
    cases hg : st.loadingTasks.find g with
    | none => exact same rfl
    | some task =>
      simp only []
      split_ifs
      · exact ⟨hu, [], by simp, List.not_mem_nil node⟩
      · exact same rfl

theorem run_untracked (ops : List Op) (st st1 : Loader) (node : Nat) (hi : Inv st)
    (hu : Untracked node st) (hops : ∀ op ∈ ops, op.registers node = false)
    (hr : run st ops = some st1) :
    Untracked node st1 ∧
    ∃ calls, st1.invalidated = st.invalidated ++ calls ∧ node ∉ calls := by
  induction ops generalizing st with
  | nil =>
    simp only [run, Option.some.injEq] at hr
    subst hr
    exact ⟨hu, [], by simp, List.not_mem_nil node⟩
  | cons op ops ih =>
    simp only [run] at hr
    cases hs : step st op with
    | none => simp [hs] at hr
    | some st2 =>
      simp only [hs] at hr
      obtain ⟨u2, c1, e1, n1⟩ :=
        step_untracked st st2 op node hi hu (hops op (List.mem_cons_self op ops)) hs
      obtain ⟨u3, c2, e2, n2⟩ := ih st2 (step_inv st st2 op hi hs) u2
        (fun o ho => hops o (List.mem_cons_of_mem op ho)) hr
      refine ⟨u3, c1 ++ c2, ?_, ?_⟩
      · rw [e2, e1, List.append_assoc]
      · intro hin
        rcases List.mem_append.1 hin with h | h
        · exact n1 h
        · exact n2 h

/-- Claim C30.  A canceled layer is not notified.  On a reachable loader let
`cancelAsyncContent(node)` return; the layer may have been waiting in the completed batch,
and its sources may be shared with other layers.  Then the layer is not in the completed
batch, and through every later sequence of calls that holds no `addAsyncContent` of a
content for this layer, the `invalidateAsyncContent` calls made do not include the layer. -/
theorem C30_canceled_not_notified (cap : Nat) (st st1 : Loader) (node : Nat)
    (hr : Reachable cap st) (hcancel : st.cancelAsyncContent node = some st1) :
    node ∉ st1.completeLayers ∧ st1.invalidated = st.invalidated ∧
    ∀ ops st2, (∀ op ∈ ops, op.registers node = false) → run st1 ops = some st2 →
      ∃ calls, st2.invalidated = st1.invalidated ++ calls ∧ node ∉ calls ∧
        calls.count node = 0 := by
  have hi1 := cancelAsyncContent_inv st st1 node hr.inv hcancel
  have hu1 := cancelAsyncContent_untracked st st1 node hcancel
  refine ⟨hu1.1, cancelAsyncContent_invalidated st st1 node hcancel, ?_⟩
  intro ops st2 hops hrun
  obtain ⟨_, calls, e, n⟩ := run_untracked ops st1 st2 node hi1 hu1 hops hrun
  exact ⟨calls, e, n, List.count_eq_zero_of_not_mem n⟩

theorem C30_canceled_not_notified_witness :
    ∃ st1, (sampleTwoLayers.taskFinish 8 (some 100) 0 |>.onAttached 5).cancelAsyncContent 1 =
        some st1 ∧
      1 ∈ (sampleTwoLayers.taskFinish 8 (some 100) 0 |>.onAttached 5).completeLayers ∧
      ∀ st2, run st1 [Op.taskFinish 7 none 0, Op.onAttached 6] = some st2 →
        ∃ calls, st2.invalidated = st1.invalidated ++ calls ∧ 1 ∉ calls ∧
          calls.count 1 = 0 :=
  have h := C30_canceled_not_notified 2
    (sampleTwoLayers.taskFinish 8 (some 100) 0 |>.onAttached 5) _ 1
    ⟨[Op.addAsyncContent 1 (some [GraphicRequest.image 8 true]),
      Op.addAsyncContent 2 (some [GraphicRequest.image 7 true]), Op.onDetached,
      Op.taskFinish 8 (some 100) 0, Op.onAttached 5], by decide⟩ rfl
  ⟨_, rfl, by decide, fun st2 hrun => h.2.2 _ st2 (by decide) hrun⟩

end Loader

end tgfx
